import Mathlib

/-!
# GenCPP: fixed-width cultivar / ecotype codec and range validation

A shallow embedding of `CulParser.cpp`, `EcoParser.cpp`, `CulTableModel.cpp` and
`EcoTableModel.cpp`, followed by theorems about the embedded functions.

Conventions of the embedding:

* `QString` is a list of characters, `QVector<T>` / `QStringList` a list;
* `double` is `Dbl`: a NaN, a signed infinity, or a signed dyadic number
  `m * 2^e`; comparisons, decimal rendering and decimal reading are computed
  exactly on that representation;
* the Qt library functions the sources call (`trimmed`, `mid`, `split`,
  `arg`, `toDouble`, `qRound`, ...) are modelled after their documentation.
-/

namespace GenCPP

/-! ## Qt strings -/

/-- A `QString`, as the list of its characters. -/
abbrev QString := List Char

/-- The test `QChar::isSpace`: the ASCII white space characters 9 to 13 and 32,
NEL, NBSP and the Unicode separator categories. -/
def isSpace (c : Char) : Bool :=
  let n := c.toNat
  (9 ≤ n && n ≤ 13) || n == 32 || n == 0x85 || n == 0xA0 || n == 0x1680
    || (0x2000 ≤ n && n ≤ 0x200A) || n == 0x2028 || n == 0x2029
    || n == 0x202F || n == 0x205F || n == 0x3000

/-- The class `\s` of `QRegularExpression` (no Unicode-properties option):
space, tab, line feed, vertical tab, form feed, carriage return. -/
def isReSpace (c : Char) : Bool :=
  let n := c.toNat
  (9 ≤ n && n ≤ 13) || n == 32

/-- The string `QString::trimmed()`: white space removed from both ends. -/
def trimmed (s : QString) : QString :=
  ((s.dropWhile isSpace).reverse.dropWhile isSpace).reverse

/-- The string `QString::left(n)`: the whole string when `n` is negative or
not smaller than the size. -/
def left (s : QString) (n : Int) : QString :=
  if n < 0 ∨ (s.length : Int) ≤ n then s else s.take n.toNat

/-- The string `QString::mid(pos, n)` for non-negative `pos` and `n`. -/
def mid (s : QString) (pos n : Nat) : QString :=
  (s.drop pos).take n

/-- The string `QString::mid(pos)`: everything from `pos` on. -/
def midFrom (s : QString) (pos : Nat) : QString :=
  s.drop pos

/-- The string `QString::leftJustified(width, fill)` (no truncation). -/
def leftJustified (s : QString) (width : Nat) (fill : Char) : QString :=
  s ++ List.replicate (width - s.length) fill

/-- The string `QString::rightJustified(width, fill)` (no truncation). -/
def rightJustified (s : QString) (width : Nat) (fill : Char) : QString :=
  List.replicate (width - s.length) fill ++ s

/-- Worker of `splitWs`: `cur` is the token being read. -/
def splitWsAux : List Char → QString → List QString
  | [], cur => if cur.isEmpty then [] else [cur]
  | c :: cs, cur =>
    if isReSpace c then
      (if cur.isEmpty then splitWsAux cs [] else cur :: splitWsAux cs [])
    else splitWsAux cs (cur ++ [c])

/-- The list `s.split(QRegularExpression("\\s+"), Qt::SkipEmptyParts)`: the
maximal runs of characters outside `\s`. -/
def splitWs (s : QString) : List QString :=
  splitWsAux s []

/-! ## Doubles -/

/-- A `double`: NaN, a signed infinity, or the signed dyadic number
`(-1)^neg * m * 2^e`. -/
inductive Dbl where
  | nan : Dbl
  | inf (neg : Bool) : Dbl
  | fin (neg : Bool) (m : Nat) (e : Int) : Dbl
deriving DecidableEq, Repr

namespace Dbl

/-- The test `std::isfinite`. -/
def isFinite : Dbl → Bool
  | fin _ _ _ => true
  | _ => false

/-- A finite value that a binary64 can hold: 53 significant bits and an
exponent of the unit in the last place between -1074 and 971. -/
def isBinary64 : Dbl → Prop
  | fin _ m e => m < 2 ^ 53 ∧ -1074 ≤ e ∧ e ≤ 971
  | _ => True

/-- The rational number a finite double denotes (0 for the others). -/
def toRat : Dbl → ℚ
  | fin neg m e => (if neg then -1 else 1) * (m : ℚ) * (2 : ℚ) ^ e
  | _ => 0

/-- The signed integer `± m * 2^(e - e0)`, for `e0 ≤ e`. -/
def scaledInt (neg : Bool) (m : Nat) (e e0 : Int) : Int :=
  let k : Int := (m : Int) * 2 ^ (e - e0).toNat
  if neg then -k else k

/-- The comparison `a < b` of doubles (false when either is NaN). -/
def lt : Dbl → Dbl → Bool
  | nan, _ => false
  | _, nan => false
  | inf na, inf nb => na && !nb
  | inf na, fin _ _ _ => na
  | fin _ _ _, inf nb => !nb
  | fin na ma ea, fin nb mb eb =>
    decide (scaledInt na ma ea (min ea eb) < scaledInt nb mb eb (min ea eb))

/-- The comparison `a > b` of doubles. -/
def gt (a b : Dbl) : Bool := lt b a

/-- The comparison `a <= b` of doubles (false when either is NaN). -/
def le : Dbl → Dbl → Bool
  | nan, _ => false
  | _, nan => false
  | inf na, inf nb => na || !nb
  | inf na, fin _ _ _ => na
  | fin _ _ _, inf nb => !nb
  | fin na ma ea, fin nb mb eb =>
    decide (scaledInt na ma ea (min ea eb) ≤ scaledInt nb mb eb (min ea eb))

/-- The comparison `a >= b` of doubles. -/
def ge (a b : Dbl) : Bool := le b a

/-- The double `0.0`. -/
def zero : Dbl := fin false 0 0

/-- The double of a natural number below `2^53`. -/
def ofNat (n : Nat) : Dbl := fin false n 0

/-- Worker of `decDigits`, with fuel. -/
def decDigitsAux : Nat → Nat → List Char
  | 0, _ => []
  | fuel + 1, n =>
    (if n < 10 then [] else decDigitsAux fuel (n / 10)) ++ [Nat.digitChar (n % 10)]

/-- The decimal digits of a natural number, most significant first. -/
def decDigits (n : Nat) : List Char :=
  decDigitsAux (n + 1) n

/-- The magnitude `m * 2^e * 10^d` rounded to the nearest natural number,
halves upwards. -/
def scaledRound (m : Nat) (e : Int) (d : Nat) : Nat :=
  match e with
  | Int.ofNat k => m * 2 ^ k * 10 ^ d
  | Int.negSucc k => (2 * (m * 10 ^ d) + 2 ^ (k + 1)) / (2 * 2 ^ (k + 1))

/-- The decimal text of `n / 10^d` with exactly `d` decimals: the integer part,
and for `d > 0` a point and the `d` fractional digits. -/
def fixedDigits (n d : Nat) : QString :=
  decDigits (n / 10 ^ d) ++
    (if d = 0 then []
     else '.' :: rightJustified (decDigits (n % 10 ^ d)) d '0')

/-- The text of a double in format `'f'` with `prec` decimals, as
`QLocale` (C locale) renders it: the value is rounded to `prec` decimals,
halves away from zero; a minus sign is written for every negative value
other than zero, also when it rounds to zero. -/
def toFixed (v : Dbl) (prec : Nat) : QString :=
  match v with
  | nan => "nan".toList
  | inf neg => if neg then "-inf".toList else "inf".toList
  | fin neg m e =>
    (if neg && m != 0 then ['-'] else []) ++ fixedDigits (scaledRound m e prec) prec

end Dbl

/-- The string `QString("%1").arg(value, fieldWidth, 'f', prec)`: the fixed
point text, right-aligned in a field of at least `fieldWidth` characters. -/
def argF (value : Dbl) (fieldWidth prec : Nat) : QString :=
  rightJustified (value.toFixed prec) fieldWidth ' '

/-- The integer `qRound(value)`: the nearest integer, halves away from zero.
Undefined (`none`) when the value is not finite or the result is no `int`. -/
def qRound (value : Dbl) : Option Int :=
  match value with
  | Dbl.fin neg m e =>
    let r : Int := Dbl.scaledRound m e 0
    let i : Int := if neg then -r else r
    if -2147483648 ≤ i ∧ i ≤ 2147483647 then some i else none
  | _ => none

/-- The string `QString::number(n)` of an `int`. -/
def numberInt (n : Int) : QString :=
  match n with
  | Int.ofNat k => Dbl.decDigits k
  | Int.negSucc k => '-' :: Dbl.decDigits (k + 1)

/-! ## Reading a double from text -/

/-- A decimal numeral: the number `(-1)^neg * mant * 10^exp`. -/
structure Numeral where
  neg : Bool
  mant : Nat
  exp : Int
deriving DecidableEq, Repr

/-- The value of a string of decimal digits. -/
def digitsVal (ds : List Char) : Nat :=
  ds.foldl (fun acc c => 10 * acc + (c.toNat - 48)) 0

/-- Splits an optional sign off a numeral. -/
def takeSign : List Char → Bool × List Char
  | '-' :: r => (true, r)
  | '+' :: r => (false, r)
  | r => (false, r)

/-- The exponent part of a numeral: nothing, or `e` / `E`, an optional sign and
at least one digit, up to the end of the text. -/
def parseExponent : List Char → Option Int
  | [] => some 0
  | c :: cs =>
    if c = 'e' ∨ c = 'E' then
      let sd := takeSign cs
      if sd.2 ≠ [] ∧ sd.2.all Char.isDigit then
        some (if sd.1 then -(digitsVal sd.2 : Int) else (digitsVal sd.2 : Int))
      else none
    else none

/-- The numeral grammar of the C locale: an optional sign, digits with an
optional decimal point (at least one digit in all), an optional exponent. -/
def parseNumeral (s : List Char) : Option Numeral :=
  let sd := takeSign s
  let ip := sd.2.takeWhile Char.isDigit
  let r1 := sd.2.dropWhile Char.isDigit
  let fr : List Char × List Char :=
    match r1 with
    | '.' :: r => (r.takeWhile Char.isDigit, r.dropWhile Char.isDigit)
    | r => ([], r)
  if ip = [] ∧ fr.1 = [] then none
  else
    match parseExponent fr.2 with
    | none => none
    | some x => some ⟨sd.1, digitsVal (ip ++ fr.1), x - fr.1.length⟩

/-- Worker of `bitLen`, with fuel. -/
def bitLenAux : Nat → Nat → Nat
  | 0, _ => 0
  | fuel + 1, n => if n = 0 then 0 else bitLenAux fuel (n / 2) + 1

/-- The number of binary digits of `n` (0 for 0). -/
def bitLen (n : Nat) : Nat :=
  bitLenAux n n

/-- The test `2^k ≤ p / q`, for an integer `k`. -/
def geTwoPow (p q : Nat) (k : Int) : Bool :=
  match k with
  | Int.ofNat n => decide (q * 2 ^ n ≤ p)
  | Int.negSucc n => decide (q ≤ p * 2 ^ (n + 1))

/-- The exponent of the unit in the last place of the binary64 nearest to
`p / q` (`p, q > 0`): 52 below the binary exponent of `p / q`, and at least
-1074. -/
def ulpExp (p q : Nat) : Int :=
  let k0 : Int := (bitLen p : Int) - (bitLen q : Int)
  let k : Int := if geTwoPow p q k0 then k0 else k0 - 1
  max k (-1022) - 52

/-- The integer nearest to `num / den`, ties to the even one. -/
def roundTiesEven (num den : Nat) : Nat :=
  if 2 * (num % den) < den then num / den
  else if den < 2 * (num % den) then num / den + 1
  else if (num / den) % 2 = 0 then num / den else num / den + 1

/-- The binary64 nearest to `± p / q` (`q > 0`), ties to the even significand;
an infinity when the rounded magnitude is `2^1024` or more. -/
def roundBinary64 (neg : Bool) (p q : Nat) : Dbl :=
  if p = 0 then Dbl.fin neg 0 0
  else
    let u : Int := ulpExp p q
    let m := roundTiesEven (p * 2 ^ (-u).toNat) (q * 2 ^ u.toNat)
    let mu : Nat × Int := if m = 2 ^ 53 then (2 ^ 52, u + 1) else (m, u)
    if 971 < mu.2 then Dbl.inf neg else Dbl.fin neg mu.1 mu.2

/-- The double of a numeral, as `QString::toDouble` gives it: the nearest
binary64, an infinity on overflow, and `0.0` when a non-zero numeral
underflows to zero. -/
def Numeral.toDbl (n : Numeral) : Dbl :=
  let v := if 0 ≤ n.exp then roundBinary64 n.neg (n.mant * 10 ^ n.exp.toNat) 1
           else roundBinary64 n.neg n.mant (10 ^ (-n.exp).toNat)
  match v with
  | Dbl.fin _ 0 _ => if n.mant = 0 then v else Dbl.zero
  | _ => v

/-- The double `QString::toDouble()` returns (C locale): white space around
the text is ignored; `nan` and `inf`, the latter with an optional sign, are
read in any letter case; any other text that is no numeral gives `0.0`. -/
def toDouble (s : QString) : Dbl :=
  let t := (trimmed s).map Char.toLower
  if t = "nan".toList then Dbl.nan
  else if t = "inf".toList ∨ t = "+inf".toList then Dbl.inf false
  else if t = "-inf".toList then Dbl.inf true
  else
    match parseNumeral t with
    | some n => n.toDbl
    | none => Dbl.zero

/-! ## Text files -/

/-- Reading through a device opened with `QIODevice::Text`: every end-of-line
terminator `CR LF` arrives as `LF`. -/
def textModeRead : List Char → List Char
  | [] => []
  | c :: cs =>
    if c = '\r' ∧ cs.head? = some '\n' then textModeRead cs else c :: textModeRead cs

/-- Removes one trailing carriage return, if there is one. -/
def chopCR (s : QString) : QString :=
  if s.getLast? = some '\r' then s.dropLast else s

/-- Worker of `readLines`: `cur` is the line being read. -/
def readLinesAux : List Char → QString → List QString
  | [], cur => if cur.isEmpty then [] else [cur]
  | c :: cs, cur =>
    if c = '\n' then chopCR cur :: readLinesAux cs [] else readLinesAux cs (cur ++ [c])

/-- The lines `QTextStream::readLine()` returns until `atEnd()`: a line ends at
`LF` or `CR LF`, the terminator is not part of the line, and text after the last
terminator is a line when it is not empty. -/
def readLines (text : List Char) : List QString :=
  readLinesAux (textModeRead text) []

/-- The text `out << line << "\r\n"` adds to the stream for each line. -/
def emitLines (lines : List QString) : List Char :=
  (lines.map fun l => l ++ ['\r', '\n']).flatten

/-! ## CulParser -/

/-- The names of the 18 cultivar parameters, `CUL_PARAM_NAMES`. -/
def CUL_PARAM_NAMES : List QString :=
  ["CSDL", "PPSEN", "EM-FL", "FL-SH", "FL-SD", "SD-PM", "FL-LF",
   "LFMAX", "SLAVR", "SIZLF", "XFRT", "WTPSD", "SFDUR", "SDPDV",
   "PODUR", "THRSH", "SDPRO", "SDLIP"].map String.toList

/-- A row of a cultivar file, `struct CulRow`. -/
structure CulRow where
  varNum : QString := []
  vrName : QString := []
  expNo : QString := []
  ecoNum : QString := []
  params : List Dbl := []
  isMinMax : Bool := false
deriving DecidableEq, Repr

/-- An entry of the format table: the decimals and the trailing-period flag. -/
structure CulFmt where
  decimals : Nat
  trailingDot : Bool
deriving DecidableEq, Repr

/-- The format table `CUL_FMTS` of the 18 cultivar parameters. -/
def CUL_FMTS : List CulFmt :=
  [⟨2, false⟩, ⟨3, false⟩, ⟨1, false⟩, ⟨1, false⟩, ⟨1, false⟩, ⟨1, false⟩,
   ⟨1, false⟩, ⟨3, false⟩, ⟨0, true⟩, ⟨1, false⟩, ⟨3, false⟩, ⟨3, false⟩,
   ⟨1, false⟩, ⟨2, false⟩, ⟨1, false⟩, ⟨1, false⟩, ⟨3, false⟩, ⟨3, false⟩]

/-- The reserved identifier of the minima row. -/
def ID_MIN : QString := "999991".toList

/-- The reserved identifier of the maxima row. -/
def ID_MAX : QString := "999992".toList

/-- The test `first == '*' || first == '!' || first == '@'`. -/
def isHeaderMark (c : Char) : Bool :=
  c == '*' || c == '!' || c == '@'

/-- Appends `0.0` while the vector has fewer than `n` elements. -/
def padParams (ps : List Dbl) (n : Nat) : List Dbl :=
  ps ++ List.replicate (n - ps.length) Dbl.zero

/-- The parameters read from the tokens: the loop
`for (i = 2; i < tokens.size() && params.size() < n; ++i) params << tokens[i].toDouble()`
followed by the padding loop. -/
def readParams (tokens : List QString) (n : Nat) : List Dbl :=
  padParams (((tokens.drop 2).take n).map toDouble) n

namespace CulParser

/-- The function `CulParser::formatParam`. The general number format used for an
index outside the table is the parameter `g`; the result is undefined (`none`)
where `qRound` is. -/
def formatParam (g : Dbl → Nat → QString) (value : Dbl) (idx : Int) : Option QString :=
  if idx < 0 ∨ idx ≥ 18 then some (g value 5)
  else
    match CUL_FMTS[idx.toNat]? with
    | none => some (g value 5)
    | some fmt =>
      if fmt.trailingDot then
        (qRound value).map fun r => rightJustified (numberInt r ++ ['.']) 5 ' '
      else some (argF value 5 fmt.decimals)

/-- The body of the loop of `CulParser::parse` for a line that is no header
line: the row it appends, or `none` where the code says `continue`. -/
def parseDataLine (line : QString) : Option CulRow :=
  if line.length < 36 then none
  else
    let varNum := trimmed (left line 6)
    let vrName := trimmed (mid line 7 13)
    let rest := midFrom line 20
    let tokens := splitWs rest
    if tokens.isEmpty then none
    else if tokens.length < 2 then none
    else
      let expNo := if tokens.getD 0 [] = ['.'] then ['.'] else tokens.getD 0 []
      let ecoNum := tokens.getD 1 []
      let params := readParams tokens 18
      some { varNum := varNum, vrName := vrName, expNo := expNo, ecoNum := ecoNum,
             params := params, isMinMax := (varNum == ID_MIN || varNum == ID_MAX) }

/-- The result of `parse`: the returned rows and the header lines. -/
structure Parsed where
  rows : List CulRow
  headerLines : List QString
deriving DecidableEq, Repr

/-- One turn of the loop of `CulParser::parse`, on the line `readLine` gave. -/
def parseStep (acc : Parsed) (line0 : QString) : Parsed :=
  let line := chopCR line0
  if line.isEmpty then { acc with headerLines := acc.headerLines ++ [line] }
  else if isHeaderMark (line.headD ' ') then
    { acc with headerLines := acc.headerLines ++ [line] }
  else
    match parseDataLine line with
    | none => acc
    | some row => { acc with rows := acc.rows ++ [row] }

/-- The function `CulParser::parse`, on the content of the file (`none` when the
file cannot be opened). -/
def parse (file : Option (List Char)) : Parsed :=
  match file with
  | none => ⟨[], []⟩
  | some text => (readLines text).foldl parseStep ⟨[], []⟩

/-- The loop over the 18 parameters in `CulParser::formatRow`, from index `i`
on, `k` fields to go. -/
def formatParams (g : Dbl → Nat → QString) (params : List Dbl) : Nat → Nat → Option QString
  | _, 0 => some []
  | i, k + 1 =>
    match formatParam g (params.getD i Dbl.zero) i, formatParams g params (i + 1) k with
    | some f, some tail => some (f ++ (if i < 17 then [' '] else []) ++ tail)
    | _, _ => none

/-- The function `CulParser::formatRow`. -/
def formatRow (g : Dbl → Nat → QString) (row : CulRow) : Option QString :=
  (formatParams g row.params 0 18).map fun ps =>
    leftJustified row.varNum 6 ' ' ++ [' '] ++ leftJustified row.vrName 13 ' '
      ++ rightJustified row.expNo 1 ' ' ++ "       . ".toList
      ++ leftJustified row.ecoNum 6 ' ' ++ [' '] ++ ps

/-- The formatted text of every row, or `none` when one is undefined. -/
def formatRows (g : Dbl → Nat → QString) : List CulRow → Option (List QString)
  | [] => some []
  | r :: rs =>
    match formatRow g r, formatRows g rs with
    | some l, some ls => some (l :: ls)
    | _, _ => none

/-- The function `CulParser::write`: the returned flag and the text written,
for a destination that can (`writable`) or cannot be opened. -/
def write (g : Dbl → Nat → QString) (writable : Bool) (rows : List CulRow)
    (headerLines : List QString) : Option (Bool × List Char) :=
  if !writable then some (false, [])
  else (formatRows g rows).map fun ls => (true, emitLines headerLines ++ emitLines ls)

/-- The function `CulParser::parseLine`. -/
def parseLine (rawLine : QString) : CulRow :=
  let line := trimmed rawLine
  if line.isEmpty || isHeaderMark (line.headD ' ') then {}
  else if line.length < 36 then {}
  else
    let varNum := trimmed (left line 6)
    let vrName := trimmed (mid line 7 13)
    let rest := midFrom line 20
    let tokens := splitWs rest
    if tokens.isEmpty then { vrName := vrName }
    else if tokens.length < 2 then { vrName := vrName }
    else
      let expNo := if tokens.getD 0 [] = ['.'] then ['.'] else tokens.getD 0 []
      let ecoNum := tokens.getD 1 []
      let params := readParams tokens 18
      { varNum := varNum, vrName := vrName, expNo := expNo, ecoNum := ecoNum,
        params := params, isMinMax := (varNum == ID_MIN || varNum == ID_MAX) }

end CulParser

/-! ## EcoParser -/

/-- The names of the 16 ecotype parameters, `ECO_PARAM_NAMES`. -/
def ECO_PARAM_NAMES : List QString :=
  ["PP-SS", "PL-EM", "EM-V1", "V1-JU", "JU-R0", "PM06", "PM09",
   "LNHSH", "R7-R8", "FL-VS", "TRIFL", "RWDTH", "RHGHT", "R1PPO", "OPTBI",
   "SLOBI"].map String.toList

/-- A row of an ecotype file, `struct EcoRow`. -/
structure EcoRow where
  ecoNum : QString := []
  ecoName : QString := []
  mg : QString := []
  tm : QString := []
  params : List Dbl := []
  isMinMax : Bool := false
deriving DecidableEq, Repr

/-- The decimals of the 16 ecotype parameters, `ECO_FMTS`. -/
def ECO_FMTS : List Nat :=
  [3, 1, 1, 1, 2, 2, 2, 2, 1, 1, 3, 2, 2, 3, 1, 3]

namespace EcoParser

/-- The function `EcoParser::formatParam`. The general number format used for an
index outside the table is the parameter `g`. -/
def formatParam (g : Dbl → Nat → QString) (value : Dbl) (idx : Int) : QString :=
  if idx < 0 ∨ idx ≥ 16 then g value 5
  else
    match ECO_FMTS[idx.toNat]? with
    | none => g value 5
    | some d => argF value 5 d

/-- The body of the loop of `EcoParser::parse` for a line that is no header
line: the row it appends, or `none` where the code says `continue`. -/
def parseDataLine (line : QString) : Option EcoRow :=
  if line.length < 23 then none
  else
    let ecoNum := trimmed (left line 6)
    let ecoName := trimmed (mid line 7 16)
    let tokens := splitWs (midFrom line 23)
    if tokens.length < 2 then none
    else
      some { ecoNum := ecoNum, ecoName := ecoName, mg := tokens.getD 0 [],
             tm := tokens.getD 1 [], params := readParams tokens 16,
             isMinMax := (ecoNum == ID_MIN || ecoNum == ID_MAX) }

/-- The result of `parse`: the returned rows and the header lines. -/
structure Parsed where
  rows : List EcoRow
  headerLines : List QString
deriving DecidableEq, Repr

/-- One turn of the loop of `EcoParser::parse`, on the line `readLine` gave. -/
def parseStep (acc : Parsed) (line0 : QString) : Parsed :=
  let line := chopCR line0
  if line.isEmpty then { acc with headerLines := acc.headerLines ++ [line] }
  else if isHeaderMark (line.headD ' ') then
    { acc with headerLines := acc.headerLines ++ [line] }
  else
    match parseDataLine line with
    | none => acc
    | some row => { acc with rows := acc.rows ++ [row] }

/-- The function `EcoParser::parse`, on the content of the file (`none` when the
file cannot be opened). -/
def parse (file : Option (List Char)) : Parsed :=
  match file with
  | none => ⟨[], []⟩
  | some text => (readLines text).foldl parseStep ⟨[], []⟩

/-- The loop over the 16 parameters in `EcoParser::formatRow`, from index `i`
on, `k` fields to go. -/
def formatParams (g : Dbl → Nat → QString) (params : List Dbl) : Nat → Nat → QString
  | _, 0 => []
  | i, k + 1 =>
    formatParam g (params.getD i Dbl.zero) i ++ (if i < 15 then [' '] else [])
      ++ formatParams g params (i + 1) k

/-- The function `EcoParser::formatRow`. -/
def formatRow (g : Dbl → Nat → QString) (row : EcoRow) : QString :=
  leftJustified row.ecoNum 6 ' ' ++ [' '] ++ leftJustified row.ecoName 16 ' '
    ++ leftJustified row.mg 2 ' ' ++ [' '] ++ leftJustified row.tm 2 ' ' ++ [' ']
    ++ formatParams g row.params 0 16

/-- The function `EcoParser::write`: the returned flag and the text written,
for a destination that can (`writable`) or cannot be opened. -/
def write (g : Dbl → Nat → QString) (writable : Bool) (rows : List EcoRow)
    (headerLines : List QString) : Bool × List Char :=
  if !writable then (false, [])
  else (true, emitLines headerLines ++ emitLines (rows.map (formatRow g)))

end EcoParser

/-! ## Table models -/

/-- A `QModelIndex`: its row and column; it is valid when neither is negative. -/
structure QModelIndex where
  row : Int
  column : Int
deriving DecidableEq, Repr

/-- The test `QModelIndex::isValid()`. -/
def QModelIndex.isValid (i : QModelIndex) : Bool :=
  decide (0 ≤ i.row) && decide (0 ≤ i.column)

/-- A `QVariant`, by the two conversions the models apply to it: `toString()`
and `toDouble(&ok)` (`none` when `ok` is false). -/
structure QVariant where
  toString : QString
  toDouble : Option Dbl
deriving DecidableEq, Repr

/-- The role `Qt::EditRole`. -/
def EditRole : Int := 2

/-- A record of `getViolations`, `struct Violation`. -/
structure Violation where
  row : Nat
  varNum : QString
  paramName : QString
  value : Dbl
  minVal : Dbl
  maxVal : Dbl
deriving DecidableEq, Repr

/-- The state of a `CulTableModel`: its data members. -/
structure CulTableModel where
  m_rows : List CulRow := []
  m_minParams : List Dbl := []
  m_maxParams : List Dbl := []
  m_tips : List (QString × QString) := []
  m_calibTypes : List (QString × QString) := []
deriving DecidableEq, Repr

namespace CulTableModel

/-- The column index `COL_VARNUM`. -/
def COL_VARNUM : Int := 0
/-- The column index `COL_VRNAME`. -/
def COL_VRNAME : Int := 1
/-- The column index `COL_EXPNO`. -/
def COL_EXPNO : Int := 2
/-- The column index `COL_ECONUM`. -/
def COL_ECONUM : Int := 3
/-- The column index `COL_PARAM0`. -/
def COL_PARAM0 : Int := 4

/-- One turn of the loop of `setRows` that extracts the bounds. -/
def boundsStep (acc : List Dbl × List Dbl) (r : CulRow) : List Dbl × List Dbl :=
  let a := if r.varNum = ID_MIN then (r.params, acc.2) else acc
  if r.varNum = ID_MAX then (a.1, r.params) else a

/-- The function `CulTableModel::setRows`. -/
def setRows (self : CulTableModel) (rows : List CulRow) : CulTableModel :=
  let b := rows.foldl boundsStep ([], [])
  { self with m_rows := rows, m_minParams := b.1, m_maxParams := b.2 }

/-- The function `CulTableModel::setMinMaxRows`. -/
def setMinMaxRows (self : CulTableModel) (minRow maxRow : Option CulRow) : CulTableModel :=
  { self with m_minParams := (minRow.map (·.params)).getD [],
              m_maxParams := (maxRow.map (·.params)).getD [] }

/-- The function `CulTableModel::isOutOfRange`. -/
def isOutOfRange (self : CulTableModel) (paramIdx : Nat) (value : Dbl) : Bool :=
  match self.m_minParams[paramIdx]?, self.m_maxParams[paramIdx]? with
  | some lo, some hi => if Dbl.gt hi lo then (Dbl.lt value lo || Dbl.gt value hi) else false
  | _, _ => false

/-- The body of the inner loop of `getViolations`, for row `r` and position `p`. -/
def cellStep (self : CulTableModel) (r : Nat) (row : CulRow) (acc : List Violation)
    (p : Nat) : List Violation :=
  if self.isOutOfRange p (row.params.getD p Dbl.zero) then
    acc ++ [{ row := r, varNum := row.varNum, paramName := CUL_PARAM_NAMES.getD p [],
              value := row.params.getD p Dbl.zero,
              minVal := self.m_minParams.getD p Dbl.zero,
              maxVal := self.m_maxParams.getD p Dbl.zero }]
  else acc

/-- The body of the outer loop of `getViolations`, for row index `r`. -/
def rowStep (self : CulTableModel) (acc : List Violation) (r : Nat) : List Violation :=
  match self.m_rows[r]? with
  | none => acc
  | some row =>
    if row.isMinMax then acc
    else (List.range (min row.params.length CUL_PARAM_NAMES.length)).foldl
      (cellStep self r row) acc

/-- The function `CulTableModel::getViolations`. -/
def getViolations (self : CulTableModel) : List Violation :=
  (List.range self.m_rows.length).foldl (rowStep self) []

/-- The function `CulTableModel::setData`: the returned flag and the new state. -/
def setData (self : CulTableModel) (index : QModelIndex) (value : QVariant) (role : Int) :
    Bool × CulTableModel :=
  if role ≠ EditRole ∨ !index.isValid ∨ index.row ≥ self.m_rows.length then (false, self)
  else
    match self.m_rows[index.row.toNat]? with
    | none => (false, self)
    | some row =>
      if row.isMinMax then (false, self)
      else
        let put := fun (r : CulRow) =>
          (true, { self with m_rows := self.m_rows.set index.row.toNat r })
        let col := index.column
        if col = COL_VARNUM then put { row with varNum := left value.toString 6 }
        else if col = COL_VRNAME then put { row with vrName := left value.toString 13 }
        else if col = COL_EXPNO then put { row with expNo := left value.toString 1 }
        else if col = COL_ECONUM then put { row with ecoNum := left value.toString 6 }
        else
          let p := col - COL_PARAM0
          if 0 ≤ p ∧ p < row.params.length then
            match value.toDouble with
            | none => (false, self)
            | some v => put { row with params := row.params.set p.toNat v }
          else (false, self)

/-- The function `CulTableModel::addRow`. -/
def addRow (self : CulTableModel) : CulTableModel :=
  { self with m_rows := self.m_rows ++
      [{ varNum := "NEW001".toList, vrName := "NEW CULTIVAR".toList, expNo := " ".toList,
         ecoNum := "DFAULT".toList, params := List.replicate 18 Dbl.zero,
         isMinMax := false }] }

/-- The function `CulTableModel::duplicateRow`. -/
def duplicateRow (self : CulTableModel) (row : Int) : CulTableModel :=
  if row < 0 ∨ row ≥ self.m_rows.length then self
  else
    match self.m_rows[row.toNat]? with
    | none => self
    | some r =>
      { self with m_rows := self.m_rows ++
          [{ r with isMinMax := false, varNum := r.varNum ++ ['X'] }] }

/-- The function `CulTableModel::deleteRow`. -/
def deleteRow (self : CulTableModel) (row : Int) : CulTableModel :=
  if row < 0 ∨ row ≥ self.m_rows.length then self
  else
    match self.m_rows[row.toNat]? with
    | none => self
    | some r =>
      if r.isMinMax then self
      else { self with m_rows := self.m_rows.eraseIdx row.toNat }

/-- The record the report holds for the cell at row `r` and position `p`, in
the words of the specification: the row is no sentinel row, a bound pair exists
at `p`, the maximum strictly exceeds the minimum and the value lies strictly
outside the two bounds. -/
def violationAt (self : CulTableModel) (r p : Nat) : Option Violation :=
  match self.m_rows[r]? with
  | none => none
  | some row =>
    match row.params[p]?, self.m_minParams[p]?, self.m_maxParams[p]? with
    | some v, some lo, some hi =>
      if !row.isMinMax && Dbl.gt hi lo && (Dbl.lt v lo || Dbl.gt v hi) then
        some { row := r, varNum := row.varNum, paramName := CUL_PARAM_NAMES.getD p [],
               value := v, minVal := lo, maxVal := hi }
      else none
    | _, _, _ => none

/-- The report in the words of the specification: one record per out-of-range
cell, by row index and then by position below 18. -/
def violationReport (self : CulTableModel) : List Violation :=
  (List.range self.m_rows.length).flatMap fun r =>
    (List.range 18).filterMap (self.violationAt r)

end CulTableModel

/-- The state of an `EcoTableModel`: its data members. -/
structure EcoTableModel where
  m_rows : List EcoRow := []
  m_refCounts : List (QString × Int) := []
  m_tips : List (QString × QString) := []
deriving DecidableEq, Repr

namespace EcoTableModel

/-- The column index `COL_ECONUM`. -/
def COL_ECONUM : Int := 0
/-- The column index `COL_ECONAME`. -/
def COL_ECONAME : Int := 1
/-- The column index `COL_MG`. -/
def COL_MG : Int := 2
/-- The column index `COL_TM`. -/
def COL_TM : Int := 3
/-- The column index `COL_REFS`. -/
def COL_REFS : Int := 4
/-- The column index `COL_PARAM0`. -/
def COL_PARAM0 : Int := 5

/-- The function `EcoTableModel::setRows`. -/
def setRows (self : EcoTableModel) (rows : List EcoRow) : EcoTableModel :=
  { self with m_rows := rows }

/-- The function `EcoTableModel::setData`: the returned flag and the new state. -/
def setData (self : EcoTableModel) (index : QModelIndex) (value : QVariant) (role : Int) :
    Bool × EcoTableModel :=
  if role ≠ EditRole ∨ !index.isValid ∨ index.row ≥ self.m_rows.length then (false, self)
  else
    match self.m_rows[index.row.toNat]? with
    | none => (false, self)
    | some row =>
      if row.isMinMax then (false, self)
      else
        let put := fun (r : EcoRow) =>
          (true, { self with m_rows := self.m_rows.set index.row.toNat r })
        let col := index.column
        if col = COL_ECONUM then put { row with ecoNum := left value.toString 6 }
        else if col = COL_ECONAME then put { row with ecoName := left value.toString 16 }
        else if col = COL_MG then put { row with mg := left value.toString 2 }
        else if col = COL_TM then put { row with tm := left value.toString 2 }
        else if col = COL_REFS then (false, self)
        else
          let p := col - COL_PARAM0
          if 0 ≤ p ∧ p < row.params.length then
            match value.toDouble with
            | none => (false, self)
            | some v => put { row with params := row.params.set p.toNat v }
          else (false, self)

/-- The function `EcoTableModel::addRow`. -/
def addRow (self : EcoTableModel) : EcoTableModel :=
  { self with m_rows := self.m_rows ++
      [{ ecoNum := "NEWE01".toList, ecoName := "NEW ECOTYPE".toList, mg := " 0".toList,
         tm := " 0".toList, params := List.replicate 16 Dbl.zero, isMinMax := false }] }

/-- The function `EcoTableModel::duplicateRow`. -/
def duplicateRow (self : EcoTableModel) (row : Int) : EcoTableModel :=
  if row < 0 ∨ row ≥ self.m_rows.length then self
  else
    match self.m_rows[row.toNat]? with
    | none => self
    | some r =>
      { self with m_rows := self.m_rows ++
          [{ r with isMinMax := false, ecoNum := r.ecoNum ++ ['X'] }] }

/-- The function `EcoTableModel::deleteRow`. -/
def deleteRow (self : EcoTableModel) (row : Int) : EcoTableModel :=
  if row < 0 ∨ row ≥ self.m_rows.length then self
  else
    match self.m_rows[row.toNat]? with
    | none => self
    | some r =>
      if r.isMinMax then self
      else { self with m_rows := self.m_rows.eraseIdx row.toNat }

end EcoTableModel

/-! ## Header metadata -/

/-- A `QMap<QString, QString>`, as the list of its entries. -/
abbrev QMap := List (QString × QString)

/-- The value stored under `key`, if the map holds the key. -/
def mapValue (m : QMap) (key : QString) : Option QString :=
  match m with
  | [] => none
  | (k, v) :: rest => if k = key then some v else mapValue rest key

/-- The assignment `map[key] = value`. -/
def mapInsert (m : QMap) (key value : QString) : QMap :=
  match m with
  | [] => [(key, value)]
  | (k, v) :: rest =>
    if k = key then (key, value) :: rest else (k, v) :: mapInsert rest key value

/-- The class `[ \t]`. -/
def isBlank (c : Char) : Bool :=
  c == ' ' || c == '\t'

/-- The class `[A-Z]`. -/
def isUpperAZ (c : Char) : Bool :=
  65 ≤ c.toNat && c.toNat ≤ 90

/-- The class `[A-Z0-9#/\-]`. -/
def isKeyChar (c : Char) : Bool :=
  isUpperAZ c || (48 ≤ c.toNat && c.toNat ≤ 57) || c == '#' || c == '/' || c == '-'

/-- The class `\w` (no Unicode-properties option): letters, digits, underscore. -/
def isWordChar (c : Char) : Bool :=
  isUpperAZ c || (97 ≤ c.toNat && c.toNat ≤ 122) || (48 ≤ c.toNat && c.toNat ≤ 57)
    || c == '_'

/-- The end `(\S.+)$` of the two tooltip patterns, matched against the rest of
the subject: a character outside `\s`, then at least one more character, none
of them a line feed, up to the end of the subject or to a line feed that ends
it. Gives the captured text. -/
def matchTail (r : List Char) : Option QString :=
  let body := if r.getLast? = some '\n' then r.dropLast else r
  match body with
  | [] => none
  | c :: rest =>
    if !isReSpace c && !rest.isEmpty && rest.all (fun x => x != '\n') then some body
    else none

/-- The match of `^![ \t]{1,5}([A-Z][A-Z0-9#/\-]*)[ \t]+(\S.+)$`: the two
captured texts, keyword and description. -/
def matchEntry (line : QString) : Option (QString × QString) :=
  match line with
  | '!' :: r =>
    let ws := r.takeWhile isBlank
    let r1 := r.dropWhile isBlank
    let key := r1.takeWhile isKeyChar
    let r2 := r1.dropWhile isKeyChar
    if 1 ≤ ws.length ∧ ws.length ≤ 5 ∧ r1.head?.map isUpperAZ = some true
        ∧ r2.head?.map isBlank = some true then
      (matchTail (r2.dropWhile isBlank)).map fun t => (key, t)
    else none
  | _ => none

/-- The match of `^![ \t]{6,}(\S.+)$`: the captured text. -/
def matchCont (line : QString) : Option QString :=
  match line with
  | '!' :: r =>
    if 6 ≤ (r.takeWhile isBlank).length then matchTail (r.dropWhile isBlank) else none
  | _ => none

/-- The match of `^!\s*[Cc]alibration\b`. -/
def matchCal (line : QString) : Bool :=
  match line with
  | '!' :: r =>
    match r.dropWhile isReSpace with
    | c :: r2 =>
      (c == 'C' || c == 'c') && "alibration".toList.isPrefixOf r2 &&
        (match r2.drop 10 with
         | [] => true
         | d :: _ => !isWordChar d)
    | [] => false
  | _ => false

/-- The test that `pat` occurs in `s` as a run of consecutive characters. -/
def hasInfix (pat : List Char) : List Char → Bool
  | [] => pat.isEmpty
  | c :: cs => pat.isPrefixOf (c :: cs) || hasInfix pat cs

/-- The test `s.contains(pat, Qt::CaseInsensitive)`; the case folding of a
character is the parameter `fold` (lower-casing, on the ASCII letters). -/
def containsCI (fold : Char → Char) (s pat : QString) : Bool :=
  hasInfix (pat.map fold) (s.map fold)

/-- The local variables of the loop of `tooltipsFromHeader`. -/
structure TipState where
  inDefs : Bool := false
  curKey : QString := []
  tips : QMap := []
deriving DecidableEq, Repr

namespace CulParser

/-- One turn of the loop of `CulParser::tooltipsFromHeader`, for a line that
does not start with `@`. -/
def tipStep (fold : Char → Char) (st : TipState) (line : QString) : TipState :=
  if !st.inDefs then
    if containsCI fold line "DEFINITIONS".toList && containsCI fold line "COEFF".toList then
      { st with inDefs := true }
    else st
  else
    match matchEntry line with
    | some kt => { st with curKey := kt.1, tips := mapInsert st.tips kt.1 (trimmed kt.2) }
    | none =>
      if !st.curKey.isEmpty then
        match matchCont line with
        | some t =>
          { st with tips := (mapInsert st.tips st.curKey
              ((mapValue st.tips st.curKey).getD [] ++ ' ' :: trimmed t)) }
        | none => { st with curKey := [] }
      else st

/-- The function `CulParser::tooltipsFromHeader`: the loop runs over the lines
before the first one that starts with `@`. -/
def tooltipsFromHeader (fold : Char → Char) (headerLines : List QString) : QMap :=
  ((headerLines.takeWhile fun l => l.head? != some '@').foldl (tipStep fold) {}).tips

/-- The function `CulParser::calibrationTypes`; the upper-casing of a string,
`QString::toUpper`, is the parameter `upper`. -/
def calibrationTypes (upper : QString → QString) (headerLines : List QString) : QMap :=
  match headerLines.find? matchCal with
  | none => []
  | some line =>
    (List.zip CUL_PARAM_NAMES ((splitWs line).drop 1)).foldl
      (fun (m : QMap) (p : QString × QString) => mapInsert m p.1 (upper p.2)) []

end CulParser

/-- A description text the tooltip patterns capture: a character outside `\s`
followed by at least one more character, without a line feed. -/
def IsText (t : QString) : Prop :=
  ∃ c rest, t = c :: rest ∧ isReSpace c = false ∧ rest ≠ [] ∧ '\n' ∉ rest

/-- A keyword of an entry line: a capital letter followed by characters of
`[A-Z0-9#/\-]`. -/
def IsKeyword (k : QString) : Prop :=
  ∃ c rest, k = c :: rest ∧ isUpperAZ c = true ∧ ∀ x ∈ rest, isKeyChar x = true

/-- An entry line: `!`, `n` spaces, the keyword, `m` spaces, the text. -/
def entryLine (n : Nat) (key : QString) (m : Nat) (text : QString) : QString :=
  '!' :: (List.replicate n ' ' ++ (key ++ (List.replicate m ' ' ++ text)))

/-- A continuation line: `!`, `n` spaces, the text. -/
def contLine (n : Nat) (text : QString) : QString :=
  '!' :: (List.replicate n ' ' ++ text)

/-- The trimmed texts joined by single spaces. -/
def joinTexts (t0 : QString) (ts : List QString) : QString :=
  ts.foldl (fun acc t => acc ++ ' ' :: trimmed t) (trimmed t0)

/-- The test of `tooltipsFromHeader` for the line that opens the definitions
block: the line contains `DEFINITIONS` and contains `COEFF`, in any letter
case. -/
def mentionsDefs (fold : Char → Char) (line : QString) : Bool :=
  containsCI fold line "DEFINITIONS".toList && containsCI fold line "COEFF".toList

/-- The test `!line.startsWith('@')`. -/
def notAt (line : QString) : Bool :=
  line.head? != some '@'

/-! ## Lines of the input -/

/-- The test of the loop of `parse` for a line it stores in `headerLines`:
`line.isEmpty()`, or the first character is `*`, `!` or `@`. -/
def isHeaderLine (line : QString) : Bool :=
  line.isEmpty || isHeaderMark (line.headD ' ')

/-- The text of lines that end with a line feed each. -/
def emitLinesLF (lines : List QString) : List Char :=
  (lines.map fun l => l ++ ['\n']).flatten

/-- A text `QString::toDouble` cannot convert: after trimming and lower-casing
it is none of `nan`, `inf`, `+inf`, `-inf` and no numeral. -/
def IsNoNumber (t : QString) : Prop :=
  (trimmed t).map Char.toLower ≠ "nan".toList ∧
  (trimmed t).map Char.toLower ≠ "inf".toList ∧
  (trimmed t).map Char.toLower ≠ "+inf".toList ∧
  (trimmed t).map Char.toLower ≠ "-inf".toList ∧
  parseNumeral ((trimmed t).map Char.toLower) = none

/-! ## Checked accesses -/

/-- The extraction `s.left(n)` with the check that the `n` columns exist. -/
def leftChecked (s : QString) (n : Nat) : Option QString :=
  if n ≤ s.length then some (left s n) else none

/-- The extraction `s.mid(pos, n)` with the check that the columns `pos` to
`pos + n - 1` exist. -/
def midChecked (s : QString) (pos n : Nat) : Option QString :=
  if pos + n ≤ s.length then some (mid s pos n) else none

/-- The extraction `s.mid(pos)` with the check that `pos` is no more than the
length. -/
def midFromChecked (s : QString) (pos : Nat) : Option QString :=
  if pos ≤ s.length then some (midFrom s pos) else none

/-- The loop
`for (i = 2; i < tokens.size() && params.size() < n; ++i) params << tokens[i].toDouble()`
from index `i` on with `k` parameters to go, every access `tokens[i]` checked:
the values appended, or `none` at an access outside the list. -/
def readLoopChecked (tokens : List QString) : Nat → Nat → Option (List Dbl)
  | _, 0 => some []
  | i, k + 1 =>
    if i < tokens.length then
      match tokens[i]? with
      | none => none
      | some t => (readLoopChecked tokens (i + 1) k).map fun ps => toDouble t :: ps
    else some []

/-- The parameters read from the tokens, with checked accesses. -/
def readParamsChecked (tokens : List QString) (n : Nat) : Option (List Dbl) :=
  (readLoopChecked tokens 2 n).map fun ps => padParams ps n

namespace CulParser

/-- The body of the loop of `CulParser::parse` for a line that is no header
line, with every column extraction and token access checked: `none` when an
access is out of bounds, `some none` where the code says `continue`, and
`some (some row)` for the row it appends. -/
def parseDataLineChecked (line : QString) : Option (Option CulRow) :=
  if line.length < 36 then some none
  else
    match leftChecked line 6, midChecked line 7 13, midFromChecked line 20 with
    | some l6, some m, some rest =>
      let varNum := trimmed l6
      let vrName := trimmed m
      let tokens := splitWs rest
      if tokens.isEmpty then some none
      else if tokens.length < 2 then some none
      else
        match tokens[0]?, tokens[1]?, readParamsChecked tokens 18 with
        | some t0, some t1, some params =>
          let expNo := if t0 = ['.'] then ['.'] else t0
          some (some { varNum := varNum, vrName := vrName, expNo := expNo, ecoNum := t1,
                       params := params,
                       isMinMax := (varNum == ID_MIN || varNum == ID_MAX) })
        | _, _, _ => none
    | _, _, _ => none

/-- One turn of the loop of `CulParser::parse` with checked accesses; the
character access is `line[0]`. -/
def parseStepChecked (acc : Parsed) (line0 : QString) : Option Parsed :=
  let line := chopCR line0
  if line.isEmpty then some { acc with headerLines := acc.headerLines ++ [line] }
  else
    match (line)[0]? with
    | none => none
    | some first =>
      if isHeaderMark first then some { acc with headerLines := acc.headerLines ++ [line] }
      else
        match parseDataLineChecked line with
        | none => none
        | some none => some acc
        | some (some row) => some { acc with rows := acc.rows ++ [row] }

/-- The loop of `parse` over the lines read, with checked accesses. -/
def parseLoopChecked : List QString → Parsed → Option Parsed
  | [], acc => some acc
  | l :: ls, acc =>
    match parseStepChecked acc l with
    | none => none
    | some acc2 => parseLoopChecked ls acc2

/-- The function `CulParser::parse` with checked accesses. -/
def parseChecked (file : Option (List Char)) : Option Parsed :=
  match file with
  | none => some ⟨[], []⟩
  | some text => parseLoopChecked (readLines text) ⟨[], []⟩

/-- The function `CulParser::parseLine` with every character access, column
extraction and token access checked. -/
def parseLineChecked (rawLine : QString) : Option CulRow :=
  let line := trimmed rawLine
  if line.isEmpty then some {}
  else
    match (line)[0]? with
    | none => none
    | some first =>
      if isHeaderMark first then some {}
      else if line.length < 36 then some {}
      else
        match leftChecked line 6, midChecked line 7 13, midFromChecked line 20 with
        | some l6, some m, some rest =>
          let varNum := trimmed l6
          let vrName := trimmed m
          let tokens := splitWs rest
          if tokens.isEmpty then some { vrName := vrName }
          else if tokens.length < 2 then some { vrName := vrName }
          else
            match tokens[0]?, tokens[1]?, readParamsChecked tokens 18 with
            | some t0, some t1, some params =>
              let expNo := if t0 = ['.'] then ['.'] else t0
              some { varNum := varNum, vrName := vrName, expNo := expNo, ecoNum := t1,
                     params := params,
                     isMinMax := (varNum == ID_MIN || varNum == ID_MAX) }
            | _, _, _ => none
        | _, _, _ => none

end CulParser

/-! ## SpeEditor -/

/-- Worker of `splitLF`: `cur` is the part being read. -/
def splitLFAux : List Char → QString → List QString
  | [], cur => [cur]
  | c :: cs, cur =>
    if c = '\n' then cur :: splitLFAux cs [] else splitLFAux cs (cur ++ [c])

/-- The list `text.split('\n')`: the parts between line feeds, empty parts kept. -/
def splitLF (text : QString) : List QString :=
  splitLFAux text []

/-- The test `s.startsWith(p)`. -/
def startsWith (s p : QString) : Bool :=
  p.isPrefixOf s

/-- Worker of `indexOfCI`: the search from offset `i` on, in the rest of the
text. -/
def indexOfCIAux (fold : Char → Char) (needle : QString) : List Char → Nat → Int
  | [], i => if needle.isEmpty then (i : Int) else -1
  | c :: cs, i =>
    if (needle.map fold).isPrefixOf ((c :: cs).map fold) then (i : Int)
    else indexOfCIAux fold needle cs (i + 1)

/-- The offset `text.indexOf(needle, 0, Qt::CaseInsensitive)`: the first offset
at which `needle` occurs in `text`, characters compared after the case folding
`fold`, or -1. -/
def indexOfCI (fold : Char → Char) (text needle : QString) : Int :=
  indexOfCIAux fold needle text 0

namespace SpeEditor

/-- The name `sectionNames` appends for a line, if it appends one. -/
def sectionNameOf (line : QString) : Option QString :=
  let t := trimmed line
  if startsWith t "!*".toList then some (trimmed (midFrom t 2))
  else if startsWith t ['*'] && !startsWith t "**".toList then some (trimmed (midFrom t 1))
  else none

/-- The function `SpeEditor::sectionNames`. -/
def sectionNames (text : QString) : List QString :=
  (splitLF text).filterMap sectionNameOf

/-- The search loop of `sectionOffset` over the candidates. -/
def firstOffset (fold : Char → Char) (text : QString) : List QString → Int
  | [] => -1
  | needle :: rest =>
    let pos := indexOfCI fold text needle
    if pos ≥ 0 then pos else firstOffset fold text rest

/-- The function `SpeEditor::sectionOffset`. -/
def sectionOffset (fold : Char → Char) (text sectionName : QString) : Int :=
  firstOffset fold text
    ["!*".toList ++ sectionName, "*".toList ++ sectionName, "!* ".toList ++ sectionName,
      "* ".toList ++ sectionName]

end SpeEditor

/-! ## Predicates of the round trip -/

/-- A decimal digit character. -/
def IsDec (c : Char) : Prop :=
  ∃ k, k < 10 ∧ c = Nat.digitChar k

/-- A character of a fixed-point numeral: a digit, the point or the minus sign. -/
def IsNumChar (c : Char) : Prop :=
  IsDec c ∨ c = '.' ∨ c = '-'

/-- The ecotype rows that are read back from their written line: the
identifier and the name fit their columns and have no white space around them,
the two codes are non-empty tokens of at most 2 characters, there are 16 finite
parameters, the sentinel flag is the one the identifier gives, the identifier
does not begin with a header mark, and no line terminator character occurs in
the identifier or the name. -/
structure EcoRow.WellFormed (r : EcoRow) : Prop where
  ecoNum_length : r.ecoNum.length ≤ 6
  ecoNum_trimmed : trimmed r.ecoNum = r.ecoNum
  ecoName_length : r.ecoName.length ≤ 16
  ecoName_trimmed : trimmed r.ecoName = r.ecoName
  mg_token : r.mg ≠ [] ∧ r.mg.length ≤ 2 ∧ ∀ c ∈ r.mg, isReSpace c = false
  tm_token : r.tm ≠ [] ∧ r.tm.length ≤ 2 ∧ ∀ c ∈ r.tm, isReSpace c = false
  params_length : r.params.length = 16
  params_finite : ∀ v ∈ r.params, v.isFinite = true
  flag : r.isMinMax = (r.ecoNum == ID_MIN || r.ecoNum == ID_MAX)
  no_mark : isHeaderMark (r.ecoNum.headD ' ') = false
  no_break : '\n' ∉ r.ecoNum ∧ '\r' ∉ r.ecoNum ∧ '\n' ∉ r.ecoName ∧ '\r' ∉ r.ecoName

/-- The text of parameter `i` of an ecotype row, without the padding. -/
def EcoParser.paramText (params : List Dbl) (i : Nat) : QString :=
  Dbl.toFixed (params.getD i Dbl.zero) (ECO_FMTS.getD i 0)

/-- An ecotype row as it is read back: each parameter is the double read from
its text. -/
def EcoParser.reread (r : EcoRow) : EcoRow :=
  { r with params := (List.range 16).map fun i => toDouble (EcoParser.paramText r.params i) }

/-- The four length limits of the cultivar layout: identifier 6, name 13,
experiment code 1, cross-reference code 6. -/
def CulRow.fits (r : CulRow) : Bool :=
  decide (r.varNum.length ≤ 6) && decide (r.vrName.length ≤ 13) &&
    decide (r.expNo.length ≤ 1) && decide (r.ecoNum.length ≤ 6)

/-- The four length limits of the ecotype layout: identifier 6, name 16, the
two codes 2. -/
def EcoRow.fits (r : EcoRow) : Bool :=
  decide (r.ecoNum.length ≤ 6) && decide (r.ecoName.length ≤ 16) &&
    decide (r.mg.length ≤ 2) && decide (r.tm.length ≤ 2)

/-! ## Sample data -/

/-- A minima row with bound 8.0 at position 0 and 0.0 elsewhere. -/
def sampleMin : CulRow :=
  { varNum := ID_MIN, vrName := "MINIMA".toList, expNo := ['.'], ecoNum := ID_MIN,
    params := Dbl.ofNat 8 :: List.replicate 17 Dbl.zero, isMinMax := true }

/-- A maxima row with bound 12.0 at position 0 and 0.0 elsewhere. -/
def sampleMax : CulRow :=
  { varNum := ID_MAX, vrName := "MAXIMA".toList, expNo := ['.'], ecoNum := ID_MAX,
    params := Dbl.ofNat 12 :: List.replicate 17 Dbl.zero, isMinMax := true }

/-- A cultivar row with value 15.0 at position 0 and 0.0 elsewhere. -/
def sampleRow : CulRow :=
  { varNum := "IB0001".toList, vrName := "SOME CULTIVAR".toList, expNo := ['.'],
    ecoNum := "IB0001".toList,
    params := Dbl.ofNat 15 :: List.replicate 17 Dbl.zero, isMinMax := false }

/-- A general number format, for the evaluations (never reached by them). -/
def sampleG : Dbl → Nat → QString :=
  fun _ _ => []

/-- An ecotype row, for the evaluations. -/
def sampleEco : EcoRow :=
  { ecoNum := "SB0602".toList, ecoName := "MATURITY GROUP 6".toList, mg := "06".toList,
    tm := "02".toList, params := List.replicate 16 (Dbl.ofNat 1), isMinMax := false }

/-- The model after loading the minima, the maxima and the cultivar sample. -/
def sampleModel : CulTableModel :=
  CulTableModel.setRows {} [sampleMin, sampleMax, sampleRow]

/-- The upper-casing of ASCII text, for the evaluations. -/
def sampleUpper : QString → QString :=
  List.map Char.toUpper

/-- A cultivar line with 18 numeric tokens, for the evaluations. -/
def sampleLine : QString :=
  ("IB0001 SOME CULTIVAR        . IB0001 12.33 0.285  19.0   7.0  15.0 35.00 26.00 1.030" ++
   "  375. 180.0  1.00  0.19  23.0 370.0 10.00  77.0 0.405 0.205").toList

/-- The row of `sampleLine`. -/
def sampleLineRow : CulRow :=
  { varNum := "IB0001".toList, vrName := "SOME CULTIVAR".toList, expNo := ['.'],
    ecoNum := "IB0001".toList,
    params := ["12.33", "0.285", "19.0", "7.0", "15.0", "35.00", "26.00", "1.030", "375.",
      "180.0", "1.00", "0.19", "23.0", "370.0", "10.00", "77.0", "0.405", "0.205"].map
      fun s => toDouble s.toList,
    isMinMax := false }

/-! ## Lemmas on doubles -/

namespace Dbl

theorem lt_irrefl (a : Dbl) : lt a a = false := by
  cases a <;> simp [lt]

theorem lt_eq_false_of_le {a b : Dbl} (h : le a b = true) : lt b a = false := by
  cases a with
  | nan => simp [le] at h
  | inf na =>
    cases b with
    | nan => simp [le] at h
    | inf nb => cases na <;> cases nb <;> simp_all [lt, le]
    | fin nb mb eb => simp_all [lt, le]
  | fin na ma ea =>
    cases b with
    | nan => simp [le] at h
    | inf nb => simp_all [lt, le]
    | fin nb mb eb => simp_all [lt, le, min_comm]

end Dbl

/-! ## Lemmas on the violation report -/

theorem filterMap_range_min {α : Type} (f : Nat → Option α) (k : Nat)
    (h : ∀ p, k ≤ p → f p = none) (n : Nat) :
    (List.range n).filterMap f = (List.range (min k n)).filterMap f := by
  induction n with
  | zero => simp
  | succ n ih =>
    rcases Nat.lt_or_ge n k with hn | hn
    · have : min k (n + 1) = n + 1 := by omega
      rw [this]
    · have h1 : min k (n + 1) = min k n := by omega
      rw [h1, ← ih, List.range_succ, List.filterMap_append]
      simp [h n hn]

namespace CulTableModel

theorem violationAt_of_row (self : CulTableModel) (r : Nat) (row : CulRow)
    (hr : self.m_rows[r]? = some row) (p : Nat) :
    self.violationAt r p =
      if p < row.params.length ∧ row.isMinMax = false ∧
          self.isOutOfRange p (row.params.getD p Dbl.zero) = true then
        some { row := r, varNum := row.varNum, paramName := CUL_PARAM_NAMES.getD p [],
               value := row.params.getD p Dbl.zero,
               minVal := self.m_minParams.getD p Dbl.zero,
               maxVal := self.m_maxParams.getD p Dbl.zero }
      else none := by
  unfold violationAt isOutOfRange
  rw [hr]
  by_cases hp : p < row.params.length
  · simp only [List.getElem?_eq_getElem hp, List.getD_eq_getElem?_getD, Option.getD_some]
    cases hlo : self.m_minParams[p]? <;> cases hhi : self.m_maxParams[p]? <;>
      cases hmm : row.isMinMax <;> simp [hp]
  · have : row.params[p]? = none := List.getElem?_eq_none (by omega)
    simp [this, hp]

theorem foldl_cellStep (self : CulTableModel) (r : Nat) (row : CulRow)
    (ps : List Nat) (acc : List Violation) :
    ps.foldl (cellStep self r row) acc =
      acc ++ ps.filterMap (fun p =>
        if self.isOutOfRange p (row.params.getD p Dbl.zero) = true then
          some { row := r, varNum := row.varNum, paramName := CUL_PARAM_NAMES.getD p [],
                 value := row.params.getD p Dbl.zero,
                 minVal := self.m_minParams.getD p Dbl.zero,
                 maxVal := self.m_maxParams.getD p Dbl.zero }
        else none) := by
  induction ps generalizing acc with
  | nil => simp
  | cons p ps ih =>
    rw [List.foldl_cons, ih, List.filterMap_cons]
    unfold cellStep
    split <;> simp

theorem rowStep_eq (self : CulTableModel) (acc : List Violation) (r : Nat)
    (hr : r < self.m_rows.length) :
    rowStep self acc r = acc ++ (List.range 18).filterMap (self.violationAt r) := by
  unfold rowStep
  have hrow : self.m_rows[r]? = some self.m_rows[r] := List.getElem?_eq_getElem hr
  rw [hrow]
  simp only
  have hnone : ∀ p, self.m_rows[r].params.length ≤ p → self.violationAt r p = none := by
    intro p hp
    rw [violationAt_of_row self r _ hrow]
    simp; omega
  rw [filterMap_range_min _ _ hnone 18]
  have hlen : CUL_PARAM_NAMES.length = 18 := rfl
  rw [hlen]
  by_cases hmm : self.m_rows[r].isMinMax = true
  · rw [if_pos hmm]
    have : (List.range (min self.m_rows[r].params.length 18)).filterMap
        (self.violationAt r) = [] := by
      rw [List.filterMap_eq_nil_iff]
      intro p _
      rw [violationAt_of_row self r _ hrow]
      simp [hmm]
    rw [this, List.append_nil]
  · rw [if_neg hmm, foldl_cellStep]
    congr 1
    apply List.filterMap_congr
    intro p hp
    rw [violationAt_of_row self r _ hrow]
    have hp' : p < self.m_rows[r].params.length := by
      have := List.mem_range.mp hp
      omega
    simp [hp', hmm]

theorem foldl_rowStep (self : CulTableModel) (rs : List Nat)
    (hrs : ∀ r ∈ rs, r < self.m_rows.length) (acc : List Violation) :
    rs.foldl (rowStep self) acc =
      acc ++ rs.flatMap fun r => (List.range 18).filterMap (self.violationAt r) := by
  induction rs generalizing acc with
  | nil => simp
  | cons r rs ih =>
    rw [List.foldl_cons, ih (fun x hx => hrs x (List.mem_cons_of_mem _ hx)),
      rowStep_eq self acc r (hrs r (List.mem_cons_self _ _))]
    simp [List.flatMap_cons]

theorem getViolations_eq_report (self : CulTableModel) :
    self.getViolations = self.violationReport := by
  unfold getViolations violationReport
  rw [foldl_rowStep self _ (fun r hr => List.mem_range.mp hr)]
  simp

end CulTableModel

/-! ## Range validation -/

namespace CulTableModel

theorem violationAt_eq_none_of_bounds (self : CulTableModel) (r p : Nat)
    (h : ∀ lo hi, self.m_minParams[p]? = some lo → self.m_maxParams[p]? = some hi →
      Dbl.gt hi lo = false) :
    self.violationAt r p = none := by
  unfold violationAt
  split
  · rfl
  · split
    · rename_i v lo hi _ hlo hhi
      rw [h lo hi hlo hhi]
      simp
    · rfl

theorem mem_report_iff (self : CulTableModel) (x : Violation) :
    x ∈ self.getViolations ↔
      ∃ r p, r < self.m_rows.length ∧ p < 18 ∧ self.violationAt r p = some x := by
  rw [getViolations_eq_report]
  unfold violationReport
  simp only [List.mem_flatMap, List.mem_range, List.mem_filterMap]
  constructor
  · rintro ⟨r, hr, p, hp, h⟩
    exact ⟨r, p, hr, hp, h⟩
  · rintro ⟨r, p, hr, hp, h⟩
    exact ⟨r, hr, p, hp, h⟩

theorem paramName_of_violationAt (self : CulTableModel) (r p : Nat) (x : Violation)
    (h : self.violationAt r p = some x) : x.paramName = CUL_PARAM_NAMES.getD p [] := by
  unfold violationAt at h
  cases hr : self.m_rows[r]? with
  | none => simp [hr] at h
  | some row =>
    rw [hr] at h
    cases hv : row.params[p]? <;> cases hlo : self.m_minParams[p]? <;>
      cases hhi : self.m_maxParams[p]? <;> simp [hv, hlo, hhi] at h
    rw [← h.2, List.getD_eq_getElem?_getD]

theorem foldl_boundsStep_fst (rows : List CulRow) (acc : List Dbl × List Dbl)
    (h : ∀ r ∈ rows, r.varNum ≠ ID_MIN) : (rows.foldl boundsStep acc).1 = acc.1 := by
  induction rows generalizing acc with
  | nil => rfl
  | cons r rs ih =>
    rw [List.foldl_cons, ih _ (fun x hx => h x (List.mem_cons_of_mem _ hx))]
    have hr := h r (List.mem_cons_self _ _)
    unfold boundsStep
    simp only [hr, if_false]
    split <;> rfl

theorem foldl_boundsStep_snd (rows : List CulRow) (acc : List Dbl × List Dbl)
    (h : ∀ r ∈ rows, r.varNum ≠ ID_MAX) : (rows.foldl boundsStep acc).2 = acc.2 := by
  induction rows generalizing acc with
  | nil => rfl
  | cons r rs ih =>
    rw [List.foldl_cons, ih _ (fun x hx => h x (List.mem_cons_of_mem _ hx))]
    have hr := h r (List.mem_cons_self _ _)
    unfold boundsStep
    simp only [hr, if_false]
    split <;> rfl

end CulTableModel

theorem cul_param_names_injective :
    ∀ p < 18, ∀ i < 18, CUL_PARAM_NAMES.getD p [] = CUL_PARAM_NAMES.getD i [] → p = i := by
  decide

theorem cul_param_names_ne_nil : ∀ p < 18, CUL_PARAM_NAMES.getD p [] ≠ [] := by
  decide

/-- C6 (evaluation at the failing input): after loading a minima row, a maxima
row and a cultivar row with value 15.0 at position 0, and then editing the
identifier of the cultivar row to 999991 with `setData`, the report of
`getViolations` holds a record for that row, whose identifier is 999991. -/
theorem C6_edited_identifier_is_reported :
    ((CulTableModel.setRows {} [sampleMin, sampleMax, sampleRow]).setData
        ⟨2, CulTableModel.COL_VARNUM⟩ ⟨ID_MIN, none⟩ EditRole).2.getViolations =
      [{ row := 2, varNum := ID_MIN, paramName := "CSDL".toList, value := Dbl.ofNat 15,
         minVal := Dbl.ofNat 8, maxVal := Dbl.ofNat 12 }] := by
  decide

/-- C8: when the minimum bound at position `i` is greater than or equal to the
maximum bound at `i`, no value is out of range at `i` and the report of
`getViolations` holds no record for position `i`. -/
theorem C8_bound_disable (self : CulTableModel) (i : Nat) (lo hi : Dbl)
    (hlo : self.m_minParams[i]? = some lo) (hhi : self.m_maxParams[i]? = some hi)
    (h : Dbl.ge lo hi = true) :
    (∀ v, self.isOutOfRange i v = false) ∧
    (∀ r, self.violationAt r i = none) ∧
    (∀ x ∈ self.getViolations, x.paramName ≠ CUL_PARAM_NAMES.getD i []) := by
  have hgt : Dbl.gt hi lo = false := Dbl.lt_eq_false_of_le h
  have hat : ∀ r, self.violationAt r i = none := by
    intro r
    apply CulTableModel.violationAt_eq_none_of_bounds
    intro lo' hi' h1 h2
    rw [hlo] at h1
    rw [hhi] at h2
    cases h1
    cases h2
    exact hgt
  refine ⟨?_, hat, ?_⟩
  · intro v
    unfold CulTableModel.isOutOfRange
    rw [hlo, hhi]
    simp [hgt]
  · intro x hx hname
    obtain ⟨r, p, _, hp, hxp⟩ := (CulTableModel.mem_report_iff self x).mp hx
    have hn := CulTableModel.paramName_of_violationAt self r p x hxp
    rw [hn] at hname
    by_cases hi18 : i < 18
    · have := cul_param_names_injective p hp i hi18 hname
      subst this
      rw [hat r] at hxp
      cases hxp
    · have hnil : CUL_PARAM_NAMES.getD i [] = [] := by
        rw [List.getD_eq_getElem?_getD, List.getElem?_eq_none]
        · rfl
        · have : CUL_PARAM_NAMES.length = 18 := rfl
          omega
      rw [hnil] at hname
      exact cul_param_names_ne_nil p hp hname

/-- Witness of C8, with bounds 5.0 and 5.0 at position 0. -/
theorem C8_bound_disable_witness :
    (∀ v, ({ m_minParams := [Dbl.ofNat 5], m_maxParams := [Dbl.ofNat 5] } :
        CulTableModel).isOutOfRange 0 v = false) ∧
    (∀ r, ({ m_minParams := [Dbl.ofNat 5], m_maxParams := [Dbl.ofNat 5] } :
        CulTableModel).violationAt r 0 = none) ∧
    (∀ x ∈ ({ m_minParams := [Dbl.ofNat 5], m_maxParams := [Dbl.ofNat 5] } :
        CulTableModel).getViolations, x.paramName ≠ CUL_PARAM_NAMES.getD 0 []) :=
  C8_bound_disable { m_minParams := [Dbl.ofNat 5], m_maxParams := [Dbl.ofNat 5] } 0
    (Dbl.ofNat 5) (Dbl.ofNat 5) rfl rfl (by decide)

/-- C9: when the rows passed to `setRows` hold no row with identifier 999991, or
no row with identifier 999992, the report of `getViolations` is empty. -/
theorem C9_missing_bounds (self : CulTableModel) (rows : List CulRow)
    (h : (∀ r ∈ rows, r.varNum ≠ ID_MIN) ∨ (∀ r ∈ rows, r.varNum ≠ ID_MAX)) :
    (self.setRows rows).getViolations = [] := by
  rw [CulTableModel.getViolations_eq_report]
  unfold CulTableModel.violationReport
  rw [List.flatMap_eq_nil_iff]
  intro r _
  rw [List.filterMap_eq_nil_iff]
  intro p _
  apply CulTableModel.violationAt_eq_none_of_bounds
  intro lo hi hlo hhi
  exfalso
  rcases h with h | h
  · have := CulTableModel.foldl_boundsStep_fst rows ([], []) h
    simp only [CulTableModel.setRows] at hlo
    rw [this] at hlo
    simp at hlo
  · have := CulTableModel.foldl_boundsStep_snd rows ([], []) h
    simp only [CulTableModel.setRows] at hhi
    rw [this] at hhi
    simp at hhi

/-- Witness of C9: a maxima row and a cultivar row, no minima row. -/
theorem C9_missing_bounds_witness :
    ((∀ r ∈ [sampleMax, sampleRow], r.varNum ≠ ID_MIN) ∨
      (∀ r ∈ [sampleMax, sampleRow], r.varNum ≠ ID_MAX)) ∧
    (CulTableModel.setRows {} [sampleMax, sampleRow]).getViolations = [] :=
  ⟨Or.inl (by decide), C9_missing_bounds {} [sampleMax, sampleRow] (Or.inl (by decide))⟩

/-! ## Parameter count -/

theorem length_readParams (tokens : List QString) (n : Nat) :
    (readParams tokens n).length = n := by
  unfold readParams padParams
  simp only [List.length_append, List.length_replicate, List.length_map, List.length_take]
  omega

theorem cul_parseDataLine_params (line : QString) (row : CulRow)
    (h : CulParser.parseDataLine line = some row) : row.params.length = 18 := by
  unfold CulParser.parseDataLine at h
  split at h
  · cases h
  · simp only at h
    split at h
    · cases h
    · split at h
      · cases h
      · cases h
        exact length_readParams _ 18

theorem cul_foldl_parseStep_params (lines : List QString) (acc : CulParser.Parsed)
    (h : ∀ r ∈ acc.rows, r.params.length = 18) :
    ∀ r ∈ (lines.foldl CulParser.parseStep acc).rows, r.params.length = 18 := by
  induction lines generalizing acc with
  | nil => exact h
  | cons l ls ih =>
    rw [List.foldl_cons]
    apply ih
    unfold CulParser.parseStep
    simp only
    split
    · exact h
    · split
      · exact h
      · split
        · exact h
        · rename_i row hrow
          intro r hr
          rcases List.mem_append.mp hr with hr | hr
          · exact h r hr
          · rw [List.mem_singleton.mp hr]
            exact cul_parseDataLine_params _ _ hrow

theorem eco_parseDataLine_params (line : QString) (row : EcoRow)
    (h : EcoParser.parseDataLine line = some row) : row.params.length = 16 := by
  unfold EcoParser.parseDataLine at h
  split at h
  · cases h
  · simp only at h
    split at h
    · cases h
    · cases h
      exact length_readParams _ 16

theorem eco_foldl_parseStep_params (lines : List QString) (acc : EcoParser.Parsed)
    (h : ∀ r ∈ acc.rows, r.params.length = 16) :
    ∀ r ∈ (lines.foldl EcoParser.parseStep acc).rows, r.params.length = 16 := by
  induction lines generalizing acc with
  | nil => exact h
  | cons l ls ih =>
    rw [List.foldl_cons]
    apply ih
    unfold EcoParser.parseStep
    simp only
    split
    · exact h
    · split
      · exact h
      · split
        · exact h
        · rename_i row hrow
          intro r hr
          rcases List.mem_append.mp hr with hr | hr
          · exact h r hr
          · rw [List.mem_singleton.mp hr]
            exact eco_parseDataLine_params _ _ hrow

theorem cul_parseLine_params (line : QString)
    (h : (CulParser.parseLine line).varNum ≠ []) :
    (CulParser.parseLine line).params.length = 18 := by
  unfold CulParser.parseLine at h ⊢
  simp only at h ⊢
  split
  · rename_i h1
    rw [if_pos h1] at h
    exact absurd rfl h
  · rename_i h1
    rw [if_neg h1] at h
    split
    · rename_i h2
      rw [if_pos h2] at h
      exact absurd rfl h
    · rename_i h2
      rw [if_neg h2] at h
      split
      · rename_i h3
        rw [if_pos h3] at h
        exact absurd rfl h
      · rename_i h3
        rw [if_neg h3] at h
        split
        · rename_i h4
          rw [if_pos h4] at h
          exact absurd rfl h
        · exact length_readParams _ 18

theorem culModel_setData_params (n : Nat) (self : CulTableModel) (index : QModelIndex)
    (value : QVariant) (role : Int) (h : ∀ r ∈ self.m_rows, r.params.length = n) :
    ∀ r ∈ (self.setData index value role).2.m_rows, r.params.length = n := by
  unfold CulTableModel.setData
  split
  · exact h
  · split
    · exact h
    · rename_i row hrow
      have hmem : row ∈ self.m_rows := List.getElem?_mem hrow
      have hn := h row hmem
      have key : ∀ r' : CulRow, r'.params.length = n →
          ∀ r ∈ self.m_rows.set index.row.toNat r', r.params.length = n := by
        intro r' hr' r hr
        rcases List.mem_or_eq_of_mem_set hr with hr | hr
        · exact h r hr
        · rw [hr]; exact hr'
      simp only
      repeat' split
      all_goals first
        | exact h
        | exact key _ hn
        | exact key _ (by simp [hn])

theorem culModel_duplicateRow_params (n : Nat) (self : CulTableModel) (k : Int)
    (h : ∀ r ∈ self.m_rows, r.params.length = n) :
    ∀ r ∈ (self.duplicateRow k).m_rows, r.params.length = n := by
  unfold CulTableModel.duplicateRow
  split
  · exact h
  · split
    · exact h
    · rename_i row hrow
      intro r hr
      rcases List.mem_append.mp hr with hr | hr
      · exact h r hr
      · rw [List.mem_singleton.mp hr]
        exact h row (List.getElem?_mem hrow)

theorem culModel_deleteRow_params (n : Nat) (self : CulTableModel) (k : Int)
    (h : ∀ r ∈ self.m_rows, r.params.length = n) :
    ∀ r ∈ (self.deleteRow k).m_rows, r.params.length = n := by
  unfold CulTableModel.deleteRow
  split
  · exact h
  · split
    · exact h
    · split
      · exact h
      · intro r hr
        exact h r (List.mem_of_mem_eraseIdx hr)

theorem ecoModel_setData_params (n : Nat) (self : EcoTableModel) (index : QModelIndex)
    (value : QVariant) (role : Int) (h : ∀ r ∈ self.m_rows, r.params.length = n) :
    ∀ r ∈ (self.setData index value role).2.m_rows, r.params.length = n := by
  unfold EcoTableModel.setData
  split
  · exact h
  · split
    · exact h
    · rename_i row hrow
      have hmem : row ∈ self.m_rows := List.getElem?_mem hrow
      have hn := h row hmem
      have key : ∀ r' : EcoRow, r'.params.length = n →
          ∀ r ∈ self.m_rows.set index.row.toNat r', r.params.length = n := by
        intro r' hr' r hr
        rcases List.mem_or_eq_of_mem_set hr with hr | hr
        · exact h r hr
        · rw [hr]; exact hr'
      simp only
      repeat' split
      all_goals first
        | exact h
        | exact key _ hn
        | exact key _ (by simp [hn])

theorem ecoModel_duplicateRow_params (n : Nat) (self : EcoTableModel) (k : Int)
    (h : ∀ r ∈ self.m_rows, r.params.length = n) :
    ∀ r ∈ (self.duplicateRow k).m_rows, r.params.length = n := by
  unfold EcoTableModel.duplicateRow
  split
  · exact h
  · split
    · exact h
    · rename_i row hrow
      intro r hr
      rcases List.mem_append.mp hr with hr | hr
      · exact h r hr
      · rw [List.mem_singleton.mp hr]
        exact h row (List.getElem?_mem hrow)

theorem ecoModel_deleteRow_params (n : Nat) (self : EcoTableModel) (k : Int)
    (h : ∀ r ∈ self.m_rows, r.params.length = n) :
    ∀ r ∈ (self.deleteRow k).m_rows, r.params.length = n := by
  unfold EcoTableModel.deleteRow
  split
  · exact h
  · split
    · exact h
    · split
      · exact h
      · intro r hr
        exact h r (List.mem_of_mem_eraseIdx hr)

/-- C10: every row of `CulParser::parse` and of a successful
`CulParser::parseLine` has exactly 18 parameters and every row of
`EcoParser::parse` exactly 16, whatever the text; `addRow` appends a row with
18 (cultivar) or 16 (ecotype) parameters; and in a model whose rows all have
that many parameters, they still do after `setData`, `duplicateRow` and
`deleteRow`. -/
theorem C10_parameter_count (file : Option (List Char)) (line : QString)
    (cm : CulTableModel) (em : EcoTableModel) (index : QModelIndex) (value : QVariant)
    (role : Int) (k : Int)
    (hc : ∀ r ∈ cm.m_rows, r.params.length = 18)
    (he : ∀ r ∈ em.m_rows, r.params.length = 16) :
    (∀ r ∈ (CulParser.parse file).rows, r.params.length = 18) ∧
    ((CulParser.parseLine line).varNum ≠ [] →
      (CulParser.parseLine line).params.length = 18) ∧
    (∀ r ∈ (EcoParser.parse file).rows, r.params.length = 16) ∧
    (∃ r, cm.addRow.m_rows = cm.m_rows ++ [r] ∧ r.params.length = 18) ∧
    (∃ r, em.addRow.m_rows = em.m_rows ++ [r] ∧ r.params.length = 16) ∧
    (∀ r ∈ cm.addRow.m_rows, r.params.length = 18) ∧
    (∀ r ∈ (cm.setData index value role).2.m_rows, r.params.length = 18) ∧
    (∀ r ∈ (cm.duplicateRow k).m_rows, r.params.length = 18) ∧
    (∀ r ∈ (cm.deleteRow k).m_rows, r.params.length = 18) ∧
    (∀ r ∈ em.addRow.m_rows, r.params.length = 16) ∧
    (∀ r ∈ (em.setData index value role).2.m_rows, r.params.length = 16) ∧
    (∀ r ∈ (em.duplicateRow k).m_rows, r.params.length = 16) ∧
    (∀ r ∈ (em.deleteRow k).m_rows, r.params.length = 16) := by
  refine ⟨?_, cul_parseLine_params line, ?_, ⟨_, rfl, by simp⟩, ⟨_, rfl, by simp⟩,
    ?_, culModel_setData_params 18 cm index value role hc,
    culModel_duplicateRow_params 18 cm k hc, culModel_deleteRow_params 18 cm k hc,
    ?_, ecoModel_setData_params 16 em index value role he,
    ecoModel_duplicateRow_params 16 em k he, ecoModel_deleteRow_params 16 em k he⟩
  · cases file with
    | none => intro r hr; cases hr
    | some text =>
      exact cul_foldl_parseStep_params _ _ (fun r hr => by cases hr)
  · cases file with
    | none => intro r hr; cases hr
    | some text =>
      exact eco_foldl_parseStep_params _ _ (fun r hr => by cases hr)
  · intro r hr
    rcases List.mem_append.mp hr with hr | hr
    · exact hc r hr
    · rw [List.mem_singleton.mp hr]; simp
  · intro r hr
    rcases List.mem_append.mp hr with hr | hr
    · exact he r hr
    · rw [List.mem_singleton.mp hr]; simp

/-- Witness of C10, on the sample model and a two-line file. -/
theorem C10_parameter_count_witness :
    (∀ r ∈ sampleModel.m_rows, r.params.length = 18) ∧
    (∀ r ∈ ({ m_rows := [sampleEco] } : EcoTableModel).m_rows, r.params.length = 16) ∧
    (∀ r ∈ (CulParser.parse (some "*SOYBEAN\r\nIB0001 SOME CULTIVAR        . IB0001 12.5".toList)).rows,
      r.params.length = 18) ∧
    (∀ r ∈ (sampleModel.setData ⟨2, 4⟩ ⟨"1.5".toList, some (Dbl.fin false 3 (-1))⟩
      EditRole).2.m_rows, r.params.length = 18) :=
  ⟨by decide, by decide,
    (C10_parameter_count
      (some "*SOYBEAN\r\nIB0001 SOME CULTIVAR        . IB0001 12.5".toList) []
      sampleModel { m_rows := [sampleEco] } ⟨2, 4⟩
      ⟨"1.5".toList, some (Dbl.fin false 3 (-1))⟩ EditRole 2 (by decide) (by decide)).1,
    (C10_parameter_count
      (some "*SOYBEAN\r\nIB0001 SOME CULTIVAR        . IB0001 12.5".toList) []
      sampleModel { m_rows := [sampleEco] } ⟨2, 4⟩
      ⟨"1.5".toList, some (Dbl.fin false 3 (-1))⟩ EditRole 2 (by decide)
      (by decide)).2.2.2.2.2.2.1⟩

/-! ## Width of a formatted parameter -/

namespace Dbl

theorem decDigitsAux_length (fuel : Nat) :
    ∀ n k, n < fuel → n < 10 ^ (k + 1) →
      1 ≤ (decDigitsAux fuel n).length ∧ (decDigitsAux fuel n).length ≤ k + 1 := by
  induction fuel with
  | zero => intro n k h; omega
  | succ fuel ih =>
    intro n k hn hk
    unfold decDigitsAux
    by_cases h10 : n < 10
    · simp [h10]
    · rw [if_neg h10]
      cases k with
      | zero => simp at hk; omega
      | succ k =>
        have h1 : n / 10 < fuel := by omega
        have h2 : n / 10 < 10 ^ (k + 1) := by
          rw [Nat.pow_succ] at hk
          omega
        have := ih (n / 10) k h1 h2
        simp only [List.length_append, List.length_singleton]
        omega

theorem decDigits_length_pos (n : Nat) : 1 ≤ (decDigits n).length :=
  (decDigitsAux_length (n + 1) n n (Nat.lt_succ_self n)
    (Nat.lt_of_lt_of_le (Nat.lt_pow_self (by decide) n) (Nat.pow_le_pow_right (by decide)
      (Nat.le_succ n)))).1

theorem decDigits_length_le (n k : Nat) (h : n < 10 ^ (k + 1)) :
    (decDigits n).length ≤ k + 1 :=
  (decDigitsAux_length (n + 1) n k (Nat.lt_succ_self n) h).2

theorem length_fixedDigits (n d : Nat) (hd : 0 < d) :
    (fixedDigits n d).length = (decDigits (n / 10 ^ d)).length + 1 + d := by
  unfold fixedDigits rightJustified
  have hlt : n % 10 ^ d < 10 ^ d := Nat.mod_lt _ (Nat.pos_pow_of_pos d (by decide))
  obtain ⟨k, rfl⟩ : ∃ k, d = k + 1 := ⟨d - 1, by omega⟩
  have h1 := decDigits_length_le _ k hlt
  simp only [Nat.succ_ne_zero, if_false, List.length_append, List.length_cons,
    List.length_replicate]
  omega

end Dbl

theorem length_rightJustified (s : QString) (w : Nat) (c : Char) :
    (rightJustified s w c).length = max w s.length := by
  unfold rightJustified
  simp only [List.length_append, List.length_replicate]
  omega

theorem length_leftJustified (s : QString) (w : Nat) (c : Char) :
    (leftJustified s w c).length = max w s.length := by
  unfold leftJustified
  simp only [List.length_append, List.length_replicate]
  omega

theorem argF_length_ge (v : Dbl) (d : Nat) : 5 ≤ (argF v 5 d).length := by
  unfold argF
  rw [length_rightJustified]
  omega

theorem argF_length_eq (m : Nat) (e : Int) (d : Nat) (h1 : 1 ≤ d) (h3 : d ≤ 3)
    (h : Dbl.scaledRound m e d < 10000) : (argF (Dbl.fin false m e) 5 d).length = 5 := by
  unfold argF
  rw [length_rightJustified]
  unfold Dbl.toFixed
  simp only [Bool.false_and, Bool.false_eq_true, if_false, List.nil_append]
  rw [Dbl.length_fixedDigits _ _ (by omega)]
  have hpos := Dbl.decDigits_length_pos (Dbl.scaledRound m e d / 10 ^ d)
  have hle : (Dbl.decDigits (Dbl.scaledRound m e d / 10 ^ d)).length ≤ 4 - d := by
    obtain ⟨k, hk⟩ : ∃ k, 4 - d = k + 1 := ⟨3 - d, by omega⟩
    rw [hk]
    apply Dbl.decDigits_length_le
    rw [← hk]
    interval_cases d <;> simp <;> omega
  omega

theorem trailingDot_length (m : Nat) (e : Int) (h : Dbl.scaledRound m e 0 < 10000) :
    (qRound (Dbl.fin false m e)).map (fun r => rightJustified (numberInt r ++ ['.']) 5 ' ')
      = some (rightJustified (Dbl.decDigits (Dbl.scaledRound m e 0) ++ ['.']) 5 ' ') ∧
    (rightJustified (Dbl.decDigits (Dbl.scaledRound m e 0) ++ ['.']) 5 ' ').length = 5 := by
  constructor
  · unfold qRound
    simp only [Bool.false_eq_true, if_false]
    rw [if_pos (by omega)]
    rfl
  · rw [length_rightJustified]
    have := Dbl.decDigits_length_le _ 3 h
    simp only [List.length_append, List.length_singleton]
    omega

/-- C5 (counterexample): the value 1000.0 at position 0 is rendered as
`1000.00` by `CulParser::formatParam` and as `1000.000` by
`EcoParser::formatParam`, which are 7 and 8 characters, not 5. -/
theorem C5_width_counterexample :
    CulParser.formatParam sampleG (Dbl.ofNat 1000) 0 = some "1000.00".toList ∧
    "1000.00".toList.length ≠ 5 ∧
    EcoParser.formatParam sampleG (Dbl.ofNat 1000) 0 = "1000.000".toList ∧
    "1000.000".toList.length ≠ 5 := by
  decide

/-- C5 (amended): for every finite value and valid index, the text of
`formatParam` has at least 5 characters, and it has exactly 5 characters when
the value is not negative and, rounded at the decimals of the position and
written without the decimal point, is below 10000. -/
theorem C5_width_amended (g : Dbl → Nat → QString) (neg : Bool) (m : Nat) (e : Int)
    (i : Int) (h0 : 0 ≤ i) :
    (i < 18 →
      (∀ s, CulParser.formatParam g (Dbl.fin neg m e) i = some s → 5 ≤ s.length) ∧
      (neg = false →
        Dbl.scaledRound m e (CUL_FMTS.getD i.toNat ⟨0, false⟩).decimals < 10000 →
        ∃ s, CulParser.formatParam g (Dbl.fin neg m e) i = some s ∧ s.length = 5)) ∧
    (i < 16 →
      5 ≤ (EcoParser.formatParam g (Dbl.fin neg m e) i).length ∧
      (neg = false → Dbl.scaledRound m e (ECO_FMTS.getD i.toNat 0) < 10000 →
        (EcoParser.formatParam g (Dbl.fin neg m e) i).length = 5)) := by
  obtain ⟨n, rfl⟩ := Int.eq_ofNat_of_zero_le h0
  constructor
  · intro hi
    have hn : n < 18 := by omega
    constructor
    · intro s hs
      unfold CulParser.formatParam at hs
      rw [if_neg (by omega)] at hs
      split at hs
      · rename_i hnone
        rw [List.getElem?_eq_none_iff] at hnone
        have : CUL_FMTS.length = 18 := rfl
        simp at hnone
        omega
      · split at hs
        · cases hq : qRound (Dbl.fin neg m e) with
          | none => rw [hq] at hs; cases hs
          | some r =>
            rw [hq] at hs
            cases hs
            rw [length_rightJustified]
            omega
        · cases hs
          exact argF_length_ge _ _
    · intro hneg hN
      subst hneg
      unfold CulParser.formatParam
      rw [if_neg (by omega)]
      simp only [Int.toNat_ofNat] at hN ⊢
      interval_cases n <;>
        first
        | exact ⟨_, rfl, argF_length_eq m e _ (by decide) (by decide) hN⟩
        | exact ⟨_, (trailingDot_length m e hN).1, (trailingDot_length m e hN).2⟩
  · intro hi
    have hn : n < 16 := by omega
    constructor
    · unfold EcoParser.formatParam
      rw [if_neg (by omega)]
      split
      · rename_i hnone
        rw [List.getElem?_eq_none_iff] at hnone
        have : ECO_FMTS.length = 16 := rfl
        simp at hnone
        omega
      · exact argF_length_ge _ _
    · intro hneg hN
      subst hneg
      unfold EcoParser.formatParam
      rw [if_neg (by omega)]
      simp only [Int.toNat_ofNat] at hN ⊢
      interval_cases n <;> exact argF_length_eq m e _ (by decide) (by decide) hN

/-- Witness of C5 (amended): the value 12.5 at position 0. -/
theorem C5_width_amended_witness :
    (0 : Int) ≤ 0 ∧
    ((0 : Int) < 18 →
      (∀ s, CulParser.formatParam sampleG (Dbl.fin false 25 (-1)) 0 = some s → 5 ≤ s.length) ∧
      (false = false →
        Dbl.scaledRound 25 (-1) (CUL_FMTS.getD (0 : Int).toNat ⟨0, false⟩).decimals < 10000 →
        ∃ s, CulParser.formatParam sampleG (Dbl.fin false 25 (-1)) 0 = some s ∧
          s.length = 5)) :=
  ⟨le_refl 0, (C5_width_amended sampleG false 25 (-1) 0 (le_refl 0)).1⟩

/-! ## Writing and reading lines -/

theorem textModeRead_line (l rest : List Char) (h : '\r' ∉ l) :
    textModeRead (l ++ '\r' :: '\n' :: rest) = l ++ '\n' :: textModeRead rest := by
  induction l with
  | nil => simp [textModeRead]
  | cons c cs ih =>
    have hc : c ≠ '\r' := fun hc => h (hc ▸ List.mem_cons_self _ _)
    have hcs : '\r' ∉ cs := fun hcs => h (List.mem_cons_of_mem _ hcs)
    simp only [List.cons_append, textModeRead, hc, false_and, if_false]
    rw [← ih hcs]
    rfl

theorem chopCR_eq_self (l : QString) (h : '\r' ∉ l) : chopCR l = l := by
  unfold chopCR
  rw [if_neg]
  intro hl
  exact h (List.mem_of_getLast?_eq_some hl)

theorem readLinesAux_line (l rest : List Char) (cur : QString) (h : '\n' ∉ l) :
    readLinesAux (l ++ '\n' :: rest) cur = chopCR (cur ++ l) :: readLinesAux rest [] := by
  induction l generalizing cur with
  | nil => simp [readLinesAux]
  | cons c cs ih =>
    have hc : c ≠ '\n' := fun hc => h (hc ▸ List.mem_cons_self _ _)
    have hcs : '\n' ∉ cs := fun hcs => h (List.mem_cons_of_mem _ hcs)
    simp only [List.cons_append, readLinesAux, hc, if_false, List.append_eq]
    rw [ih _ hcs]
    simp

theorem emitLines_append (a b : List QString) :
    emitLines (a ++ b) = emitLines a ++ emitLines b := by
  simp [emitLines]

theorem readLines_emitLines (ls : List QString) (h : ∀ l ∈ ls, '\n' ∉ l ∧ '\r' ∉ l) :
    readLines (emitLines ls) = ls := by
  unfold readLines
  induction ls with
  | nil => rfl
  | cons l ls ih =>
    have hl := h l (List.mem_cons_self _ _)
    have hls := fun x hx => h x (List.mem_cons_of_mem _ hx)
    have hcons : emitLines (l :: ls) = l ++ '\r' :: '\n' :: emitLines ls := by
      simp [emitLines]
    rw [hcons, textModeRead_line _ _ hl.2, readLinesAux_line _ _ _ hl.1, ih hls,
      List.nil_append, chopCR_eq_self _ hl.2]

theorem cul_parseStep_header (acc : CulParser.Parsed) (l : QString) (hcr : '\r' ∉ l)
    (hl : l = [] ∨ isHeaderMark (l.headD ' ') = true) :
    CulParser.parseStep acc l = { acc with headerLines := acc.headerLines ++ [l] } := by
  unfold CulParser.parseStep
  rw [chopCR_eq_self _ hcr]
  rcases hl with hl | hl
  · subst hl
    rfl
  · simp only [hl, if_true]
    split <;> rfl

theorem cul_foldl_parseStep_headers (hs : List QString) (acc : CulParser.Parsed)
    (h : ∀ l ∈ hs, (l = [] ∨ isHeaderMark (l.headD ' ') = true) ∧ '\n' ∉ l ∧ '\r' ∉ l) :
    hs.foldl CulParser.parseStep acc =
      { acc with headerLines := acc.headerLines ++ hs } := by
  induction hs generalizing acc with
  | nil => simp
  | cons l ls ih =>
    have hl := h l (List.mem_cons_self _ _)
    rw [List.foldl_cons, cul_parseStep_header acc l hl.2.2 hl.1,
      ih _ (fun x hx => h x (List.mem_cons_of_mem _ hx))]
    simp

theorem eco_parseStep_header (acc : EcoParser.Parsed) (l : QString) (hcr : '\r' ∉ l)
    (hl : l = [] ∨ isHeaderMark (l.headD ' ') = true) :
    EcoParser.parseStep acc l = { acc with headerLines := acc.headerLines ++ [l] } := by
  unfold EcoParser.parseStep
  rw [chopCR_eq_self _ hcr]
  rcases hl with hl | hl
  · subst hl
    rfl
  · simp only [hl, if_true]
    split <;> rfl

theorem eco_foldl_parseStep_headers (hs : List QString) (acc : EcoParser.Parsed)
    (h : ∀ l ∈ hs, (l = [] ∨ isHeaderMark (l.headD ' ') = true) ∧ '\n' ∉ l ∧ '\r' ∉ l) :
    hs.foldl EcoParser.parseStep acc =
      { acc with headerLines := acc.headerLines ++ hs } := by
  induction hs generalizing acc with
  | nil => simp
  | cons l ls ih =>
    have hl := h l (List.mem_cons_self _ _)
    rw [List.foldl_cons, eco_parseStep_header acc l hl.2.2 hl.1,
      ih _ (fun x hx => h x (List.mem_cons_of_mem _ hx))]
    simp

/-- C4: for every sequence of header lines (each one empty or beginning with
`*`, `!` or `@`, and free of line terminator characters), writing it with no
rows and parsing the written text returns the same sequence of header lines,
blank lines and order included, and no row; for the cultivar and the ecotype
codec. -/
theorem C4_header_preservation (g : Dbl → Nat → QString) (headerLines : List QString)
    (h : ∀ l ∈ headerLines,
      (l = [] ∨ isHeaderMark (l.headD ' ') = true) ∧ '\n' ∉ l ∧ '\r' ∉ l) :
    (CulParser.write g true [] headerLines).map
        (fun w => (w.1, CulParser.parse (some w.2))) = some (true, ⟨[], headerLines⟩) ∧
    EcoParser.parse (some (EcoParser.write g true [] headerLines).2) =
      ⟨[], headerLines⟩ := by
  have hread := readLines_emitLines headerLines (fun l hl => (h l hl).2)
  constructor
  · simp only [CulParser.write, CulParser.formatRows, Bool.not_true, Bool.false_eq_true,
      if_false, Option.map_some', emitLines, List.map_nil, List.flatten_nil,
      List.append_nil]
    simp only [CulParser.parse]
    have hread' : readLines (List.map (fun l => l ++ ['\r', '\n']) headerLines).flatten
        = headerLines := hread
    rw [hread', cul_foldl_parseStep_headers _ _ h]
    rfl
  · simp only [EcoParser.write, Bool.not_true, Bool.false_eq_true, if_false, emitLines,
      List.map_nil, List.flatten_nil, List.append_nil, EcoParser.parse]
    have hread' : readLines (List.map (fun l => l ++ ['\r', '\n']) headerLines).flatten
        = headerLines := hread
    rw [hread', eco_foldl_parseStep_headers _ _ h]
    rfl

/-- Witness of C4: a title line, a blank line, a comment and a column-label
line. -/
theorem C4_header_preservation_witness :
    (∀ l ∈ ["*SOYBEAN GENOTYPE COEFFICIENTS".toList, [], "! COEFF  DEFINITIONS".toList,
        "@VAR#  VRNAME".toList],
      (l = [] ∨ isHeaderMark (l.headD ' ') = true) ∧ '\n' ∉ l ∧ '\r' ∉ l) ∧
    (CulParser.write sampleG true []
        ["*SOYBEAN GENOTYPE COEFFICIENTS".toList, [], "! COEFF  DEFINITIONS".toList,
          "@VAR#  VRNAME".toList]).map
        (fun w => (w.1, CulParser.parse (some w.2))) =
      some (true, ⟨[], ["*SOYBEAN GENOTYPE COEFFICIENTS".toList, [],
        "! COEFF  DEFINITIONS".toList, "@VAR#  VRNAME".toList]⟩) :=
  ⟨by decide,
    (C4_header_preservation sampleG
      ["*SOYBEAN GENOTYPE COEFFICIENTS".toList, [], "! COEFF  DEFINITIONS".toList,
        "@VAR#  VRNAME".toList] (by decide)).1⟩

/-! ## The cultivar line layout -/

set_option maxRecDepth 100000 in
/-- C1 (evaluation at the failing input): the row IB0001 / SOME CULTIVAR with
experiment code `.`, cross-reference IB0001 and parameters 15.0, 0.0, ... is
written with its experiment code at column 20 and a second, literal `.` at
column 28; parsing the written text gives a row whose cross-reference code is
`.` and whose parameters begin 0.0, 15.0: the cross-reference text was read as
parameter 0 and every parameter moved one position to the right. -/
theorem C1_roundtrip_failing_input :
    sampleRow.ecoNum = "IB0001".toList ∧
    sampleRow.params = Dbl.ofNat 15 :: List.replicate 17 Dbl.zero ∧
    (CulParser.write sampleG true [sampleRow] []).map
        (fun w => (CulParser.parse (some w.2)).rows) =
      some [{ varNum := "IB0001".toList, vrName := "SOME CULTIVAR".toList, expNo := ['.'],
              ecoNum := ['.'],
              params := Dbl.zero :: Dbl.fin false 8444249301319680 (-49) ::
                List.replicate 16 Dbl.zero,
              isMinMax := false }] := by
  decide

set_option maxRecDepth 100000 in
/-- C3 (evaluation at the failing input): the line `formatRow` produces for the
row IB0001 / SOME CULTIVAR is not reproduced by parsing it with `parseLine` and
formatting the parsed row: the second line has `.` as cross-reference code and
its numeric fields are moved one position to the right. -/
theorem C3_reformat_failing_input :
    CulParser.formatRow sampleG sampleRow = some
      ("IB0001 SOME CULTIVAR.       . IB0001 15.00 0.000   0.0   0.0   0.0   0.0   0.0 0.000" ++
       "    0.   0.0 0.000 0.000   0.0  0.00   0.0   0.0 0.000 0.000").toList ∧
    (CulParser.formatRow sampleG sampleRow).bind
        (fun l => CulParser.formatRow sampleG (CulParser.parseLine l)) = some
      ("IB0001 SOME CULTIVAR.       . .       0.00 15.000   0.0   0.0   0.0   0.0   0.0 0.000" ++
       "    0.   0.0 0.000 0.000   0.0  0.00   0.0   0.0 0.000 0.000").toList := by
  decide

/-! ## Lemmas on tokens and trimming -/

theorem splitWsAux_token (tok rest : List Char) (cur : QString)
    (h : ∀ c ∈ tok, isReSpace c = false) :
    splitWsAux (tok ++ rest) cur = splitWsAux rest (cur ++ tok) := by
  induction tok generalizing cur with
  | nil => simp
  | cons c cs ih =>
    have hc : isReSpace c = false := h c (List.mem_cons_self _ _)
    simp only [List.cons_append, splitWsAux, hc, Bool.false_eq_true, if_false,
      List.append_eq]
    rw [ih _ (fun x hx => h x (List.mem_cons_of_mem _ hx))]
    simp

theorem splitWsAux_spaces (k : Nat) (rest : List Char) :
    splitWsAux (List.replicate k ' ' ++ rest) [] = splitWsAux rest [] := by
  induction k with
  | zero => simp
  | succ k ih =>
    simp only [List.replicate_succ, List.cons_append, splitWsAux]
    simpa using ih

theorem splitWsAux_token_space (tok rest : List Char) (h : ∀ c ∈ tok, isReSpace c = false)
    (hne : tok ≠ []) :
    splitWsAux (tok ++ ' ' :: rest) [] = tok :: splitWsAux rest [] := by
  rw [splitWsAux_token _ _ _ h]
  simp only [List.nil_append, splitWsAux]
  cases tok with
  | nil => exact absurd rfl hne
  | cons c cs => simp [isReSpace]

theorem splitWsAux_token_end (tok : List Char) (h : ∀ c ∈ tok, isReSpace c = false)
    (hne : tok ≠ []) : splitWsAux tok [] = [tok] := by
  have := splitWsAux_token tok [] [] h
  rw [List.append_nil] at this
  rw [this]
  cases tok with
  | nil => exact absurd rfl hne
  | cons c cs => simp [splitWsAux]

theorem dropWhile_replicate_append (p : Char → Bool) (c : Char) (hc : p c = true) (k : Nat)
    (t : List Char) : (List.replicate k c ++ t).dropWhile p = t.dropWhile p := by
  induction k with
  | zero => simp
  | succ k ih => simp [List.replicate_succ, List.dropWhile_cons, hc, ih]

theorem length_dropWhile_le (p : Char → Bool) (s : List Char) :
    (s.dropWhile p).length ≤ s.length :=
  (List.dropWhile_suffix p).length_le

theorem dropWhile_eq_self_of_length {p : Char → Bool} {s : List Char}
    (h : s.length ≤ (s.dropWhile p).length) : s.dropWhile p = s := by
  cases s with
  | nil => rfl
  | cons c cs =>
    rw [List.dropWhile_cons] at h ⊢
    split
    · rename_i hc
      rw [if_pos hc] at h
      have := length_dropWhile_le p cs
      simp at h
      omega
    · rfl

theorem trimmed_eq_self_iff (s : QString) :
    trimmed s = s ↔ s.dropWhile isSpace = s ∧ s.reverse.dropWhile isSpace = s.reverse := by
  unfold trimmed
  constructor
  · intro h
    have h1 : s.length ≤ ((s.dropWhile isSpace).reverse.dropWhile isSpace).length := by
      have := congrArg List.length h
      simp only [List.length_reverse] at this
      omega
    have h2 := length_dropWhile_le isSpace (s.dropWhile isSpace).reverse
    have h3 := length_dropWhile_le isSpace s
    rw [List.length_reverse] at h2
    have hd : s.dropWhile isSpace = s := dropWhile_eq_self_of_length (by omega)
    refine ⟨hd, ?_⟩
    rw [hd] at h
    have := congrArg List.reverse h
    simpa using this
  · rintro ⟨h1, h2⟩
    rw [h1, h2, List.reverse_reverse]

theorem dropWhile_append_of_eq_self {p : Char → Bool} {s : List Char} (t : List Char)
    (hne : s ≠ []) (h : s.dropWhile p = s) : (s ++ t).dropWhile p = s ++ t := by
  cases s with
  | nil => exact absurd rfl hne
  | cons c cs =>
    rw [List.dropWhile_cons] at h
    by_cases hc : p c = true
    · rw [if_pos hc] at h
      have := length_dropWhile_le p cs
      have h' := congrArg List.length h
      simp at h'
      omega
    · simp [List.dropWhile_cons, hc]

theorem trimmed_append_spaces (s : QString) (k : Nat) (h : trimmed s = s) :
    trimmed (s ++ List.replicate k ' ') = s := by
  obtain ⟨h1, h2⟩ := (trimmed_eq_self_iff s).mp h
  have hsp : isSpace ' ' = true := by decide
  unfold trimmed
  by_cases hne : s = []
  · subst hne
    have : (List.replicate k ' ').dropWhile isSpace = [] := by
      have := dropWhile_replicate_append isSpace ' ' hsp k []
      simpa using this
    simp [this]
  · rw [dropWhile_append_of_eq_self _ hne h1, List.reverse_append, List.reverse_replicate,
      dropWhile_replicate_append isSpace ' ' hsp, h2, List.reverse_reverse]

theorem leftJustified_eq (s : QString) (w : Nat) :
    leftJustified s w ' ' = s ++ List.replicate (w - s.length) ' ' := rfl

/-! ## Lemmas on decimal text -/

theorem digitChar_facts :
    ∀ k < 10, (Nat.digitChar k).isDigit = true ∧ isSpace (Nat.digitChar k) = false ∧
      isReSpace (Nat.digitChar k) = false ∧ (Nat.digitChar k).toLower = Nat.digitChar k ∧
      Nat.digitChar k ≠ 'n' ∧ Nat.digitChar k ≠ '-' ∧ Nat.digitChar k ≠ '+' ∧
      Nat.digitChar k ≠ '.' ∧ (Nat.digitChar k).toNat - 48 = k := by
  decide

theorem IsDec.isDigit {c : Char} (h : IsDec c) : c.isDigit = true := by
  obtain ⟨k, hk, rfl⟩ := h
  exact (digitChar_facts k hk).1

theorem IsDec.not_reSpace {c : Char} (h : IsDec c) : isReSpace c = false := by
  obtain ⟨k, hk, rfl⟩ := h
  exact (digitChar_facts k hk).2.2.1

theorem decDigitsAux_mem (fuel : Nat) : ∀ n, ∀ c ∈ Dbl.decDigitsAux fuel n, IsDec c := by
  induction fuel with
  | zero => intro n c hc; simp [Dbl.decDigitsAux] at hc
  | succ fuel ih =>
    intro n c hc
    unfold Dbl.decDigitsAux at hc
    rcases List.mem_append.mp hc with hc | hc
    · split at hc
      · cases hc
      · exact ih _ c hc
    · rw [List.mem_singleton.mp hc]
      exact ⟨n % 10, Nat.mod_lt _ (by decide), rfl⟩

theorem decDigits_mem (n : Nat) : ∀ c ∈ Dbl.decDigits n, IsDec c :=
  decDigitsAux_mem _ n

theorem digitsVal_foldl (b : List Char) (acc : Nat) :
    b.foldl (fun a c => 10 * a + (c.toNat - 48)) acc = acc * 10 ^ b.length + digitsVal b := by
  unfold digitsVal
  induction b generalizing acc with
  | nil => simp
  | cons c cs ih =>
    rw [List.foldl_cons, List.foldl_cons, ih, ih (10 * 0 + (c.toNat - 48))]
    simp only [List.length_cons, Nat.pow_succ]
    ring

theorem digitsVal_append (a b : List Char) :
    digitsVal (a ++ b) = digitsVal a * 10 ^ b.length + digitsVal b := by
  conv_lhs => unfold digitsVal
  rw [List.foldl_append, digitsVal_foldl]
  rfl

theorem digitsVal_replicate_zero (k : Nat) : digitsVal (List.replicate k '0') = 0 := by
  induction k with
  | zero => rfl
  | succ k ih =>
    rw [List.replicate_succ']
    rw [digitsVal_append, ih]
    rfl

theorem digitsVal_decDigitsAux (fuel : Nat) :
    ∀ n, n < fuel → digitsVal (Dbl.decDigitsAux fuel n) = n := by
  induction fuel with
  | zero => intro n h; omega
  | succ fuel ih =>
    intro n hn
    unfold Dbl.decDigitsAux
    have hd := (digitChar_facts (n % 10) (Nat.mod_lt _ (by decide))).2.2.2.2.2.2.2.2
    rw [digitsVal_append]
    by_cases h10 : n < 10
    · rw [if_pos h10]
      simp only [List.length_singleton, pow_one]
      show 0 * 10 + (10 * 0 + ((Nat.digitChar (n % 10)).toNat - 48)) = n
      rw [hd]
      omega
    · rw [if_neg h10, ih (n / 10) (by omega)]
      simp only [List.length_singleton, pow_one]
      show n / 10 * 10 + (10 * 0 + ((Nat.digitChar (n % 10)).toNat - 48)) = n
      rw [hd]
      omega

theorem digitsVal_decDigits (n : Nat) : digitsVal (Dbl.decDigits n) = n :=
  digitsVal_decDigitsAux _ n (Nat.lt_succ_self n)

theorem takeWhile_isDigit_append (ds rest : List Char) (h : ∀ c ∈ ds, IsDec c)
    (hr : ∀ c, rest.head? = some c → c.isDigit = false) :
    (ds ++ rest).takeWhile Char.isDigit = ds ∧ (ds ++ rest).dropWhile Char.isDigit = rest := by
  induction ds with
  | nil =>
    cases rest with
    | nil => simp
    | cons c cs =>
      have := hr c rfl
      simp [List.takeWhile_cons, List.dropWhile_cons, this]
  | cons c cs ih =>
    have hc : c.isDigit = true := (h c (List.mem_cons_self _ _)).isDigit
    have := ih (fun x hx => h x (List.mem_cons_of_mem _ hx))
    simp [List.takeWhile_cons, List.dropWhile_cons, hc, this]

theorem IsNumChar.facts {c : Char} (h : IsNumChar c) :
    isSpace c = false ∧ isReSpace c = false ∧ c.toLower = c ∧ c ≠ 'n' := by
  rcases h with ⟨k, hk, rfl⟩ | rfl | rfl
  · have := digitChar_facts k hk
    exact ⟨this.2.1, this.2.2.1, this.2.2.2.1, this.2.2.2.2.1⟩
  · decide
  · decide

theorem fixedDigits_eq (n d : Nat) (hd : 0 < d) :
    Dbl.fixedDigits n d = Dbl.decDigits (n / 10 ^ d) ++
      '.' :: (List.replicate (d - (Dbl.decDigits (n % 10 ^ d)).length) '0' ++
        Dbl.decDigits (n % 10 ^ d)) := by
  unfold Dbl.fixedDigits rightJustified
  rw [if_neg (by omega)]

theorem fracDigits_facts (n d : Nat) (hd : 0 < d) :
    (List.replicate (d - (Dbl.decDigits (n % 10 ^ d)).length) '0' ++
        Dbl.decDigits (n % 10 ^ d)).length = d ∧
    (∀ c ∈ List.replicate (d - (Dbl.decDigits (n % 10 ^ d)).length) '0' ++
        Dbl.decDigits (n % 10 ^ d), IsDec c) ∧
    digitsVal (List.replicate (d - (Dbl.decDigits (n % 10 ^ d)).length) '0' ++
        Dbl.decDigits (n % 10 ^ d)) = n % 10 ^ d := by
  have hlt : n % 10 ^ d < 10 ^ d := Nat.mod_lt _ (Nat.pos_pow_of_pos d (by decide))
  obtain ⟨k, rfl⟩ : ∃ k, d = k + 1 := ⟨d - 1, by omega⟩
  have h1 := Dbl.decDigits_length_le _ k hlt
  refine ⟨?_, ?_, ?_⟩
  · simp only [List.length_append, List.length_replicate]
    omega
  · intro c hc
    rcases List.mem_append.mp hc with hc | hc
    · rw [(List.mem_replicate.mp hc).2]
      exact ⟨0, by decide, rfl⟩
    · exact decDigits_mem _ c hc
  · rw [digitsVal_append, digitsVal_replicate_zero, digitsVal_decDigits]
    simp

theorem fixedDigits_chars (n d : Nat) : ∀ c ∈ Dbl.fixedDigits n d, IsNumChar c := by
  intro c hc
  unfold Dbl.fixedDigits at hc
  rcases List.mem_append.mp hc with hc | hc
  · exact Or.inl (decDigits_mem _ c hc)
  · split at hc
    · cases hc
    · rename_i hd
      rcases List.mem_cons.mp hc with hc | hc
      · exact Or.inr (Or.inl hc)
      · exact Or.inl ((fracDigits_facts n d (by omega)).2.1 c hc)

theorem fixedDigits_ne_nil (n d : Nat) : Dbl.fixedDigits n d ≠ [] := by
  unfold Dbl.fixedDigits
  have := Dbl.decDigits_length_pos (n / 10 ^ d)
  intro h
  have := congrArg List.length h
  simp only [List.length_append, List.length_nil] at this
  omega

theorem toFixed_chars (neg : Bool) (m : Nat) (e : Int) (d : Nat) :
    ∀ c ∈ Dbl.toFixed (Dbl.fin neg m e) d, IsNumChar c := by
  intro c hc
  unfold Dbl.toFixed at hc
  rcases List.mem_append.mp hc with hc | hc
  · split at hc
    · rw [List.mem_singleton.mp hc]
      exact Or.inr (Or.inr rfl)
    · cases hc
  · exact fixedDigits_chars _ _ c hc

theorem toFixed_ne_nil (neg : Bool) (m : Nat) (e : Int) (d : Nat) :
    Dbl.toFixed (Dbl.fin neg m e) d ≠ [] := by
  unfold Dbl.toFixed
  intro h
  exact fixedDigits_ne_nil _ _ (List.append_eq_nil.mp h).2

theorem trimmed_eq_self_of_no_space (s : QString) (h : ∀ c ∈ s, isSpace c = false) :
    trimmed s = s := by
  rw [trimmed_eq_self_iff]
  have key : ∀ t : List Char, (∀ c ∈ t, isSpace c = false) → t.dropWhile isSpace = t := by
    intro t ht
    cases t with
    | nil => rfl
    | cons c cs => simp [List.dropWhile_cons, ht c (List.mem_cons_self _ _)]
  exact ⟨key s h, key _ (fun c hc => h c (List.mem_reverse.mp hc))⟩

theorem takeSign_of_dec (c : Char) (r : List Char) (h : IsDec c) :
    takeSign (c :: r) = (false, c :: r) := by
  obtain ⟨k, hk, rfl⟩ := h
  have := digitChar_facts k hk
  unfold takeSign
  split
  · rename_i heq
    simp only [List.cons.injEq] at heq
    exact absurd heq.1 this.2.2.2.2.2.1
  · rename_i heq
    simp only [List.cons.injEq] at heq
    exact absurd heq.1 this.2.2.2.2.2.2.1
  · rfl

theorem parseNumeral_fixedDigits (n d : Nat) (hd : 0 < d) :
    parseNumeral (Dbl.fixedDigits n d) = some ⟨false, n, -(d : Int)⟩ ∧
    parseNumeral ('-' :: Dbl.fixedDigits n d) = some ⟨true, n, -(d : Int)⟩ := by
  rw [fixedDigits_eq n d hd]
  obtain ⟨hlen, hdec, hval⟩ := fracDigits_facts n d hd
  generalize List.replicate (d - (Dbl.decDigits (n % 10 ^ d)).length) '0' ++
        Dbl.decDigits (n % 10 ^ d) = DF at hlen hdec hval
  have hDI := decDigits_mem (n / 10 ^ d)
  have hDIpos := Dbl.decDigits_length_pos (n / 10 ^ d)
  have hDIval := digitsVal_decDigits (n / 10 ^ d)
  generalize Dbl.decDigits (n / 10 ^ d) = DI at hDI hDIpos hDIval
  have hsplit := takeWhile_isDigit_append DI ('.' :: DF) hDI
    (by intro c hc; simp at hc; rw [← hc]; decide)
  have hsplit2 := takeWhile_isDigit_append DF [] hdec (by intro c hc; simp at hc)
  rw [List.append_nil] at hsplit2
  have hne : DI ≠ [] := by
    intro h
    rw [h] at hDIpos
    simp at hDIpos
  have hsign : takeSign (DI ++ '.' :: DF) = (false, DI ++ '.' :: DF) := by
    cases DI with
    | nil => exact absurd rfl hne
    | cons c cs => exact takeSign_of_dec c _ (hDI c (List.mem_cons_self _ _))
  have hv : digitsVal (DI ++ DF) = n := by
    rw [digitsVal_append, hDIval, hlen, hval]
    exact Nat.div_add_mod' n (10 ^ d)
  have core : ∀ sg : Bool,
      (if DI = [] ∧ DF = [] then none
        else match parseExponent ([] : List Char) with
          | none => none
          | some x => some (⟨sg, digitsVal (DI ++ DF), x - (DF.length : Int)⟩ : Numeral))
        = some ⟨sg, n, -(d : Int)⟩ := by
    intro sg
    rw [if_neg (fun h => hne h.1), hv, hlen]
    simp [parseExponent]
  constructor
  · unfold parseNumeral
    simp only [hsign, hsplit.1, hsplit.2, hsplit2.1, hsplit2.2]
    exact core false
  · unfold parseNumeral
    have hs : takeSign ('-' :: (DI ++ '.' :: DF)) = (true, DI ++ '.' :: DF) := rfl
    simp only [hs, hsplit.1, hsplit.2, hsplit2.1, hsplit2.2]
    exact core true

theorem toDouble_toFixed (neg : Bool) (m : Nat) (e : Int) (d : Nat) (hd : 0 < d) :
    toDouble (Dbl.toFixed (Dbl.fin neg m e) d) =
      Numeral.toDbl ⟨neg && m != 0, Dbl.scaledRound m e d, -(d : Int)⟩ := by
  have hch := toFixed_chars neg m e d
  have htrim : trimmed (Dbl.toFixed (Dbl.fin neg m e) d) = Dbl.toFixed (Dbl.fin neg m e) d :=
    trimmed_eq_self_of_no_space _ (fun c hc => (hch c hc).facts.1)
  have hlow : (Dbl.toFixed (Dbl.fin neg m e) d).map Char.toLower =
      Dbl.toFixed (Dbl.fin neg m e) d := by
    conv_rhs => rw [← List.map_id (Dbl.toFixed (Dbl.fin neg m e) d)]
    apply List.map_congr_left
    intro c hc
    exact (hch c hc).facts.2.2.1
  have hn : 'n' ∉ Dbl.toFixed (Dbl.fin neg m e) d := fun h => (hch 'n' h).facts.2.2.2 rfl
  unfold toDouble
  simp only [htrim, hlow]
  rw [if_neg (fun h => hn (by rw [h]; decide)),
    if_neg (fun h => by
      rcases h with h | h <;> exact hn (by rw [h]; decide)),
    if_neg (fun h => hn (by rw [h]; decide))]
  have hp := parseNumeral_fixedDigits (Dbl.scaledRound m e d) d hd
  unfold Dbl.toFixed
  by_cases hs : (neg && m != 0) = true
  · simp only [hs, if_true, List.singleton_append, hp.2]
  · have hs' : (neg && m != 0) = false := by simpa using hs
    simp only [hs', Bool.false_eq_true, if_false, List.nil_append, hp.1]

/-! ## Reading back an ecotype line -/

theorem splitWsAux_token_spaces (tok rest : List Char) (k : Nat)
    (h : ∀ c ∈ tok, isReSpace c = false) (hne : tok ≠ []) :
    splitWsAux (tok ++ (List.replicate k ' ' ++ ' ' :: rest)) [] = tok :: splitWsAux rest [] := by
  have : List.replicate k ' ' ++ ' ' :: rest = ' ' :: (List.replicate k ' ' ++ rest) := by
    rw [← List.singleton_append, ← List.append_assoc, ← List.replicate_succ',
      List.replicate_succ, List.cons_append]
  rw [this, splitWsAux_token_space _ _ h hne, splitWsAux_spaces]

theorem eco_formatParam_eq (g : Dbl → Nat → QString) (v : Dbl) (j : Nat) (hj : j < 16) :
    EcoParser.formatParam g v j = argF v 5 (ECO_FMTS.getD j 0) := by
  unfold EcoParser.formatParam
  rw [if_neg (by omega)]
  simp only [Int.toNat_ofNat]
  interval_cases j <;> rfl

theorem eco_decimals_pos (j : Nat) (hj : j < 16) : 0 < ECO_FMTS.getD j 0 := by
  interval_cases j <;> decide

theorem getD_finite (ps : List Dbl) (h : ∀ v ∈ ps, v.isFinite = true) (j : Nat) :
    ∃ neg m e, ps.getD j Dbl.zero = Dbl.fin neg m e := by
  rw [List.getD_eq_getElem?_getD]
  cases hj : ps[j]? with
  | none => exact ⟨false, 0, 0, rfl⟩
  | some v =>
    have := h v (List.getElem?_mem hj)
    cases v with
    | nan => cases this
    | inf n => cases this
    | fin neg m e => exact ⟨neg, m, e, rfl⟩

theorem eco_paramText_facts (ps : List Dbl) (h : ∀ v ∈ ps, v.isFinite = true) (j : Nat) :
    EcoParser.paramText ps j ≠ [] ∧ ∀ c ∈ EcoParser.paramText ps j, IsNumChar c := by
  obtain ⟨neg, m, e, hv⟩ := getD_finite ps h j
  unfold EcoParser.paramText
  rw [hv]
  exact ⟨toFixed_ne_nil _ _ _ _, toFixed_chars _ _ _ _⟩

theorem eco_formatParams_tokens (g : Dbl → Nat → QString) (ps : List Dbl)
    (h : ∀ v ∈ ps, v.isFinite = true) (k : Nat) :
    ∀ i, i + k = 16 →
      splitWsAux (EcoParser.formatParams g ps i k) [] =
        (List.range' i k).map (EcoParser.paramText ps) ∧
      ∀ c ∈ EcoParser.formatParams g ps i k, c = ' ' ∨ IsNumChar c := by
  induction k with
  | zero => intro i _; simp [EcoParser.formatParams, splitWsAux]
  | succ k ih =>
    intro i hi
    obtain ⟨hne, hch⟩ := eco_paramText_facts ps h i
    have hsp : ∀ c ∈ EcoParser.paramText ps i, isReSpace c = false :=
      fun c hc => (hch c hc).facts.2.1
    have ih' := ih (i + 1) (by omega)
    have hF : EcoParser.formatParam g (ps.getD i Dbl.zero) (i : Int) =
        List.replicate (5 - (EcoParser.paramText ps i).length) ' ' ++
          EcoParser.paramText ps i := by
      rw [eco_formatParam_eq g _ i (by omega)]
      rfl
    unfold EcoParser.formatParams
    rw [hF]
    constructor
    · rw [List.range'_succ, List.map_cons, ← ih'.1]
      by_cases hlast : i < 15
      · rw [if_pos hlast]
        simp only [List.append_assoc, List.singleton_append]
        rw [splitWsAux_spaces, splitWsAux_token_space _ _ hsp hne]
      · have hk : k = 0 := by omega
        subst hk
        rw [if_neg hlast]
        simp only [EcoParser.formatParams, List.append_nil]
        rw [splitWsAux_spaces, splitWsAux_token_end _ hsp hne]
        rfl
    · intro c hc
      simp only [List.mem_append] at hc
      rcases hc with ((hc | hc) | hc) | hc
      · exact Or.inl (List.mem_replicate.mp hc).2
      · exact Or.inr (hch c hc)
      · split at hc
        · exact Or.inl (List.mem_singleton.mp hc)
        · cases hc
      · exact ih'.2 c hc

theorem mem_leftJustified {s : QString} {w : Nat} {c : Char}
    (h : c ∈ leftJustified s w ' ') : c ∈ s ∨ c = ' ' := by
  unfold leftJustified at h
  rcases List.mem_append.mp h with h | h
  · exact Or.inl h
  · exact Or.inr (List.mem_replicate.mp h).2

theorem headD_leftJustified (s : QString) (w : Nat) :
    (leftJustified s w ' ').headD ' ' = s.headD ' ' := by
  unfold leftJustified
  cases s with
  | nil => cases w <;> simp [List.replicate_succ]
  | cons c cs => rfl

theorem eco_parseDataLine_formatRow (g : Dbl → Nat → QString) (r : EcoRow)
    (hr : r.WellFormed) :
    EcoParser.parseDataLine (EcoParser.formatRow g r) = some (EcoParser.reread r) := by
  obtain ⟨hPtok, _⟩ := eco_formatParams_tokens g r.params hr.params_finite 16 0 rfl
  have hA : (leftJustified r.ecoNum 6 ' ').length = 6 := by
    rw [length_leftJustified]
    have := hr.ecoNum_length
    omega
  have hB : (leftJustified r.ecoName 16 ' ').length = 16 := by
    rw [length_leftJustified]
    have := hr.ecoName_length
    omega
  have hline : EcoParser.formatRow g r =
      leftJustified r.ecoNum 6 ' ' ++ ([' '] ++ (leftJustified r.ecoName 16 ' ' ++
        (leftJustified r.mg 2 ' ' ++ ' ' :: (leftJustified r.tm 2 ' ' ++
          ' ' :: EcoParser.formatParams g r.params 0 16)))) := by
    unfold EcoParser.formatRow
    simp only [List.append_assoc, List.singleton_append, List.cons_append, List.nil_append]
  generalize hP : EcoParser.formatParams g r.params 0 16 = P at hline hPtok
  have hlen : 23 ≤ (EcoParser.formatRow g r).length := by
    rw [hline]
    simp only [List.length_append, List.length_cons, hA, hB, List.length_nil]
    omega
  have hleft : left (EcoParser.formatRow g r) 6 = leftJustified r.ecoNum 6 ' ' := by
    unfold left
    rw [if_neg (by omega)]
    rw [hline]
    exact List.take_left' hA
  have hmid : mid (EcoParser.formatRow g r) 7 16 = leftJustified r.ecoName 16 ' ' := by
    unfold mid
    rw [hline, ← List.append_assoc, List.drop_left' (by simp [hA])]
    exact List.take_left' hB
  have hrest : midFrom (EcoParser.formatRow g r) 23 =
      leftJustified r.mg 2 ' ' ++ ' ' :: (leftJustified r.tm 2 ' ' ++ ' ' :: P) := by
    unfold midFrom
    rw [hline, ← List.append_assoc, ← List.append_assoc]
    exact List.drop_left' (by simp [hA, hB])
  have htok : splitWs (midFrom (EcoParser.formatRow g r) 23) =
      r.mg :: r.tm :: (List.range' 0 16).map (EcoParser.paramText r.params) := by
    rw [hrest]
    unfold splitWs
    rw [leftJustified_eq, leftJustified_eq, List.append_assoc,
      splitWsAux_token_spaces _ _ _ hr.mg_token.2.2 hr.mg_token.1, List.append_assoc,
      splitWsAux_token_spaces _ _ _ hr.tm_token.2.2 hr.tm_token.1, hPtok]
  unfold EcoParser.parseDataLine
  rw [if_neg (by omega)]
  simp only [hleft, hmid, htok]
  rw [if_neg (by simp)]
  rw [leftJustified_eq, leftJustified_eq, trimmed_append_spaces _ _ hr.ecoNum_trimmed,
    trimmed_append_spaces _ _ hr.ecoName_trimmed]
  unfold EcoParser.reread readParams padParams
  simp only [List.getD_cons_zero, List.getD_cons_succ, List.drop_succ_cons, List.drop_zero]
  rw [← hr.flag]
  have : (List.take 16 (List.map (EcoParser.paramText r.params) (List.range' 0 16))) =
      List.map (EcoParser.paramText r.params) (List.range' 0 16) := by
    apply List.take_of_length_le
    simp
  rw [this]
  simp [List.range_eq_range']

theorem eco_formatRow_chars (g : Dbl → Nat → QString) (r : EcoRow) (hr : r.WellFormed) :
    '\n' ∉ EcoParser.formatRow g r ∧ '\r' ∉ EcoParser.formatRow g r ∧
    EcoParser.formatRow g r ≠ [] ∧
    isHeaderMark ((EcoParser.formatRow g r).headD ' ') = false := by
  obtain ⟨_, hPch⟩ := eco_formatParams_tokens g r.params hr.params_finite 16 0 rfl
  have key : ∀ c ∈ EcoParser.formatRow g r, isReSpace c = true → c = ' ' ∨
      c ∈ r.ecoNum ∨ c ∈ r.ecoName := by
    intro c hc hs
    unfold EcoParser.formatRow at hc
    simp only [List.mem_append, List.mem_singleton] at hc
    rcases hc with ((((((hc | hc) | hc) | hc) | hc) | hc) | hc) | hc
    · rcases mem_leftJustified hc with h | h
      · exact Or.inr (Or.inl h)
      · exact Or.inl h
    · exact Or.inl hc
    · rcases mem_leftJustified hc with h | h
      · exact Or.inr (Or.inr h)
      · exact Or.inl h
    · rcases mem_leftJustified hc with h | h
      · rw [hr.mg_token.2.2 c h] at hs
        cases hs
      · exact Or.inl h
    · exact Or.inl hc
    · rcases mem_leftJustified hc with h | h
      · rw [hr.tm_token.2.2 c h] at hs
        cases hs
      · exact Or.inl h
    · exact Or.inl hc
    · rcases hPch c hc with h | h
      · exact Or.inl h
      · rw [h.facts.2.1] at hs
        cases hs
  refine ⟨?_, ?_, ?_, ?_⟩
  · intro h
    rcases key _ h (by decide) with h' | h' | h'
    · exact absurd h' (by decide)
    · exact hr.no_break.1 h'
    · exact hr.no_break.2.2.1 h'
  · intro h
    rcases key _ h (by decide) with h' | h' | h'
    · exact absurd h' (by decide)
    · exact hr.no_break.2.1 h'
    · exact hr.no_break.2.2.2 h'
  · intro h
    have := congrArg List.length h
    unfold EcoParser.formatRow at this
    simp only [List.length_append, List.length_singleton, List.length_nil] at this
    omega
  · have : (EcoParser.formatRow g r).headD ' ' = r.ecoNum.headD ' ' := by
      unfold EcoParser.formatRow
      simp only [List.append_assoc]
      have hne : leftJustified r.ecoNum 6 ' ' ≠ [] := by
        intro h
        have := congrArg List.length h
        rw [length_leftJustified] at this
        simp at this
      rw [← headD_leftJustified r.ecoNum 6]
      cases hl : leftJustified r.ecoNum 6 ' ' with
      | nil => exact absurd hl hne
      | cons c cs => rfl
    rw [this]
    exact hr.no_mark

theorem eco_parseStep_formatRow (g : Dbl → Nat → QString) (r : EcoRow) (hr : r.WellFormed)
    (acc : EcoParser.Parsed) :
    EcoParser.parseStep acc (EcoParser.formatRow g r) =
      { acc with rows := acc.rows ++ [EcoParser.reread r] } := by
  obtain ⟨_, hcr, hne, hmark⟩ := eco_formatRow_chars g r hr
  unfold EcoParser.parseStep
  rw [chopCR_eq_self _ hcr]
  simp only
  rw [if_neg (by simpa using hne), if_neg (by rw [hmark]; exact Bool.false_ne_true),
    eco_parseDataLine_formatRow g r hr]

theorem eco_foldl_parseStep_rows (g : Dbl → Nat → QString) (rows : List EcoRow)
    (h : ∀ r ∈ rows, r.WellFormed) (acc : EcoParser.Parsed) :
    (rows.map (EcoParser.formatRow g)).foldl EcoParser.parseStep acc =
      { acc with rows := acc.rows ++ rows.map EcoParser.reread } := by
  induction rows generalizing acc with
  | nil => simp
  | cons r rs ih =>
    rw [List.map_cons, List.foldl_cons, eco_parseStep_formatRow g r (h r (List.mem_cons_self _ _)),
      ih (fun x hx => h x (List.mem_cons_of_mem _ hx))]
    simp

theorem eco_parse_write (g : Dbl → Nat → QString) (rows : List EcoRow)
    (headerLines : List QString) (h : ∀ r ∈ rows, r.WellFormed)
    (hh : ∀ l ∈ headerLines,
      (l = [] ∨ isHeaderMark (l.headD ' ') = true) ∧ '\n' ∉ l ∧ '\r' ∉ l) :
    EcoParser.parse (some (EcoParser.write g true rows headerLines).2) =
      ⟨rows.map EcoParser.reread, headerLines⟩ := by
  unfold EcoParser.write EcoParser.parse
  simp only [Bool.not_true, Bool.false_eq_true, if_false]
  rw [← emitLines_append, readLines_emitLines, List.foldl_append,
    eco_foldl_parseStep_headers _ _ hh, eco_foldl_parseStep_rows g rows h]
  · simp
  · intro l hl
    rcases List.mem_append.mp hl with hl | hl
    · exact (hh l hl).2
    · obtain ⟨r, hr, rfl⟩ := List.mem_map.mp hl
      have := eco_formatRow_chars g r (h r hr)
      exact ⟨this.1, this.2.1⟩

/-! ## Accuracy of rendering and reading -/

theorem scaledRound_close (m : Nat) (e : Int) (d : Nat) :
    |(Dbl.scaledRound m e d : ℚ) / 10 ^ d - (m : ℚ) * (2 : ℚ) ^ e| ≤ 1 / (2 * 10 ^ d) := by
  have h10 : (0 : ℚ) < 10 ^ d := by positivity
  cases e with
  | ofNat k =>
    have : (Dbl.scaledRound m (Int.ofNat k) d : ℚ) = (m : ℚ) * 2 ^ k * 10 ^ d := by
      simp [Dbl.scaledRound]
    rw [this, Int.ofNat_eq_coe, zpow_natCast]
    have : (m : ℚ) * 2 ^ k * 10 ^ d / 10 ^ d - (m : ℚ) * 2 ^ k = 0 := by
      field_simp
    rw [this, abs_zero]
    positivity
  | negSucc k =>
    have hB : (0 : ℚ) < 2 ^ (k + 1) := by positivity
    set N := Dbl.scaledRound m (Int.negSucc k) d with hN
    have hdef : N = (2 * (m * 10 ^ d) + 2 ^ (k + 1)) / (2 * 2 ^ (k + 1)) := rfl
    have hpos : 0 < 2 * 2 ^ (k + 1) := by positivity
    have h1 : 2 * 2 ^ (k + 1) * N ≤ 2 * (m * 10 ^ d) + 2 ^ (k + 1) := by
      rw [hdef]
      exact Nat.mul_div_le _ _
    have h2 : 2 * (m * 10 ^ d) + 2 ^ (k + 1) < 2 * 2 ^ (k + 1) * N + 2 * 2 ^ (k + 1) := by
      rw [hdef]
      have := Nat.lt_mul_div_succ (2 * (m * 10 ^ d) + 2 ^ (k + 1)) hpos
      rw [Nat.mul_add, Nat.mul_one] at this
      exact this
    have h1q : (2 : ℚ) * 2 ^ (k + 1) * N ≤ 2 * (m * 10 ^ d) + 2 ^ (k + 1) := by
      exact_mod_cast h1
    have h2q : (2 : ℚ) * (m * 10 ^ d) + 2 ^ (k + 1) < 2 * 2 ^ (k + 1) * N + 2 * 2 ^ (k + 1) := by
      exact_mod_cast h2
    rw [zpow_negSucc]
    have heq : (N : ℚ) / 10 ^ d - (m : ℚ) * ((2 : ℚ) ^ (k + 1))⁻¹ =
        ((N : ℚ) * 2 ^ (k + 1) - m * 10 ^ d) / (10 ^ d * 2 ^ (k + 1)) := by
      field_simp
      ring
    have hX : |(N : ℚ) * 2 ^ (k + 1) - m * 10 ^ d| ≤ 2 ^ (k + 1) / 2 := by
      rw [abs_le]
      constructor <;> linarith
    rw [heq, abs_div, abs_of_pos (mul_pos h10 hB)]
    calc |(N : ℚ) * 2 ^ (k + 1) - m * 10 ^ d| / (10 ^ d * 2 ^ (k + 1))
        ≤ (2 ^ (k + 1) / 2) / (10 ^ d * 2 ^ (k + 1)) :=
          div_le_div_of_nonneg_right hX (le_of_lt (mul_pos h10 hB))
      _ = 1 / (2 * 10 ^ d) := by
          field_simp
          ring

theorem roundTiesEven_close (num den : Nat) (hden : 0 < den) :
    |(roundTiesEven num den : ℚ) - (num : ℚ) / den| ≤ 1 / 2 := by
  have hd : (0 : ℚ) < den := by exact_mod_cast hden
  have hdm := Nat.div_add_mod num den
  have hq : (num : ℚ) = den * (num / den : Nat) + (num % den : Nat) := by exact_mod_cast hdm.symm
  have hr : num % den < den := Nat.mod_lt _ hden
  have hrq : ((num % den : Nat) : ℚ) < den := by exact_mod_cast hr
  have hr0 : (0 : ℚ) ≤ ((num % den : Nat) : ℚ) := by positivity
  have key : ∀ x : ℚ, |x * den - num| ≤ den / 2 → |x - (num : ℚ) / den| ≤ 1 / 2 := by
    intro x hx
    have : x - (num : ℚ) / den = (x * den - num) / den := by field_simp
    rw [this, abs_div, abs_of_pos hd, div_le_iff₀ hd]
    linarith
  unfold roundTiesEven
  split
  · rename_i h
    have hh : (2 : ℚ) * ((num % den : Nat) : ℚ) < den := by exact_mod_cast h
    apply key
    rw [abs_le]
    constructor <;> linarith
  · split
    · rename_i _ h
      have hh : (den : ℚ) < 2 * ((num % den : Nat) : ℚ) := by exact_mod_cast h
      apply key
      push_cast
      rw [abs_le]
      constructor <;> linarith
    · rename_i h1 h2
      have h3 : 2 * (num % den) = den := by omega
      have hh : (2 : ℚ) * ((num % den : Nat) : ℚ) = den := by exact_mod_cast h3
      split
      · apply key
        rw [abs_le]
        constructor <;> linarith
      · apply key
        push_cast
        rw [abs_le]
        constructor <;> linarith

theorem roundTiesEven_ge (num den : Nat) : num / den ≤ roundTiesEven num den := by
  unfold roundTiesEven
  repeat' split
  all_goals omega

theorem bitLenAux_zero (fuel : Nat) : bitLenAux fuel 0 = 0 := by
  cases fuel <;> simp [bitLenAux]

theorem bitLenAux_spec (fuel : Nat) :
    ∀ n, n ≤ fuel → 0 < n →
      2 ^ (bitLenAux fuel n - 1) ≤ n ∧ n < 2 ^ bitLenAux fuel n ∧ 1 ≤ bitLenAux fuel n := by
  induction fuel with
  | zero => intro n h1 h2; omega
  | succ fuel ih =>
    intro n hn hpos
    unfold bitLenAux
    rw [if_neg (by omega)]
    by_cases h1 : n = 1
    · subst h1
      simp [bitLenAux_zero]
    · obtain ⟨ha, hb, hc⟩ := ih (n / 2) (by omega) (by omega)
      obtain ⟨b, hbdef⟩ : ∃ b, bitLenAux fuel (n / 2) = b + 1 :=
        ⟨bitLenAux fuel (n / 2) - 1, by omega⟩
      rw [hbdef] at ha hb ⊢
      simp only [Nat.add_sub_cancel] at ha ⊢
      rw [Nat.pow_succ] at hb ⊢
      refine ⟨?_, ?_, by omega⟩
      · omega
      · rw [Nat.pow_succ]
        omega

theorem bitLen_spec (n : Nat) (h : 0 < n) :
    2 ^ (bitLen n - 1) ≤ n ∧ n < 2 ^ bitLen n ∧ 1 ≤ bitLen n :=
  bitLenAux_spec n n (Nat.le_refl n) h

theorem ulpExp_pos_bound (p q : Nat) (hp : 0 < p) (hq : 0 < q) (hu : 0 < ulpExp p q) :
    (-(ulpExp p q)).toNat = 0 ∧ q * 2 ^ (ulpExp p q).toNat * 2 ^ 52 ≤ p := by
  obtain ⟨hp1, hp2, hp3⟩ := bitLen_spec p hp
  obtain ⟨hq1, hq2, hq3⟩ := bitLen_spec q hq
  unfold ulpExp at hu ⊢
  simp only at hu ⊢
  generalize hk0 : (bitLen p : Int) - (bitLen q : Int) = k0 at hu ⊢
  by_cases hge : geTwoPow p q k0 = true
  · rw [if_pos hge] at hu ⊢
    have hk : 53 ≤ k0 := by omega
    obtain ⟨n, rfl⟩ := Int.eq_ofNat_of_zero_le (show 0 ≤ k0 by omega)
    have hle : q * 2 ^ n ≤ p := by
      have : geTwoPow p q (Int.ofNat n) = true := hge
      simpa [geTwoPow] using this
    have hmax : max (n : Int) (-1022) - 52 = ((n - 52 : Nat) : Int) := by omega
    rw [hmax]
    refine ⟨by omega, ?_⟩
    rw [Int.toNat_ofNat, Nat.mul_assoc, ← Nat.pow_add]
    have : n - 52 + 52 = n := by omega
    rw [this]
    exact hle
  · rw [if_neg hge] at hu ⊢
    have hk : 54 ≤ k0 := by omega
    obtain ⟨n, rfl⟩ := Int.eq_ofNat_of_zero_le (show 0 ≤ k0 by omega)
    have hbl : bitLen p = bitLen q + n := by omega
    have hmax : max ((n : Int) - 1) (-1022) - 52 = ((n - 53 : Nat) : Int) := by omega
    rw [hmax]
    refine ⟨by omega, ?_⟩
    rw [Int.toNat_ofNat, Nat.mul_assoc, ← Nat.pow_add]
    have h1 : n - 53 + 52 = n - 1 := by omega
    rw [h1]
    have h2 : q * 2 ^ (n - 1) ≤ 2 ^ bitLen q * 2 ^ (n - 1) :=
      Nat.mul_le_mul_right _ (Nat.le_of_lt hq2)
    have h3 : 2 ^ bitLen q * 2 ^ (n - 1) = 2 ^ (bitLen p - 1) := by
      rw [← Nat.pow_add]
      congr 1
      omega
    omega

theorem roundBinary64_close (neg : Bool) (p q : Nat) (hq : 0 < q) (s : Bool) (m' : Nat)
    (e' : Int) (h : roundBinary64 neg p q = Dbl.fin s m' e') :
    s = neg ∧ |(m' : ℚ) * (2 : ℚ) ^ e' - (p : ℚ) / q| ≤ (2 : ℚ) ^ e' / 2 ∧
      (m' = 0 → p ≠ 0 → e' ≤ 0) := by
  unfold roundBinary64 at h
  by_cases hp : p = 0
  · rw [if_pos hp] at h
    cases h
    subst hp
    simp
  · rw [if_neg hp] at h
    simp only at h
    have hppos : 0 < p := Nat.pos_of_ne_zero hp
    have hupos := ulpExp_pos_bound p q hppos hq
    generalize hu : ulpExp p q = u at h hupos
    have hden : 0 < q * 2 ^ u.toNat := Nat.mul_pos hq (by positivity)
    have hclose := roundTiesEven_close (p * 2 ^ (-u).toNat) (q * 2 ^ u.toNat) hden
    have hge := roundTiesEven_ge (p * 2 ^ (-u).toNat) (q * 2 ^ u.toNat)
    generalize hm : roundTiesEven (p * 2 ^ (-u).toNat) (q * 2 ^ u.toNat) = m at h hclose hge
    have hqq : (0 : ℚ) < q := by exact_mod_cast hq
    have htwo : (2 : ℚ) ^ u = (2 : ℚ) ^ u.toNat / (2 : ℚ) ^ (-u).toNat := by
      have : u = (u.toNat : Int) - ((-u).toNat : Int) := by omega
      conv_lhs => rw [this]
      rw [zpow_sub₀ (by norm_num), zpow_natCast, zpow_natCast]
    have hupos' : (0 : ℚ) < (2 : ℚ) ^ u := by positivity
    have hratio : ((p * 2 ^ (-u).toNat : Nat) : ℚ) / ((q * 2 ^ u.toNat : Nat) : ℚ) =
        (p : ℚ) / q / (2 : ℚ) ^ u := by
      rw [htwo]
      push_cast
      field_simp
    rw [hratio] at hclose
    have hmain : |(m : ℚ) * (2 : ℚ) ^ u - (p : ℚ) / q| ≤ (2 : ℚ) ^ u / 2 := by
      have : (m : ℚ) * (2 : ℚ) ^ u - (p : ℚ) / q =
          ((m : ℚ) - (p : ℚ) / q / (2 : ℚ) ^ u) * (2 : ℚ) ^ u := by
        field_simp
        ring
      rw [this, abs_mul, abs_of_pos hupos']
      calc |(m : ℚ) - (p : ℚ) / q / (2 : ℚ) ^ u| * (2 : ℚ) ^ u
          ≤ 1 / 2 * (2 : ℚ) ^ u := mul_le_mul_of_nonneg_right hclose (le_of_lt hupos')
        _ = (2 : ℚ) ^ u / 2 := by ring
    have hm0 : m = 0 → u ≤ 0 := by
      intro hmz
      by_contra hcon
      have hb := hupos (by omega)
      rw [hb.1, pow_zero, Nat.mul_one] at hge
      have : 2 ^ 52 ≤ p / (q * 2 ^ u.toNat) :=
        (Nat.le_div_iff_mul_le hden).mpr (by rw [Nat.mul_comm]; exact hb.2)
      have h52 : 0 < 2 ^ 52 := by positivity
      omega
    by_cases h53 : m = 2 ^ 53
    · rw [if_pos h53] at h
      simp only at h
      split at h
      · cases h
      · cases h
        refine ⟨rfl, ?_, ?_⟩
        · have hval : ((2 ^ 52 : Nat) : ℚ) * (2 : ℚ) ^ (u + 1) = (m : ℚ) * (2 : ℚ) ^ u := by
            rw [h53, zpow_add_one₀ (by norm_num)]
            push_cast
            ring
          rw [hval, zpow_add_one₀ (by norm_num)]
          linarith
        · intro hz
          exact absurd hz (by positivity)
    · rw [if_neg h53] at h
      simp only at h
      split at h
      · cases h
      · cases h
        exact ⟨rfl, hmain, fun hz _ => hm0 hz⟩

theorem roundBinary64_ne_nan (neg : Bool) (p q : Nat) : roundBinary64 neg p q ≠ Dbl.nan := by
  simp only [roundBinary64]
  split_ifs <;> simp

theorem toDbl_ne_nan (n : Numeral) : n.toDbl ≠ Dbl.nan := by
  unfold Numeral.toDbl
  simp only
  generalize hv : (if 0 ≤ n.exp then roundBinary64 n.neg (n.mant * 10 ^ n.exp.toNat) 1
      else roundBinary64 n.neg n.mant (10 ^ (-n.exp).toNat)) = v
  have hvn : v ≠ Dbl.nan := by
    rw [← hv]
    split_ifs <;> exact roundBinary64_ne_nan _ _ _
  cases v with
  | nan => exact absurd rfl hvn
  | inf s => simp
  | fin s m e =>
    cases m with
    | zero =>
      simp only
      split_ifs <;> simp [Dbl.zero]
    | succ k => simp

theorem toDbl_close (n : Numeral) (s : Bool) (m' : Nat) (e' : Int)
    (h : n.toDbl = Dbl.fin s m' e') :
    (m' ≠ 0 → s = n.neg) ∧
      |(m' : ℚ) * (2 : ℚ) ^ e' - (n.mant : ℚ) * (10 : ℚ) ^ n.exp| ≤ (2 : ℚ) ^ e' / 2 := by
  obtain ⟨p, q, hq, hpq, hp0⟩ : ∃ p q : Nat, 0 < q ∧
      (p : ℚ) / q = (n.mant : ℚ) * (10 : ℚ) ^ n.exp ∧ (n.mant ≠ 0 → p ≠ 0) ∧
      (if 0 ≤ n.exp then roundBinary64 n.neg (n.mant * 10 ^ n.exp.toNat) 1
        else roundBinary64 n.neg n.mant (10 ^ (-n.exp).toNat)) = roundBinary64 n.neg p q := by
    by_cases he : 0 ≤ n.exp
    · refine ⟨n.mant * 10 ^ n.exp.toNat, 1, Nat.one_pos, ?_, ?_, by rw [if_pos he]⟩
      · have : n.exp = (n.exp.toNat : Int) := by omega
        conv_rhs => rw [this, zpow_natCast]
        push_cast
        simp
      · intro hm
        exact Nat.mul_ne_zero hm (by positivity)
    · refine ⟨n.mant, 10 ^ (-n.exp).toNat, by positivity, ?_, fun hm => hm, by rw [if_neg he]⟩
      have : n.exp = -((-n.exp).toNat : Int) := by omega
      conv_rhs => rw [this, zpow_neg, zpow_natCast]
      push_cast
      rfl
  obtain ⟨hp0, hv⟩ := hp0
  unfold Numeral.toDbl at h
  simp only at h
  rw [hv] at h
  cases hr : roundBinary64 n.neg p q with
  | nan => exact absurd hr (roundBinary64_ne_nan _ _ _)
  | inf s1 => rw [hr] at h; cases h
  | fin s1 m1 e1 =>
    obtain ⟨hs, hb, hz⟩ := roundBinary64_close n.neg p q hq s1 m1 e1 hr
    rw [hr] at h
    rw [hpq] at hb
    cases m1 with
    | zero =>
      simp only at h
      by_cases hm : n.mant = 0
      · rw [if_pos hm] at h
        cases h
        exact ⟨fun hne => absurd rfl hne, hb⟩
      · rw [if_neg hm] at h
        cases h
        refine ⟨fun hne => absurd rfl hne, ?_⟩
        have he1 : e1 ≤ 0 := hz rfl (hp0 hm)
        have h2 : (2 : ℚ) ^ e1 ≤ 1 := zpow_le_one_of_nonpos₀ (by norm_num) he1
        simp only [zpow_zero] at hb ⊢
        have hb' := hb
        rw [Nat.cast_zero, zero_mul] at hb' ⊢
        linarith
    | succ k =>
      simp only at h
      cases h
      exact ⟨fun _ => hs, hb⟩

theorem reread_close (neg : Bool) (m : Nat) (e : Int) (d : Nat) (hd : 0 < d) (s : Bool)
    (m' : Nat) (e' : Int)
    (h : toDouble (Dbl.toFixed (Dbl.fin neg m e) d) = Dbl.fin s m' e') :
    |(Dbl.fin s m' e').toRat - (Dbl.fin neg m e).toRat| ≤
      1 / (2 * 10 ^ d) + (2 : ℚ) ^ e' / 2 := by
  rw [toDouble_toFixed neg m e d hd] at h
  obtain ⟨hs, hA⟩ := toDbl_close _ s m' e' h
  have hN := scaledRound_close m e d
  simp only at hs hA
  have ht : ((Dbl.scaledRound m e d : Nat) : ℚ) * (10 : ℚ) ^ (-(d : Int)) =
      (Dbl.scaledRound m e d : ℚ) / 10 ^ d := by
    rw [zpow_neg, zpow_natCast]
    rfl
  rw [ht] at hA
  generalize (Dbl.scaledRound m e d : ℚ) / 10 ^ d = t at hA hN
  have ha : (0 : ℚ) ≤ (m' : ℚ) * (2 : ℚ) ^ e' := by positivity
  have hb : (0 : ℚ) ≤ (m : ℚ) * (2 : ℚ) ^ e := by positivity
  obtain ⟨hA1, hA2⟩ := abs_le.mp hA
  obtain ⟨hN1, hN2⟩ := abs_le.mp hN
  have hD : (0 : ℚ) < 1 / (2 * 10 ^ d) := by positivity
  have hU : (0 : ℚ) < (2 : ℚ) ^ e' / 2 := by positivity
  by_cases hm' : m' = 0
  · subst hm'
    simp only [Dbl.toRat, Nat.cast_zero, mul_zero, zero_mul] at ha hA1 hA2 ⊢
    cases neg <;> simp only [Bool.false_eq_true, if_false, if_true] <;> rw [abs_le] <;>
      constructor <;> linarith
  · have hs' := hs hm'
    by_cases hm : m = 0
    · subst hm
      simp only [Dbl.toRat, Nat.cast_zero, mul_zero, zero_mul] at hb hN1 hN2 ⊢
      cases s <;> simp only [Bool.false_eq_true, if_false, if_true] <;> rw [abs_le] <;>
        constructor <;> linarith
    · have : s = neg := by
        rw [hs']
        simp [hm]
      subst this
      simp only [Dbl.toRat]
      cases s <;> simp only [Bool.false_eq_true, if_false, if_true] <;> rw [abs_le] <;>
        constructor <;> linarith

set_option maxRecDepth 100000 in
/-- C2 (counterexample): an ecotype row that meets every condition of the claim
and whose identifier is `*ECO1` is written as a line that begins with `*`;
parsing the written text stores that line as a header line and returns no
row. -/
theorem C2_header_mark_identifier :
    (EcoParser.parse (some (EcoParser.write sampleG true
        [{ sampleEco with ecoNum := "*ECO1".toList }] []).2)).rows = [] ∧
    (EcoParser.parse (some (EcoParser.write sampleG true
        [{ sampleEco with ecoNum := "*ECO1".toList }] []).2)).headerLines =
      [EcoParser.formatRow sampleG { sampleEco with ecoNum := "*ECO1".toList }] := by
  decide

/-- C2 (amended): for ecotype rows that are well formed (the conditions of the
claim, an identifier that does not begin with `*`, `!` or `@`, no line
terminator character in the identifier or the name, and a sentinel flag that
agrees with the identifier), parsing the text `write` produces returns the
header lines and, in order, each row with its identifier, name, codes and flag
unchanged and 16 parameters; parameter `i` is never NaN and, when finite,
differs from the original by at most half a unit of the last configured decimal
of position `i` plus half a unit in the last place of the value read. -/
theorem C2_eco_roundtrip_amended (g : Dbl → Nat → QString) (rows : List EcoRow)
    (headerLines : List QString) (h : ∀ r ∈ rows, r.WellFormed)
    (hh : ∀ l ∈ headerLines,
      (l = [] ∨ isHeaderMark (l.headD ' ') = true) ∧ '\n' ∉ l ∧ '\r' ∉ l) :
    EcoParser.parse (some (EcoParser.write g true rows headerLines).2) =
      ⟨rows.map EcoParser.reread, headerLines⟩ ∧
    ∀ r ∈ rows,
      (EcoParser.reread r).ecoNum = r.ecoNum ∧ (EcoParser.reread r).ecoName = r.ecoName ∧
      (EcoParser.reread r).mg = r.mg ∧ (EcoParser.reread r).tm = r.tm ∧
      (EcoParser.reread r).isMinMax = r.isMinMax ∧
      (EcoParser.reread r).params.length = 16 ∧
      ∀ i < 16, ∃ x, (EcoParser.reread r).params[i]? = some x ∧ x ≠ Dbl.nan ∧
        ∀ s m e, x = Dbl.fin s m e →
          |x.toRat - (r.params.getD i Dbl.zero).toRat| ≤
            1 / (2 * 10 ^ (ECO_FMTS.getD i 0)) + (2 : ℚ) ^ e / 2 := by
  refine ⟨eco_parse_write g rows headerLines h hh, ?_⟩
  intro r hr
  refine ⟨rfl, rfl, rfl, rfl, rfl, by simp [EcoParser.reread], ?_⟩
  intro i hi
  obtain ⟨neg, m, e, hv⟩ := getD_finite r.params (h r hr).params_finite i
  have hd := eco_decimals_pos i hi
  have hx : (EcoParser.reread r).params[i]? =
      some (toDouble (Dbl.toFixed (Dbl.fin neg m e) (ECO_FMTS.getD i 0))) := by
    unfold EcoParser.reread
    simp only [List.getElem?_map]
    rw [List.getElem?_range hi]
    simp only [Option.map_some', EcoParser.paramText, hv]
  refine ⟨_, hx, ?_, ?_⟩
  · rw [toDouble_toFixed neg m e _ hd]
    exact toDbl_ne_nan _
  · intro s m' e' hfin
    rw [hv, hfin]
    exact reread_close neg m e _ hd s m' e' hfin

/-- Witness of C2 (amended): the sample ecotype row after one title line. -/
theorem C2_eco_roundtrip_amended_witness :
    (∀ r ∈ [sampleEco], r.WellFormed) ∧
    EcoParser.parse (some (EcoParser.write sampleG true [sampleEco]
        ["*SOYBEAN ECOTYPE COEFFICIENTS".toList]).2) =
      ⟨[sampleEco].map EcoParser.reread, ["*SOYBEAN ECOTYPE COEFFICIENTS".toList]⟩ :=
  have hw : ∀ r ∈ [sampleEco], r.WellFormed := by
    intro r hr
    rw [List.mem_singleton.mp hr]
    exact ⟨by decide, by decide, by decide, by decide, by decide, by decide, by decide,
      by decide, by decide, by decide, by decide⟩
  ⟨hw, (C2_eco_roundtrip_amended sampleG [sampleEco]
    ["*SOYBEAN ECOTYPE COEFFICIENTS".toList] hw (by decide)).1⟩

/-! ## Sentinel protection -/

/-- In every state of the cultivar and of the ecotype model, `setData` addressed
at a row whose sentinel flag is set returns false, for every column, value and
role, and `deleteRow` addressed at it does nothing; both leave the model state,
and with it the row collection, unchanged. Where every flag agrees with its
identifier, this protects every row whose identifier is 999991 or 999992. -/
theorem flagged_rows_read_only (cm : CulTableModel) (em : EcoTableModel) (k j : Nat)
    (col role : Int) (value : QVariant) (crow : CulRow) (erow : EcoRow)
    (hc : cm.m_rows[k]? = some crow) (he : em.m_rows[j]? = some erow)
    (hcf : crow.isMinMax = true ∨
      ((∀ r ∈ cm.m_rows, r.isMinMax = (r.varNum == ID_MIN || r.varNum == ID_MAX)) ∧
        (crow.varNum = ID_MIN ∨ crow.varNum = ID_MAX)))
    (hef : erow.isMinMax = true ∨
      ((∀ r ∈ em.m_rows, r.isMinMax = (r.ecoNum == ID_MIN || r.ecoNum == ID_MAX)) ∧
        (erow.ecoNum = ID_MIN ∨ erow.ecoNum = ID_MAX))) :
    cm.setData ⟨k, col⟩ value role = (false, cm) ∧ cm.deleteRow k = cm ∧
    em.setData ⟨j, col⟩ value role = (false, em) ∧ em.deleteRow j = em := by
  have hcflag : crow.isMinMax = true := by
    rcases hcf with h | ⟨hinv, hid⟩
    · exact h
    · rw [hinv crow (List.getElem?_mem hc)]
      rcases hid with h | h <;> simp [h]
  have heflag : erow.isMinMax = true := by
    rcases hef with h | ⟨hinv, hid⟩
    · exact h
    · rw [hinv erow (List.getElem?_mem he)]
      rcases hid with h | h <;> simp [h]
  refine ⟨?_, ?_, ?_, ?_⟩
  · unfold CulTableModel.setData
    split
    · rfl
    · simp only [Int.toNat_ofNat, hc, hcflag, if_true]
  · unfold CulTableModel.deleteRow
    split
    · rfl
    · simp only [Int.toNat_ofNat, hc, hcflag, if_true]
  · unfold EcoTableModel.setData
    split
    · rfl
    · simp only [Int.toNat_ofNat, he, heflag, if_true]
  · unfold EcoTableModel.deleteRow
    split
    · rfl
    · simp only [Int.toNat_ofNat, he, heflag, if_true]

/-- The minima row of the sample model and a maxima row of an ecotype model are
read-only. -/
theorem flagged_rows_read_only_example :
    sampleModel.setData ⟨0, 4⟩ ⟨"9.5".toList, some (Dbl.fin false 19 (-1))⟩ EditRole
      = (false, sampleModel) ∧
    sampleModel.deleteRow 0 = sampleModel ∧
    ({ m_rows := [sampleEco, { sampleEco with ecoNum := ID_MAX, isMinMax := true }] } :
      EcoTableModel).setData ⟨1, 4⟩ ⟨"9.5".toList, some (Dbl.fin false 19 (-1))⟩ EditRole
      = (false, { m_rows := [sampleEco, { sampleEco with ecoNum := ID_MAX, isMinMax := true }] }) ∧
    ({ m_rows := [sampleEco, { sampleEco with ecoNum := ID_MAX, isMinMax := true }] } :
      EcoTableModel).deleteRow 1 =
      { m_rows := [sampleEco, { sampleEco with ecoNum := ID_MAX, isMinMax := true }] } :=
  flagged_rows_read_only sampleModel
    { m_rows := [sampleEco, { sampleEco with ecoNum := ID_MAX, isMinMax := true }] } 0 1 4
    EditRole ⟨"9.5".toList, some (Dbl.fin false 19 (-1))⟩ sampleMin
    { sampleEco with ecoNum := ID_MAX, isMinMax := true } rfl rfl (Or.inl rfl) (Or.inl rfl)

set_option maxRecDepth 100000 in
/-- C11 (evaluation at the failing input): in the sample model the identifier
of the third row is set to 999991 with `setData`; the row then has a reserved
identifier and a sentinel flag that is false. In that state `setData` at the
name column of the row returns true and changes the name, and `deleteRow`
removes the row. The same holds in the ecotype model for a row whose identifier
was set to 999992. -/
theorem C11_reserved_identifier_row_editable :
    ((sampleModel.setData ⟨2, CulTableModel.COL_VARNUM⟩ ⟨ID_MIN, none⟩ EditRole).2.m_rows.map
        fun r => (r.varNum, r.isMinMax)) =
      [(ID_MIN, true), (ID_MAX, true), (ID_MIN, false)] ∧
    (((sampleModel.setData ⟨2, CulTableModel.COL_VARNUM⟩ ⟨ID_MIN, none⟩ EditRole).2.setData
        ⟨2, CulTableModel.COL_VRNAME⟩ ⟨"EDITED".toList, none⟩ EditRole).1 = true) ∧
    (((sampleModel.setData ⟨2, CulTableModel.COL_VARNUM⟩ ⟨ID_MIN, none⟩ EditRole).2.setData
        ⟨2, CulTableModel.COL_VRNAME⟩ ⟨"EDITED".toList, none⟩ EditRole).2.m_rows.map
        fun r => (r.varNum, r.vrName)) =
      [(ID_MIN, "MINIMA".toList), (ID_MAX, "MAXIMA".toList), (ID_MIN, "EDITED".toList)] ∧
    (((sampleModel.setData ⟨2, CulTableModel.COL_VARNUM⟩ ⟨ID_MIN, none⟩ EditRole).2.deleteRow
        2).m_rows.map fun r => (r.varNum, r.isMinMax)) =
      [(ID_MIN, true), (ID_MAX, true)] ∧
    ((({ m_rows := [sampleEco] } : EcoTableModel).setData ⟨0, EcoTableModel.COL_ECONUM⟩
        ⟨ID_MAX, none⟩ EditRole).2.m_rows.map fun r => (r.ecoNum, r.isMinMax)) =
      [(ID_MAX, false)] ∧
    (((({ m_rows := [sampleEco] } : EcoTableModel).setData ⟨0, EcoTableModel.COL_ECONUM⟩
        ⟨ID_MAX, none⟩ EditRole).2.setData ⟨0, EcoTableModel.COL_ECONAME⟩
        ⟨"EDITED".toList, none⟩ EditRole).1 = true) ∧
    (((({ m_rows := [sampleEco] } : EcoTableModel).setData ⟨0, EcoTableModel.COL_ECONUM⟩
        ⟨ID_MAX, none⟩ EditRole).2.deleteRow 0).m_rows = []) := by
  decide

/-! ## The written text and the unreadable source -/

theorem cul_formatRows_eq (g : Dbl → Nat → QString) (rows : List CulRow) (ls : List QString)
    (h : rows.map (CulParser.formatRow g) = ls.map some) :
    CulParser.formatRows g rows = some ls := by
  induction rows generalizing ls with
  | nil =>
    cases ls with
    | nil => rfl
    | cons l ls => simp at h
  | cons r rs ih =>
    cases ls with
    | nil => simp at h
    | cons l ls =>
      simp only [List.map_cons, List.cons.injEq] at h
      simp only [CulParser.formatRows, h.1, ih ls h.2]

/-- C13: when the destination can be opened, `write` returns true and the text
it sends to the stream is each header line, in order, followed by CR LF, then
the text of `formatRow` for each row, in order, followed by CR LF, and nothing
else; when the destination cannot be opened it returns false and writes
nothing. For the cultivar codec the rows are those for which `formatRow` is
defined. -/
theorem C13_write_output (g : Dbl → Nat → QString) (headerLines : List QString)
    (culRows : List CulRow) (culLines : List QString) (ecoRows : List EcoRow)
    (h : culRows.map (CulParser.formatRow g) = culLines.map some) :
    CulParser.write g true culRows headerLines =
      some (true, (headerLines.flatMap fun l => l ++ ['\r', '\n']) ++
        (culLines.flatMap fun l => l ++ ['\r', '\n'])) ∧
    CulParser.write g false culRows headerLines = some (false, []) ∧
    EcoParser.write g true ecoRows headerLines =
      (true, (headerLines.flatMap fun l => l ++ ['\r', '\n']) ++
        (ecoRows.flatMap fun r => EcoParser.formatRow g r ++ ['\r', '\n'])) ∧
    EcoParser.write g false ecoRows headerLines = (false, []) := by
  refine ⟨?_, rfl, ?_, rfl⟩
  · simp only [CulParser.write, Bool.not_true, Bool.false_eq_true, if_false,
      cul_formatRows_eq g culRows culLines h, Option.map_some', emitLines, List.flatMap]
  · simp only [EcoParser.write, Bool.not_true, Bool.false_eq_true, if_false, emitLines,
      List.flatMap, List.map_map]
    rfl

set_option maxRecDepth 100000 in
/-- Witness of C13: one title line and the sample cultivar row. -/
theorem C13_write_output_witness :
    CulParser.write sampleG true [sampleRow] ["*SOYBEAN".toList] =
      some (true, "*SOYBEAN\r\n".toList ++
        ("IB0001 SOME CULTIVAR.       . IB0001 15.00 0.000   0.0   0.0   0.0   0.0   0.0 0.000" ++
         "    0.   0.0 0.000 0.000   0.0  0.00   0.0   0.0 0.000 0.000\r\n").toList) :=
  (C13_write_output sampleG ["*SOYBEAN".toList] [sampleRow]
    [("IB0001 SOME CULTIVAR.       . IB0001 15.00 0.000   0.0   0.0   0.0   0.0   0.0 0.000" ++
      "    0.   0.0 0.000 0.000   0.0  0.00   0.0   0.0 0.000 0.000").toList] []
    (by decide)).1

/-- C14 (counterexample): the result of `parse` for a source that cannot be
read is the result for a source that is read and holds no line, for both
codecs: the caller cannot tell the two apart. -/
theorem C14_unreadable_equals_empty :
    CulParser.parse none = CulParser.parse (some []) ∧
    EcoParser.parse none = EcoParser.parse (some []) := by
  decide

/-- C14 (amended): when the source cannot be read, `parse` returns no row and
no header line, for both codecs; no failure value is part of its result. -/
theorem C14_unreadable_gives_empty :
    CulParser.parse none = ⟨[], []⟩ ∧ EcoParser.parse none = ⟨[], []⟩ :=
  ⟨rfl, rfl⟩

/-! ## The failure signal of parseLine and the sentinel flag -/

theorem trimmed_eq_rdropWhile (s : QString) :
    trimmed s = (s.dropWhile isSpace).rdropWhile isSpace := rfl

theorem trimmed_head_not_space (s : QString) (c : Char) (rest : List Char)
    (h : trimmed s = c :: rest) : isSpace c = false ∧ ∃ t, s.dropWhile isSpace = c :: t := by
  have hp : trimmed s <+: s.dropWhile isSpace := by
    rw [trimmed_eq_rdropWhile]
    exact List.rdropWhile_prefix _ _
  rw [h] at hp
  obtain ⟨t, ht⟩ := hp
  have hnot := List.head?_dropWhile_not isSpace s
  rw [← ht] at hnot
  simp only [List.cons_append, List.head?_cons] at hnot
  exact ⟨hnot, rest ++ t, by rw [← ht]; rfl⟩

theorem trimmed_ne_nil_of_head (c : Char) (rest : List Char) (hc : isSpace c = false) :
    trimmed (c :: rest) ≠ [] := by
  rw [trimmed_eq_rdropWhile, List.dropWhile_cons, hc]
  simp only [Bool.false_eq_true, if_false]
  intro h
  rw [List.rdropWhile_eq_nil_iff] at h
  have := h c (List.mem_cons_self _ _)
  rw [hc] at this
  cases this

/-- C18: the row `CulParser::parseLine` returns has an empty identifier if and
only if the trimmed line is empty, or begins with `*`, `!` or `@`, or has fewer
than 36 characters, or has fewer than 2 tokens from column 20 on. -/
theorem C18_parseLine_failure_signal (rawLine : QString) :
    (CulParser.parseLine rawLine).varNum = [] ↔
      (trimmed rawLine = [] ∨ isHeaderMark ((trimmed rawLine).headD ' ') = true ∨
        (trimmed rawLine).length < 36 ∨
        (splitWs ((trimmed rawLine).drop 20)).length < 2) := by
  unfold CulParser.parseLine
  simp only [midFrom]
  by_cases h1 : (trimmed rawLine).isEmpty || isHeaderMark ((trimmed rawLine).headD ' ')
  · rw [if_pos h1]
    simp only [true_iff]
    simp only [Bool.or_eq_true, List.isEmpty_iff] at h1
    rcases h1 with h | h
    · exact Or.inl h
    · exact Or.inr (Or.inl h)
  · rw [if_neg h1]
    simp only [Bool.or_eq_true, List.isEmpty_iff, not_or] at h1
    by_cases h2 : (trimmed rawLine).length < 36
    · rw [if_pos h2]
      simp only [true_iff]
      exact Or.inr (Or.inr (Or.inl h2))
    · rw [if_neg h2]
      by_cases h3 : (splitWs ((trimmed rawLine).drop 20)).isEmpty = true
      · rw [if_pos h3]
        simp only [true_iff]
        refine Or.inr (Or.inr (Or.inr ?_))
        rw [List.isEmpty_iff] at h3
        rw [h3]
        decide
      · rw [if_neg h3]
        by_cases h4 : (splitWs ((trimmed rawLine).drop 20)).length < 2
        · rw [if_pos h4]
          simp only [true_iff]
          exact Or.inr (Or.inr (Or.inr h4))
        · rw [if_neg h4]
          have hne : trimmed (left (trimmed rawLine) 6) ≠ [] := by
            cases ht : trimmed rawLine with
            | nil => exact absurd ht h1.1
            | cons c rest =>
              have hc := (trimmed_head_not_space rawLine c rest ht).1
              have hlen : 36 ≤ (c :: rest).length := by
                rw [← ht]
                omega
              have hleft : left (c :: rest) 6 = c :: rest.take 5 := by
                unfold left
                rw [if_neg (by
                  simp only [List.length_cons] at hlen ⊢
                  omega)]
                rfl
              rw [hleft]
              exact trimmed_ne_nil_of_head c _ hc
          constructor
          · intro h
            exact absurd h hne
          · intro h
            rcases h with h | h | h | h
            · exact absurd h h1.1
            · exact absurd h h1.2
            · exact absurd h h2
            · exact absurd h h4

set_option maxRecDepth 100000 in
/-- C19 (evaluation at the failing input): a file with a minima line, a maxima
line and the line of cultivar IB0001 is parsed (the three flags are true, true,
false, as the identifiers give them) and loaded with `setRows`; after
`setData` has set the identifier of the third row to 999991, that row has the
reserved identifier and its sentinel flag is still false. -/
theorem C19_flag_after_identifier_edit :
    (CulParser.parse (some
        ("999991 MINIMA               . 999991  8.00 0.100\r\n" ++
         "999992 MAXIMA               . 999992 12.00 0.900\r\n" ++
         "IB0001 SOME CULTIVAR        . IB0001 15.00 0.500\r\n").toList)).rows.map
        (fun r => (r.varNum, r.isMinMax)) =
      [(ID_MIN, true), (ID_MAX, true), ("IB0001".toList, false)] ∧
    ((CulTableModel.setRows {} (CulParser.parse (some
        ("999991 MINIMA               . 999991  8.00 0.100\r\n" ++
         "999992 MAXIMA               . 999992 12.00 0.900\r\n" ++
         "IB0001 SOME CULTIVAR        . IB0001 15.00 0.500\r\n").toList)).rows).setData
        ⟨2, CulTableModel.COL_VARNUM⟩ ⟨ID_MIN, none⟩ EditRole).2.m_rows.map
        (fun r => (r.varNum, r.isMinMax)) =
      [(ID_MIN, true), (ID_MAX, true), (ID_MIN, false)] := by
  decide

/-! ## The out-of-range test -/

namespace Dbl

theorem scaledInt_cast (neg : Bool) (m : Nat) (e e0 : Int) (h : e0 ≤ e) :
    ((scaledInt neg m e e0 : Int) : ℚ) * (2 : ℚ) ^ e0 = (fin neg m e).toRat := by
  have he : e = ((e - e0).toNat : Int) + e0 := by omega
  have h2 : (2 : ℚ) ^ e = (2 : ℚ) ^ (e - e0).toNat * (2 : ℚ) ^ e0 := by
    conv_lhs => rw [he]
    rw [zpow_add₀ (by norm_num), zpow_natCast]
  simp only [scaledInt, toRat]
  rw [h2]
  cases neg <;> simp <;> ring

theorem lt_fin_iff (na : Bool) (ma : Nat) (ea : Int) (nb : Bool) (mb : Nat) (eb : Int) :
    lt (fin na ma ea) (fin nb mb eb) = true ↔
      (fin na ma ea).toRat < (fin nb mb eb).toRat := by
  have hpos : (0 : ℚ) < (2 : ℚ) ^ (min ea eb) := by positivity
  rw [← scaledInt_cast na ma ea (min ea eb) (min_le_left _ _),
    ← scaledInt_cast nb mb eb (min ea eb) (min_le_right _ _)]
  simp only [lt, decide_eq_true_eq]
  rw [mul_lt_mul_right hpos, Int.cast_lt]

theorem lt_asymm {a b : Dbl} (h : lt a b = true) : lt b a = false := by
  cases a with
  | nan => simp [lt] at h
  | inf na =>
    cases b with
    | nan => simp [lt] at h
    | inf nb => cases na <;> cases nb <;> simp_all [lt]
    | fin nb mb eb => simp_all [lt]
  | fin na ma ea =>
    cases b with
    | nan => simp [lt] at h
    | inf nb => simp_all [lt]
    | fin nb mb eb =>
      have h1 := (lt_fin_iff na ma ea nb mb eb).mp h
      cases h2 : lt (fin nb mb eb) (fin na ma ea) with
      | false => rfl
      | true =>
        have := (lt_fin_iff nb mb eb na ma ea).mp h2
        linarith

end Dbl

/-- C20: `isOutOfRange(i, v)` is true if and only if both bound vectors have
an entry at position `i`, the maximum bound is strictly greater than the
minimum bound, and `v` is strictly less than the minimum or strictly greater
than the maximum; a value that is one of the two bounds, or a finite value
that denotes the same number as a finite bound, is in range. The comparison of
two finite doubles is the comparison of the numbers they denote. -/
theorem C20_out_of_range_test (self : CulTableModel) (i : Nat) (v : Dbl) :
    (self.isOutOfRange i v = true ↔
      ∃ lo hi, self.m_minParams[i]? = some lo ∧ self.m_maxParams[i]? = some hi ∧
        Dbl.gt hi lo = true ∧ (Dbl.lt v lo = true ∨ Dbl.gt v hi = true)) ∧
    (∀ lo hi, self.m_minParams[i]? = some lo → self.m_maxParams[i]? = some hi →
      (v = lo ∨ v = hi) → self.isOutOfRange i v = false) ∧
    (∀ lo hi, self.m_minParams[i]? = some lo → self.m_maxParams[i]? = some hi →
      v.isFinite = true → lo.isFinite = true → hi.isFinite = true →
      (v.toRat = lo.toRat ∨ v.toRat = hi.toRat) → self.isOutOfRange i v = false) ∧
    (∀ na ma ea nb mb eb, Dbl.lt (Dbl.fin na ma ea) (Dbl.fin nb mb eb) = true ↔
      (Dbl.fin na ma ea).toRat < (Dbl.fin nb mb eb).toRat) := by
  have hiff : self.isOutOfRange i v = true ↔
      ∃ lo hi, self.m_minParams[i]? = some lo ∧ self.m_maxParams[i]? = some hi ∧
        Dbl.gt hi lo = true ∧ (Dbl.lt v lo = true ∨ Dbl.gt v hi = true) := by
    unfold CulTableModel.isOutOfRange
    cases hlo : self.m_minParams[i]? with
    | none => simp
    | some lo =>
      cases hhi : self.m_maxParams[i]? with
      | none => simp
      | some hi =>
        by_cases hgt : Dbl.gt hi lo = true
        · simp [hgt]
        · simp [hgt]
  have hfalse : ∀ lo hi, self.m_minParams[i]? = some lo → self.m_maxParams[i]? = some hi →
      (Dbl.gt hi lo = true → Dbl.lt v lo = false ∧ Dbl.gt v hi = false) →
      self.isOutOfRange i v = false := by
    intro lo hi hlo hhi h
    cases hr : self.isOutOfRange i v with
    | false => rfl
    | true =>
      obtain ⟨lo', hi', h1, h2, hgt, hor⟩ := hiff.mp hr
      rw [hlo] at h1
      rw [hhi] at h2
      cases h1
      cases h2
      obtain ⟨ha, hb⟩ := h hgt
      rcases hor with hor | hor
      · rw [ha] at hor; cases hor
      · rw [hb] at hor; cases hor
  refine ⟨hiff, ?_, ?_, Dbl.lt_fin_iff⟩
  · intro lo hi hlo hhi hv
    apply hfalse lo hi hlo hhi
    intro hgt
    rcases hv with rfl | rfl
    · exact ⟨Dbl.lt_irrefl _, Dbl.lt_asymm hgt⟩
    · exact ⟨Dbl.lt_asymm hgt, Dbl.lt_irrefl _⟩
  · intro lo hi hlo hhi hvf hlof hhif hv
    apply hfalse lo hi hlo hhi
    intro hgt
    cases v with
    | nan => cases hvf
    | inf n => cases hvf
    | fin nv mv ev =>
      cases lo with
      | nan => cases hlof
      | inf n => cases hlof
      | fin nl ml el =>
        cases hi with
        | nan => cases hhif
        | inf n => cases hhif
        | fin nh mh eh =>
          have hg := (Dbl.lt_fin_iff nl ml el nh mh eh).mp hgt
          constructor
          · cases h : Dbl.lt (Dbl.fin nv mv ev) (Dbl.fin nl ml el) with
            | false => rfl
            | true =>
              have := (Dbl.lt_fin_iff _ _ _ _ _ _).mp h
              rcases hv with hv | hv <;> linarith
          · cases h : Dbl.gt (Dbl.fin nv mv ev) (Dbl.fin nh mh eh) with
            | false => rfl
            | true =>
              have := (Dbl.lt_fin_iff _ _ _ _ _ _).mp h
              rcases hv with hv | hv <;> linarith

/-! ## Lemmas on header metadata -/

theorem mapValue_insert_self (m : QMap) (k v : QString) :
    mapValue (mapInsert m k v) k = some v := by
  induction m with
  | nil => simp [mapInsert, mapValue]
  | cons p rest ih =>
    obtain ⟨k', v'⟩ := p
    unfold mapInsert
    by_cases h : k' = k
    · simp [h, mapValue]
    · simp [h, mapValue, ih]

theorem mapValue_insert_ne (m : QMap) (k k' v : QString) (h : k ≠ k') :
    mapValue (mapInsert m k v) k' = mapValue m k' := by
  induction m with
  | nil => simp [mapInsert, mapValue, h]
  | cons p rest ih =>
    obtain ⟨k0, v0⟩ := p
    unfold mapInsert
    by_cases h0 : k0 = k
    · subst h0
      simp [mapValue, h]
    · simp only [h0, if_false, mapValue, ih]

theorem takeWhile_append_of_all {α : Type} (p : α → Bool) (a b : List α)
    (h : ∀ x ∈ a, p x = true) : (a ++ b).takeWhile p = a ++ b.takeWhile p := by
  induction a with
  | nil => rfl
  | cons x xs ih =>
    simp only [List.cons_append, List.takeWhile_cons, h x (List.mem_cons_self _ _), if_true]
    rw [ih (fun y hy => h y (List.mem_cons_of_mem _ hy))]

theorem span_replicate (p : Char → Bool) (c : Char) (n : Nat) (rest : List Char)
    (hc : p c = true) (hr : rest.head?.map p ≠ some true) :
    (List.replicate n c ++ rest).takeWhile p = List.replicate n c ∧
    (List.replicate n c ++ rest).dropWhile p = rest := by
  have hrest : rest.takeWhile p = [] ∧ rest.dropWhile p = rest := by
    cases rest with
    | nil => exact ⟨rfl, rfl⟩
    | cons x xs =>
      have hx : p x = false := by
        cases hpx : p x with
        | false => rfl
        | true => simp [hpx] at hr
      simp [List.takeWhile_cons, List.dropWhile_cons, hx]
  induction n with
  | zero => simpa using hrest
  | succ n ih =>
    simp only [List.replicate_succ, List.cons_append, List.takeWhile_cons,
      List.dropWhile_cons, hc, if_true, ih.1, ih.2, and_self]

theorem span_all (p : Char → Bool) (a rest : List Char) (ha : ∀ x ∈ a, p x = true)
    (hr : rest.head?.map p ≠ some true) :
    (a ++ rest).takeWhile p = a ∧ (a ++ rest).dropWhile p = rest := by
  have hrest : rest.takeWhile p = [] ∧ rest.dropWhile p = rest := by
    cases rest with
    | nil => exact ⟨rfl, rfl⟩
    | cons x xs =>
      have hx : p x = false := by
        cases hpx : p x with
        | false => rfl
        | true => simp [hpx] at hr
      simp [List.takeWhile_cons, List.dropWhile_cons, hx]
  induction a with
  | nil => simpa using hrest
  | cons x xs ih =>
    have := ih (fun y hy => ha y (List.mem_cons_of_mem _ hy))
    simp only [List.cons_append, List.takeWhile_cons, List.dropWhile_cons,
      ha x (List.mem_cons_self _ _), if_true, this.1, this.2, and_self]

theorem matchTail_of_text (t : QString) (h : IsText t) : matchTail t = some t := by
  obtain ⟨c, rest, rfl, hc, hne, hnl⟩ := h
  have hlast : (c :: rest).getLast? ≠ some '\n' := by
    intro hl
    cases rest with
    | nil => exact hne rfl
    | cons x xs =>
      rw [List.getLast?_cons_cons] at hl
      exact hnl (List.mem_of_getLast?_eq_some hl)
  unfold matchTail
  simp only [hlast, if_false]
  have hall : rest.all (fun x => x != '\n') = true := by
    rw [List.all_eq_true]
    intro x hx
    simp only [bne_iff_ne, ne_eq]
    intro hxe
    exact hnl (hxe ▸ hx)
  have hemp : rest.isEmpty = false := by
    cases rest with
    | nil => exact absurd rfl hne
    | cons x xs => rfl
  simp [hc, hall, hemp]

theorem isText_head (t : QString) (h : IsText t) :
    t.head?.map isBlank ≠ some true ∧ t.head?.map isKeyChar = t.head?.map isKeyChar ∧
      t ≠ [] := by
  obtain ⟨c, rest, rfl, hc, _, _⟩ := h
  refine ⟨?_, rfl, by simp⟩
  simp only [List.head?_cons, Option.map_some', ne_eq, Option.some.injEq]
  intro hb
  have : isReSpace c = true := by
    simp only [isBlank, Bool.or_eq_true, beq_iff_eq] at hb
    rcases hb with rfl | rfl <;> decide
  rw [hc] at this
  cases this

theorem isKeyChar_of_upper (c : Char) (h : isUpperAZ c = true) : isKeyChar c = true := by
  simp [isKeyChar, h]

theorem isBlank_not_keyChar : isKeyChar ' ' = false ∧ isUpperAZ ' ' = false ∧
    isBlank ' ' = true := by
  decide

theorem matchEntry_entryLine (n : Nat) (key : QString) (m : Nat) (text : QString)
    (hn : 1 ≤ n ∧ n ≤ 5) (hm : 1 ≤ m) (hk : IsKeyword key) (ht : IsText text) :
    matchEntry (entryLine n key m text) = some (key, text) := by
  obtain ⟨k0, ks, rfl, hk0, hks⟩ := hk
  have hkey : ∀ x ∈ k0 :: ks, isKeyChar x = true := by
    intro x hx
    rcases List.mem_cons.mp hx with rfl | hx
    · exact isKeyChar_of_upper _ hk0
    · exact hks x hx
  obtain ⟨m', rfl⟩ : ∃ m', m = m' + 1 := ⟨m - 1, by omega⟩
  have hth := (isText_head text ht).1
  -- the blanks after `!`
  have h1 := span_replicate isBlank ' ' n ((k0 :: ks) ++ (List.replicate (m' + 1) ' ' ++ text))
    (by decide) (by
      simp only [List.cons_append, List.head?_cons, Option.map_some', ne_eq,
        Option.some.injEq]
      intro hb
      have : isUpperAZ k0 = false := by
        simp only [isBlank, Bool.or_eq_true, beq_iff_eq] at hb
        rcases hb with rfl | rfl <;> decide
      rw [hk0] at this
      cases this)
  -- the keyword
  have h2 := span_all isKeyChar (k0 :: ks) (List.replicate (m' + 1) ' ' ++ text) hkey
    (by simp [List.replicate_succ]; decide)
  -- the blanks after the keyword
  have h3 := span_replicate isBlank ' ' (m' + 1) text (by decide) hth
  unfold matchEntry entryLine
  simp only [h1.1, h1.2, h2.1, h2.2, h3.2, List.length_replicate]
  rw [if_pos ⟨hn.1, hn.2, by simp [hk0], by simp [List.replicate_succ]; decide⟩,
    matchTail_of_text text ht]
  rfl

theorem matchCont_contLine (n : Nat) (text : QString) (hn : 6 ≤ n) (ht : IsText text) :
    matchCont (contLine n text) = some text ∧ matchEntry (contLine n text) = none := by
  have h1 := span_replicate isBlank ' ' n text (by decide) (isText_head text ht).1
  constructor
  · unfold matchCont contLine
    simp only [h1.1, h1.2, List.length_replicate]
    rw [if_pos hn, matchTail_of_text text ht]
  · unfold matchEntry contLine
    simp only [h1.1, h1.2, List.length_replicate]
    rw [if_neg (by omega)]

theorem isKeyword_ne_nil (k : QString) (h : IsKeyword k) : k ≠ [] := by
  obtain ⟨c, rest, rfl, _, _⟩ := h
  simp

theorem tipStep_entry (fold : Char → Char) (st : TipState) (line key text : QString)
    (hin : st.inDefs = true) (h : matchEntry line = some (key, text)) :
    CulParser.tipStep fold st line =
      { st with curKey := key, tips := mapInsert st.tips key (trimmed text) } := by
  unfold CulParser.tipStep
  simp only [hin, Bool.not_true, Bool.false_eq_true, if_false, h]

theorem tipStep_cont (fold : Char → Char) (st : TipState) (line text : QString)
    (hin : st.inDefs = true) (hkey : st.curKey ≠ []) (he : matchEntry line = none)
    (h : matchCont line = some text) :
    CulParser.tipStep fold st line =
      { st with tips := (mapInsert st.tips st.curKey
          ((mapValue st.tips st.curKey).getD [] ++ ' ' :: trimmed text)) } := by
  unfold CulParser.tipStep
  have : st.curKey.isEmpty = false := by
    cases hk : st.curKey with
    | nil => exact absurd hk hkey
    | cons c cs => rfl
  simp only [hin, Bool.not_true, Bool.false_eq_true, if_false, he, this, Bool.not_false,
    if_true, h]

theorem foldl_tipStep_conts (fold : Char → Char) (key : QString) (hk : key ≠ [])
    (ts : List (Nat × QString)) (hts : ∀ p ∈ ts, 6 ≤ p.1 ∧ IsText p.2) :
    ∀ (st : TipState) (acc : QString), st.inDefs = true → st.curKey = key →
      mapValue st.tips key = some acc →
      ((ts.map fun p => contLine p.1 p.2).foldl (CulParser.tipStep fold) st).inDefs = true ∧
      ((ts.map fun p => contLine p.1 p.2).foldl (CulParser.tipStep fold) st).curKey = key ∧
      mapValue ((ts.map fun p => contLine p.1 p.2).foldl (CulParser.tipStep fold) st).tips key
        = some ((ts.map (·.2)).foldl (fun a t => a ++ ' ' :: trimmed t) acc) := by
  induction ts with
  | nil => intro st acc h1 h2 h3; exact ⟨h1, h2, h3⟩
  | cons p ps ih =>
    intro st acc h1 h2 h3
    obtain ⟨hp6, hpt⟩ := hts p (List.mem_cons_self _ _)
    obtain ⟨hc, he⟩ := matchCont_contLine p.1 p.2 hp6 hpt
    simp only [List.map_cons, List.foldl_cons]
    rw [tipStep_cont fold st _ p.2 h1 (by rw [h2]; exact hk) he hc]
    apply ih (fun q hq => hts q (List.mem_cons_of_mem _ hq))
    · exact h1
    · exact h2
    · simp only [h2, h3, Option.getD_some, mapValue_insert_self]

theorem tipStep_clear (fold : Char → Char) (st : TipState) (line : QString)
    (hin : st.inDefs = true) (hkey : st.curKey ≠ []) (he : matchEntry line = none)
    (h : matchCont line = none) :
    CulParser.tipStep fold st line = { st with curKey := [] } := by
  unfold CulParser.tipStep
  have : st.curKey.isEmpty = false := by
    cases hk : st.curKey with
    | nil => exact absurd hk hkey
    | cons c cs => rfl
  simp only [hin, Bool.not_true, Bool.false_eq_true, if_false, he, this, Bool.not_false,
    if_true, h]

theorem tipStep_idle (fold : Char → Char) (st : TipState) (line : QString)
    (hin : st.inDefs = true) (hkey : st.curKey = []) (he : matchEntry line = none) :
    CulParser.tipStep fold st line = st := by
  unfold CulParser.tipStep
  simp only [hin, Bool.not_true, Bool.false_eq_true, if_false, he, hkey, List.isEmpty_nil]

theorem tipStep_keeps (fold : Char → Char) (key : QString) (hk : key ≠ []) (st : TipState)
    (line : QString) (hin : st.inDefs = true) (hcur : st.curKey ≠ key)
    (hl : ∀ t, matchEntry line ≠ some (key, t)) :
    (CulParser.tipStep fold st line).inDefs = true ∧
    (CulParser.tipStep fold st line).curKey ≠ key ∧
    mapValue (CulParser.tipStep fold st line).tips key = mapValue st.tips key := by
  cases he : matchEntry line with
  | some kt =>
    obtain ⟨k', t'⟩ := kt
    have hne : k' ≠ key := by
      intro hkk
      subst hkk
      exact hl t' he
    rw [tipStep_entry fold st line k' t' hin he]
    exact ⟨hin, hne, mapValue_insert_ne _ _ _ _ hne⟩
  | none =>
    by_cases hemp : st.curKey = []
    · rw [tipStep_idle fold st line hin hemp he]
      exact ⟨hin, hcur, rfl⟩
    · cases hc : matchCont line with
      | some t =>
        rw [tipStep_cont fold st line t hin hemp he hc]
        exact ⟨hin, hcur, mapValue_insert_ne _ _ _ _ hcur⟩
      | none =>
        rw [tipStep_clear fold st line hin hemp he hc]
        exact ⟨hin, fun h => hk h.symm, rfl⟩

theorem foldl_tipStep_keeps (fold : Char → Char) (key : QString) (hk : key ≠ [])
    (ls : List QString) (hls : ∀ l ∈ ls, ∀ t, matchEntry l ≠ some (key, t)) :
    ∀ st : TipState, st.inDefs = true → st.curKey ≠ key →
      mapValue (ls.foldl (CulParser.tipStep fold) st).tips key = mapValue st.tips key := by
  induction ls with
  | nil => intro st _ _; rfl
  | cons l ls ih =>
    intro st h1 h2
    obtain ⟨a, b, c⟩ := tipStep_keeps fold key hk st l h1 h2 (hls l (List.mem_cons_self _ _))
    rw [List.foldl_cons, ih (fun x hx => hls x (List.mem_cons_of_mem _ hx)) _ a b, c]

theorem tipStep_after_conts (fold : Char → Char) (key : QString) (hk : key ≠ [])
    (st : TipState) (line : QString) (hin : st.inDefs = true)
    (hl : ∀ t, matchEntry line ≠ some (key, t)) (hc : matchCont line = none) :
    (CulParser.tipStep fold st line).inDefs = true ∧
    (CulParser.tipStep fold st line).curKey ≠ key ∧
    mapValue (CulParser.tipStep fold st line).tips key = mapValue st.tips key := by
  cases he : matchEntry line with
  | some kt =>
    obtain ⟨k', t'⟩ := kt
    have hne : k' ≠ key := by
      intro hkk
      subst hkk
      exact hl t' he
    rw [tipStep_entry fold st line k' t' hin he]
    exact ⟨hin, hne, mapValue_insert_ne _ _ _ _ hne⟩
  | none =>
    by_cases hemp : st.curKey = []
    · rw [tipStep_idle fold st line hin hemp he]
      exact ⟨hin, fun h => hk (h ▸ hemp), rfl⟩
    · rw [tipStep_clear fold st line hin hemp he hc]
      exact ⟨hin, fun h => hk h.symm, rfl⟩

set_option maxRecDepth 100000 in
/-- C15 (counterexample): inside the definitions block, the entry line
`! CSDL  h`, whose text is the single character `h`, gives no entry: the map is
empty. -/
theorem C15_single_character_text :
    CulParser.tooltipsFromHeader Char.toLower
      ["! COEFF       DEFINITIONS".toList, "! CSDL  h".toList] = [] := by
  decide

/-- C15 (amended): inside the definitions block (the lines `pre` before the
entry hold no line starting with `@` and leave the scan inside the block), an
entry line (`!`, 1 to 5 spaces, a keyword `K`, spaces, a text `T0` of at least
two characters) followed by `k ≥ 0` continuation lines (`!`, 6 or more spaces,
a text `Ti` of at least two characters), by a line that is no continuation line
(or by nothing) and by no later entry line for `K` before the first `@` line,
makes `tooltipsFromHeader` map `K` to the trimmed texts joined by single
spaces. -/
theorem C15_entry_with_continuations (fold : Char → Char) (pre post : List QString)
    (n m : Nat) (key t0 : QString) (ts : List (Nat × QString))
    (hpre : ∀ l ∈ pre, l.head? ≠ some '@')
    (hin : (pre.foldl (CulParser.tipStep fold) {}).inDefs = true)
    (hn : 1 ≤ n ∧ n ≤ 5) (hm : 1 ≤ m) (hk : IsKeyword key) (ht0 : IsText t0)
    (hts : ∀ p ∈ ts, 6 ≤ p.1 ∧ IsText p.2)
    (hpost : ∀ l, post.head? = some l → matchCont l = none)
    (hlater : ∀ l ∈ post.takeWhile (fun l => l.head? != some '@'),
      ∀ t, matchEntry l ≠ some (key, t)) :
    mapValue (CulParser.tooltipsFromHeader fold
        (pre ++ entryLine n key m t0 :: ((ts.map fun p => contLine p.1 p.2) ++ post))) key
      = some (joinTexts t0 (ts.map (·.2))) := by
  have hkne := isKeyword_ne_nil key hk
  have hE := matchEntry_entryLine n key m t0 hn hm hk ht0
  unfold CulParser.tooltipsFromHeader
  have hpre' : ∀ l ∈ pre, (l.head? != some '@') = true := by
    intro l hl
    simp only [bne_iff_ne, ne_eq]
    exact hpre l hl
  have hconts : ∀ l ∈ (ts.map fun p => contLine p.1 p.2), (l.head? != some '@') = true := by
    intro l hl
    obtain ⟨p, _, rfl⟩ := List.mem_map.mp hl
    simp [contLine]
  rw [takeWhile_append_of_all _ _ _ hpre']
  have hentry : ((entryLine n key m t0).head? != some '@') = true := by simp [entryLine]
  rw [List.takeWhile_cons, if_pos hentry, takeWhile_append_of_all _ _ _ hconts,
    List.foldl_append, List.foldl_cons, List.foldl_append]
  generalize pre.foldl (CulParser.tipStep fold) {} = s0 at hin
  rw [tipStep_entry fold s0 _ key t0 hin hE]
  obtain ⟨c1, c2, c3⟩ := foldl_tipStep_conts fold key hkne ts hts
    { s0 with curKey := key, tips := mapInsert s0.tips key (trimmed t0) } (trimmed t0)
    hin rfl (mapValue_insert_self _ _ _)
  generalize (ts.map fun p => contLine p.1 p.2).foldl (CulParser.tipStep fold)
    { s0 with curKey := key, tips := mapInsert s0.tips key (trimmed t0) } = s1 at c1 c2 c3
  cases hp : post with
  | nil =>
    simp only [List.takeWhile_nil, List.foldl_nil]
    exact c3
  | cons l ls =>
    rw [hp] at hpost hlater
    rw [List.takeWhile_cons] at hlater ⊢
    by_cases hat : (l.head? != some '@') = true
    · rw [if_pos hat] at hlater ⊢
      rw [List.foldl_cons]
      obtain ⟨d1, d2, d3⟩ := tipStep_after_conts fold key hkne s1 l c1
        (hlater l (List.mem_cons_self _ _)) (hpost l rfl)
      rw [foldl_tipStep_keeps fold key hkne _
        (fun x hx => hlater x (List.mem_cons_of_mem _ hx)) _ d1 d2, d3]
      exact c3
    · rw [if_neg hat]
      simp only [List.foldl_nil]
      exact c3

set_option maxRecDepth 100000 in
/-- Witness of C15 (amended): the entry `! CSDL  Critical short day length`
followed by the continuation `!        (hours)`, after a line that opens the
definitions block, yields CSDL -> `Critical short day length (hours)`. -/
theorem C15_entry_with_continuations_witness :
    mapValue (CulParser.tooltipsFromHeader Char.toLower
        ["! COEFF       DEFINITIONS".toList, "! CSDL  Critical short day length".toList,
          "!        (hours)".toList]) "CSDL".toList =
      some "Critical short day length (hours)".toList :=
  C15_entry_with_continuations Char.toLower ["! COEFF       DEFINITIONS".toList] [] 1 2
    "CSDL".toList "Critical short day length".toList [(8, "(hours)".toList)]
    (by decide) (by decide) (by decide) (by decide)
    ⟨'C', "SDL".toList, rfl, by decide, by decide⟩
    ⟨'C', "ritical short day length".toList, rfl, by decide, by decide, by decide⟩
    (by
      intro p hp
      rw [List.mem_singleton.mp hp]
      exact ⟨by decide, '(', "hours)".toList, rfl, by decide, by decide, by decide⟩)
    (by intro l h; cases h)
    (by intro l h; cases h)

set_option maxRecDepth 100000 in
/-- C16 (evaluation at the failing input): for the header line
`! Calibration P G N`, which the calibration pattern matches, the map binds the
first parameter name CSDL to the marker word itself, CALIBRATION, and moves the
tags P, G, N to the second, third and fourth name. -/
theorem C16_marker_after_blank :
    matchCal "! Calibration P G N".toList = true ∧
    CulParser.calibrationTypes sampleUpper ["! Calibration P G N".toList] =
      [("CSDL".toList, "CALIBRATION".toList), ("PPSEN".toList, "P".toList),
       ("EM-FL".toList, "G".toList), ("FL-SH".toList, "N".toList)] := by
  decide

set_option maxRecDepth 100000 in
/-- C17 (evaluation at the failing input): for the header line
`!Calibration  X  q` the map holds the values X and Q, which are none of the
tags P, G, N. -/
theorem C17_other_tag_values :
    CulParser.calibrationTypes sampleUpper ["!Calibration  X  q".toList] =
      [("CSDL".toList, "X".toList), ("PPSEN".toList, "Q".toList)] := by
  decide

/-! ## The re-parse law of a formatted parameter -/

theorem trimmed_replicate_append (k : Nat) (s : QString) :
    trimmed (List.replicate k ' ' ++ s) = trimmed s := by
  unfold trimmed
  rw [dropWhile_replicate_append isSpace ' ' (by decide) k s]

theorem toDouble_rightJustified (s : QString) (w : Nat) :
    toDouble (rightJustified s w ' ') = toDouble s := by
  unfold toDouble rightJustified
  rw [trimmed_replicate_append]

theorem parseNumeral_intDot (n : Nat) :
    parseNumeral (Dbl.decDigits n ++ ['.']) = some ⟨false, n, 0⟩ ∧
    parseNumeral ('-' :: (Dbl.decDigits n ++ ['.'])) = some ⟨true, n, 0⟩ := by
  have hDI := decDigits_mem n
  have hDIpos := Dbl.decDigits_length_pos n
  have hDIval := digitsVal_decDigits n
  generalize Dbl.decDigits n = DI at hDI hDIpos hDIval
  have hsplit := takeWhile_isDigit_append DI ['.'] hDI
    (by intro c hc; simp at hc; rw [← hc]; decide)
  have hne : DI ≠ [] := by
    intro h
    rw [h] at hDIpos
    simp at hDIpos
  have hsign : takeSign (DI ++ ['.']) = (false, DI ++ ['.']) := by
    cases DI with
    | nil => exact absurd rfl hne
    | cons c cs => exact takeSign_of_dec c _ (hDI c (List.mem_cons_self _ _))
  constructor
  · unfold parseNumeral
    simp only [hsign, hsplit.1, hsplit.2, List.takeWhile_nil, List.dropWhile_nil]
    rw [if_neg (fun h => hne h.1)]
    simp [parseExponent, hDIval]
  · unfold parseNumeral
    have hs : takeSign ('-' :: (DI ++ ['.'])) = (true, DI ++ ['.']) := rfl
    simp only [hs, hsplit.1, hsplit.2, List.takeWhile_nil, List.dropWhile_nil]
    rw [if_neg (fun h => hne h.1)]
    simp [parseExponent, hDIval]

theorem toDouble_numChars (s : QString) (h : ∀ c ∈ s, IsNumChar c) :
    toDouble s = match parseNumeral s with
      | some n => n.toDbl
      | none => Dbl.zero := by
  have htrim : trimmed s = s := trimmed_eq_self_of_no_space _ (fun c hc => (h c hc).facts.1)
  have hlow : s.map Char.toLower = s := by
    conv_rhs => rw [← List.map_id s]
    apply List.map_congr_left
    intro c hc
    exact (h c hc).facts.2.2.1
  have hn : 'n' ∉ s := fun hc => (h 'n' hc).facts.2.2.2 rfl
  unfold toDouble
  simp only [htrim, hlow]
  rw [if_neg (fun h => hn (by rw [h]; decide)),
    if_neg (fun h => by
      rcases h with h | h <;> exact hn (by rw [h]; decide)),
    if_neg (fun h => hn (by rw [h]; decide))]

theorem toDouble_intDot (neg : Bool) (n : Nat) :
    toDouble (numberInt (if neg then -(n : Int) else (n : Int)) ++ ['.']) =
      Numeral.toDbl ⟨neg && n != 0, n, 0⟩ := by
  have hdig : ∀ k : Nat, ∀ c ∈ Dbl.decDigits k ++ ['.'], IsNumChar c := by
    intro k c hc
    rcases List.mem_append.mp hc with hc | hc
    · exact Or.inl (decDigits_mem k c hc)
    · exact Or.inr (Or.inl (List.mem_singleton.mp hc))
  have hpos : toDouble (numberInt (n : Int) ++ ['.']) = Numeral.toDbl ⟨false, n, 0⟩ := by
    have : numberInt (n : Int) = Dbl.decDigits n := rfl
    rw [this, toDouble_numChars _ (hdig n), (parseNumeral_intDot n).1]
  cases neg with
  | false => simpa using hpos
  | true =>
    cases n with
    | zero => simpa using hpos
    | succ k =>
      have h1 : (if true = true then -((k + 1 : Nat) : Int) else ((k + 1 : Nat) : Int)) =
          Int.negSucc k := by
        simp [Int.negSucc_eq]
      have h2 : numberInt (Int.negSucc k) = '-' :: Dbl.decDigits (k + 1) := rfl
      rw [h1, h2, List.cons_append, toDouble_numChars, (parseNumeral_intDot (k + 1)).2]
      · simp
      · intro c hc
        rcases List.mem_cons.mp hc with hc | hc
        · exact Or.inr (Or.inr hc)
        · exact hdig (k + 1) c hc

theorem roundTiesEven_le (num den K : Nat) (hden : 0 < den) (h : num ≤ K * den) :
    roundTiesEven num den ≤ K := by
  have hdiv : num / den ≤ K := by
    calc num / den ≤ K * den / den := Nat.div_le_div_right h
      _ = K := Nat.mul_div_cancel K hden
  rcases Nat.lt_or_eq_of_le hdiv with hlt | heq
  · unfold roundTiesEven
    repeat' split
    all_goals omega
  · have hmod : num % den = 0 := by
      have hdm := Nat.div_add_mod num den
      rw [heq, Nat.mul_comm] at hdm
      omega
    unfold roundTiesEven
    rw [if_pos (by rw [hmod]; omega)]
    exact hdiv

theorem roundBinary64_finite (neg : Bool) (p q : Nat) (hq : 0 < q)
    (h : p ≤ (2 ^ 53 - 1) * (q * 2 ^ 971)) : ∃ m e, roundBinary64 neg p q = Dbl.fin neg m e := by
  unfold roundBinary64
  by_cases hp : p = 0
  · rw [if_pos hp]
    exact ⟨0, 0, rfl⟩
  · rw [if_neg hp]
    simp only
    have hppos : 0 < p := Nat.pos_of_ne_zero hp
    have hupos := ulpExp_pos_bound p q hppos hq
    generalize ulpExp p q = u at hupos
    have h53 : (2 : Nat) ^ 53 - 1 < 2 ^ 52 * 2 := by decide
    have h53ne : ¬ (2 : Nat) ^ 53 ≤ 2 ^ 53 - 1 := by decide
    generalize hB : (2 : Nat) ^ 971 = B at h
    have hu : u ≤ 971 := by
      by_contra hcon
      have hb := hupos (by omega)
      have hk : u.toNat = 971 + (u.toNat - 971) := by omega
      have hX : 2 ^ 1 ≤ 2 ^ (u.toNat - 971) :=
        Nat.pow_le_pow_right Nat.two_pos (by omega)
      have h2 := hb.2
      rw [hk, pow_add, hB] at h2
      generalize 2 ^ (u.toNat - 971) = X at hX h2
      have hpos : 0 < q * B := by
        rcases Nat.eq_zero_or_pos (q * B) with h0 | h0
        · rw [h0, Nat.mul_zero] at h
          omega
        · exact h0
      have h3 : (2 ^ 53 - 1) * (q * B) < 2 ^ 52 * 2 * (q * B) :=
        Nat.mul_lt_mul_of_pos_right h53 hpos
      have e1 : q * (B * X) * 2 ^ 52 = 2 ^ 52 * X * (q * B) := by ring
      have h4 : 2 ^ 52 * 2 * (q * B) ≤ 2 ^ 52 * X * (q * B) :=
        Nat.mul_le_mul_right _ (Nat.mul_le_mul_left _ hX)
      rw [e1] at h2
      omega
    by_cases h971 : u = 971
    · have e1 : (-u).toNat = 0 := by omega
      have e2 : u.toNat = 971 := by omega
      have hm : roundTiesEven (p * 2 ^ (-u).toNat) (q * 2 ^ u.toNat) ≤ 2 ^ 53 - 1 := by
        rw [e1, e2, pow_zero, Nat.mul_one, hB]
        apply roundTiesEven_le _ _ _ _ h
        rw [← hB]
        exact Nat.mul_pos hq (by positivity)
      have hne : roundTiesEven (p * 2 ^ (-u).toNat) (q * 2 ^ u.toNat) ≠ 2 ^ 53 := by
        intro hc
        rw [hc] at hm
        exact h53ne hm
      rw [if_neg hne]
      simp only
      rw [if_neg (by omega)]
      exact ⟨_, _, rfl⟩
    · have hlt : u ≤ 970 := by omega
      split_ifs with h1 h2 h3
      · simp only at h2
        omega
      · exact ⟨_, _, rfl⟩
      · simp only at h3
        omega
      · exact ⟨_, _, rfl⟩

theorem le_of_div_le_cast (p q K B : Nat) (hq : 0 < q)
    (h : (p : ℚ) / q ≤ (K : ℚ) * (B : ℚ)) : p ≤ K * (q * B) := by
  have hqq : (0 : ℚ) < q := by exact_mod_cast hq
  rw [div_le_iff₀ hqq] at h
  have : (p : ℚ) ≤ ((K * (q * B) : Nat) : ℚ) := by
    push_cast
    linarith
  exact_mod_cast this

theorem toDbl_finite (n : Numeral)
    (h : (n.mant : ℚ) * (10 : ℚ) ^ n.exp ≤ ((2 ^ 53 - 1 : Nat) : ℚ) * ((2 ^ 971 : Nat) : ℚ)) :
    ∃ s m e, n.toDbl = Dbl.fin s m e := by
  have hr : ∃ m e, (if 0 ≤ n.exp then roundBinary64 n.neg (n.mant * 10 ^ n.exp.toNat) 1
      else roundBinary64 n.neg n.mant (10 ^ (-n.exp).toNat)) = Dbl.fin n.neg m e := by
    by_cases he : 0 ≤ n.exp
    · rw [if_pos he]
      apply roundBinary64_finite _ _ _ Nat.one_pos
      apply le_of_div_le_cast _ _ _ _ Nat.one_pos
      have hx : n.exp = (n.exp.toNat : Int) := by omega
      rw [hx, zpow_natCast] at h
      rw [Nat.cast_one, div_one, Nat.cast_mul, Nat.cast_pow]
      exact h
    · rw [if_neg he]
      have hpos : 0 < 10 ^ (-n.exp).toNat := by positivity
      apply roundBinary64_finite _ _ _ hpos
      apply le_of_div_le_cast _ _ _ _ hpos
      have hx : n.exp = -((-n.exp).toNat : Int) := by omega
      rw [hx, zpow_neg, zpow_natCast, ← div_eq_mul_inv] at h
      rw [Nat.cast_pow]
      exact h
  obtain ⟨m, e, hv⟩ := hr
  unfold Numeral.toDbl
  simp only
  rw [hv]
  cases m with
  | zero =>
    simp only
    split_ifs
    · exact ⟨_, _, _, rfl⟩
    · exact ⟨_, _, _, rfl⟩
  | succ k => exact ⟨_, _, _, rfl⟩

theorem scaledRound_le (m : Nat) (e : Int) (d : Nat) (hm : m < 2 ^ 53) (he : e ≤ 971) :
    (Dbl.scaledRound m e d : ℚ) * (10 : ℚ) ^ (-(d : Int)) ≤
      ((2 ^ 53 - 1 : Nat) : ℚ) * ((2 ^ 971 : Nat) : ℚ) := by
  have h10 : (0 : ℚ) < 10 ^ d := by positivity
  have hK : m ≤ 2 ^ 53 - 1 := Nat.le_sub_one_of_lt hm
  have hK1 : 1 ≤ 2 ^ 53 - 1 := by decide
  have hB : ∀ j : Nat, 1 ≤ 2 ^ j := fun _ => Nat.one_le_two_pow
  have hB1 := hB 971
  rw [zpow_neg, zpow_natCast, ← div_eq_mul_inv]
  by_cases hneg : e < 0
  · generalize 2 ^ 53 - 1 = K at hK hK1
    generalize 2 ^ 971 = B at hB1
    have hKq : (m : ℚ) ≤ K := by exact_mod_cast hK
    have hK1q : (1 : ℚ) ≤ K := by exact_mod_cast hK1
    have hB1q : (1 : ℚ) ≤ B := by exact_mod_cast hB1
    have hclose := scaledRound_close m e d
    generalize (Dbl.scaledRound m e d : ℚ) / 10 ^ d = t at hclose
    obtain ⟨-, h2⟩ := abs_le.mp hclose
    have hpow : (2 : ℚ) ^ e ≤ 1 / 2 := by
      have : (2 : ℚ) ^ e ≤ (2 : ℚ) ^ (-1 : Int) := zpow_le_zpow_right₀ (by norm_num) (by omega)
      simpa using this
    have hd1 : 1 / (2 * (10 : ℚ) ^ d) ≤ 1 / 2 := by
      apply div_le_div_of_nonneg_left (by norm_num) (by norm_num)
      have : (1 : ℚ) ≤ 10 ^ d := one_le_pow₀ (by norm_num)
      linarith
    have hm0 : (0 : ℚ) ≤ m := by positivity
    have h3 : (m : ℚ) * (2 : ℚ) ^ e ≤ (m : ℚ) * (1 / 2) := mul_le_mul_of_nonneg_left hpow hm0
    have h4 : (K : ℚ) * 1 ≤ (K : ℚ) * B := mul_le_mul_of_nonneg_left hB1q (by linarith)
    linarith
  · obtain ⟨k, rfl⟩ := Int.eq_ofNat_of_zero_le (show 0 ≤ e by omega)
    have hk : k ≤ 971 := by omega
    have hmono : ∀ j : Nat, k ≤ j → 2 ^ k ≤ 2 ^ j :=
      fun _ hj => Nat.pow_le_pow_right Nat.two_pos hj
    have hpow := hmono 971 hk
    have hv : (Dbl.scaledRound m (Int.ofNat k) d : ℚ) = ((m * 2 ^ k : Nat) : ℚ) * 10 ^ d := by
      simp [Dbl.scaledRound]
    have hv2 : (Dbl.scaledRound m ((k : Nat) : Int) d : ℚ) = ((m * 2 ^ k : Nat) : ℚ) * 10 ^ d :=
      hv
    rw [hv2, mul_div_assoc, div_self (ne_of_gt h10), mul_one, ← Nat.cast_mul]
    generalize 2 ^ 971 = B at hpow
    exact_mod_cast Nat.mul_le_mul hK hpow

theorem ulpExp_lower (p q : Nat) (hp : 0 < p) (hq : 0 < q) :
    -1074 ≤ ulpExp p q ∧
      (-1074 < ulpExp p q → (2 : ℚ) ^ (ulpExp p q + 52) ≤ (p : ℚ) / q) := by
  obtain ⟨hp1, hp2, hp3⟩ := bitLen_spec p hp
  obtain ⟨hq1, hq2, hq3⟩ := bitLen_spec q hq
  have hpq : (0 : ℚ) < p := by exact_mod_cast hp
  have hqq : (0 : ℚ) < q := by exact_mod_cast hq
  have hK : (2 : ℚ) ^ (if geTwoPow p q ((bitLen p : Int) - (bitLen q : Int)) = true
      then (bitLen p : Int) - (bitLen q : Int)
      else (bitLen p : Int) - (bitLen q : Int) - 1) ≤ (p : ℚ) / q := by
    by_cases hge : geTwoPow p q ((bitLen p : Int) - (bitLen q : Int)) = true
    · rw [if_pos hge]
      generalize (bitLen p : Int) - (bitLen q : Int) = k0 at hge
      cases k0 with
      | ofNat n =>
        have hle : q * 2 ^ n ≤ p := by simpa [geTwoPow] using hge
        have hle' : (q : ℚ) * 2 ^ n ≤ p := by exact_mod_cast hle
        rw [Int.ofNat_eq_coe, zpow_natCast, le_div_iff₀ hqq]
        linarith
      | negSucc n =>
        have hle : q ≤ p * 2 ^ (n + 1) := by simpa [geTwoPow] using hge
        have hle' : (q : ℚ) ≤ p * 2 ^ (n + 1) := by exact_mod_cast hle
        have h2 : (0 : ℚ) < 2 ^ (n + 1) := by positivity
        rw [zpow_negSucc, le_div_iff₀ hqq, inv_mul_le_iff₀ h2]
        linarith
    · rw [if_neg hge]
      have hk : (bitLen p : Int) - (bitLen q : Int) - 1 =
          ((bitLen p - 1 : Nat) : Int) - ((bitLen q : Nat) : Int) := by omega
      rw [hk, zpow_sub₀ (by norm_num), zpow_natCast, zpow_natCast]
      have h1 : ((2 : ℚ) ^ (bitLen p - 1)) ≤ p := by exact_mod_cast hp1
      have h2 : (q : ℚ) ≤ 2 ^ bitLen q := by exact_mod_cast (le_of_lt hq2)
      exact div_le_div₀ (le_of_lt hpq) h1 hqq h2
  unfold ulpExp
  simp only
  generalize (if geTwoPow p q ((bitLen p : Int) - (bitLen q : Int)) = true
      then (bitLen p : Int) - (bitLen q : Int)
      else (bitLen p : Int) - (bitLen q : Int) - 1) = K at hK
  refine ⟨by omega, fun hlt => ?_⟩
  have : max K (-1022) - 52 + 52 = K := by omega
  rw [this]
  exact hK

theorem roundBinary64_normal (neg : Bool) (p q : Nat) (hp : p ≠ 0) (hq : 0 < q) (s : Bool)
    (m' : Nat) (e' : Int) (h : roundBinary64 neg p q = Dbl.fin s m' e') :
    e' = -1074 ∨ 2 ^ 52 ≤ m' := by
  unfold roundBinary64 at h
  rw [if_neg hp] at h
  simp only at h
  have hppos : 0 < p := Nat.pos_of_ne_zero hp
  obtain ⟨hlow, hnorm⟩ := ulpExp_lower p q hppos hq
  generalize ulpExp p q = u at h hlow hnorm
  have hge := roundTiesEven_ge (p * 2 ^ (-u).toNat) (q * 2 ^ u.toNat)
  generalize roundTiesEven (p * 2 ^ (-u).toNat) (q * 2 ^ u.toNat) = m at h hge
  have hden : 0 < q * 2 ^ u.toNat := Nat.mul_pos hq (by positivity)
  have hm52 : -1074 < u → 2 ^ 52 ≤ m := by
    intro hu
    have hx := hnorm hu
    have hqq : (0 : ℚ) < q := by exact_mod_cast hq
    have htwo : (2 : ℚ) ^ (u + 52) = (2 : ℚ) ^ u.toNat * 2 ^ 52 / (2 : ℚ) ^ (-u).toNat := by
      have : u + 52 = (u.toNat : Int) + 52 - ((-u).toNat : Int) := by omega
      conv_lhs => rw [this]
      rw [zpow_sub₀ (by norm_num), zpow_add₀ (by norm_num), zpow_natCast, zpow_natCast]
      norm_num
    rw [htwo, le_div_iff₀ hqq, div_mul_eq_mul_div, div_le_iff₀ (by positivity)] at hx
    have hnat : 2 ^ 52 * (q * 2 ^ u.toNat) ≤ p * 2 ^ (-u).toNat := by
      have : ((2 ^ 52 * (q * 2 ^ u.toNat) : Nat) : ℚ) ≤ ((p * 2 ^ (-u).toNat : Nat) : ℚ) := by
        push_cast
        linarith
      exact_mod_cast this
    exact le_trans ((Nat.le_div_iff_mul_le hden).mpr hnat) hge
  by_cases h53 : m = 2 ^ 53
  · rw [if_pos h53] at h
    simp only at h
    split at h
    · cases h
    · simp only [Dbl.fin.injEq] at h
      obtain ⟨-, hm', -⟩ := h
      rw [← hm']
      exact Or.inr (le_refl _)
  · rw [if_neg h53] at h
    simp only at h
    split at h
    · cases h
    · simp only [Dbl.fin.injEq] at h
      obtain ⟨-, hm', he'⟩ := h
      rw [← hm', ← he']
      by_cases hu : u = -1074
      · exact Or.inl hu
      · exact Or.inr (hm52 (by omega))

theorem toDbl_rel (n : Numeral) (s : Bool) (m' : Nat) (e' : Int)
    (h : n.toDbl = Dbl.fin s m' e') :
    |(m' : ℚ) * (2 : ℚ) ^ e' - (n.mant : ℚ) * (10 : ℚ) ^ n.exp| ≤
      max ((m' : ℚ) * (2 : ℚ) ^ e' / 2 ^ 53) ((2 : ℚ) ^ (-1075 : Int)) := by
  have hclose := (toDbl_close n s m' e' h).2
  have hpow : (0 : ℚ) < (2 : ℚ) ^ e' := by positivity
  by_cases hm : n.mant = 0
  · rw [hm, Nat.cast_zero, zero_mul, sub_zero] at hclose ⊢
    have hnn : (0 : ℚ) ≤ (m' : ℚ) * (2 : ℚ) ^ e' := by positivity
    rw [abs_of_nonneg hnn] at hclose ⊢
    have hm' : (m' : ℚ) ≤ 1 / 2 := by
      by_contra hcon
      have : (1 / 2 : ℚ) * (2 : ℚ) ^ e' < (m' : ℚ) * (2 : ℚ) ^ e' :=
        mul_lt_mul_of_pos_right (lt_of_not_le hcon) hpow
      linarith
    have hz : m' = 0 := by
      rcases Nat.eq_zero_or_pos m' with h0 | h0
      · exact h0
      · have : (1 : ℚ) ≤ m' := by exact_mod_cast h0
        linarith
    rw [hz, Nat.cast_zero, zero_mul]
    exact le_max_of_le_left (by simp)
  · obtain ⟨p, q, hq, hpq, hp0, hv⟩ : ∃ p q : Nat, 0 < q ∧
        (p : ℚ) / q = (n.mant : ℚ) * (10 : ℚ) ^ n.exp ∧ p ≠ 0 ∧
        (if 0 ≤ n.exp then roundBinary64 n.neg (n.mant * 10 ^ n.exp.toNat) 1
          else roundBinary64 n.neg n.mant (10 ^ (-n.exp).toNat)) = roundBinary64 n.neg p q := by
      by_cases he : 0 ≤ n.exp
      · refine ⟨n.mant * 10 ^ n.exp.toNat, 1, Nat.one_pos, ?_,
          Nat.mul_ne_zero hm (by positivity), by rw [if_pos he]⟩
        have : n.exp = (n.exp.toNat : Int) := by omega
        conv_rhs => rw [this, zpow_natCast]
        push_cast
        simp
      · refine ⟨n.mant, 10 ^ (-n.exp).toNat, by positivity, ?_, hm, by rw [if_neg he]⟩
        have : n.exp = -((-n.exp).toNat : Int) := by omega
        conv_rhs => rw [this, zpow_neg, zpow_natCast]
        push_cast
        rfl
    have hhalf : (2 : ℚ) ^ (-1074 : Int) / 2 = (2 : ℚ) ^ (-1075 : Int) := by
      rw [show (-1075 : Int) = -1074 - 1 from rfl, zpow_sub_one₀ (by norm_num), div_eq_mul_inv]
    unfold Numeral.toDbl at h
    simp only at h
    rw [hv] at h
    cases hr : roundBinary64 n.neg p q with
    | nan => exact absurd hr (roundBinary64_ne_nan _ _ _)
    | inf s1 => rw [hr] at h; cases h
    | fin s1 m1 e1 =>
      obtain ⟨-, hb, -⟩ := roundBinary64_close n.neg p q hq s1 m1 e1 hr
      have hnorm := roundBinary64_normal n.neg p q hp0 hq s1 m1 e1 hr
      rw [hr] at h
      rw [hpq] at hb
      cases m1 with
      | zero =>
        simp only at h
        rw [if_neg hm] at h
        simp only [Dbl.zero, Dbl.fin.injEq] at h
        obtain ⟨-, hm', he'⟩ := h
        rw [← hm', ← he']
        have he1 : e1 = -1074 := by
          rcases hnorm with h1 | h1
          · exact h1
          · exact absurd h1 (by decide)
        rw [he1, hhalf] at hb
        rw [Nat.cast_zero, zero_mul] at hb ⊢
        exact le_max_of_le_right hb
      | succ k =>
        simp only [Dbl.fin.injEq] at h
        obtain ⟨-, hm', he'⟩ := h
        rw [← hm', ← he']
        rcases hnorm with h1 | h1
        · rw [h1] at hb ⊢
          rw [hhalf] at hb
          exact le_max_of_le_right hb
        · apply le_max_of_le_left
          have h52 : ((2 : ℚ) ^ 52) ≤ ((k + 1 : Nat) : ℚ) := by exact_mod_cast h1
          have he1 : (0 : ℚ) < (2 : ℚ) ^ e1 := by positivity
          have : (2 : ℚ) ^ e1 / 2 ≤ ((k + 1 : Nat) : ℚ) * (2 : ℚ) ^ e1 / 2 ^ 53 := by
            rw [div_le_div_iff₀ (by norm_num) (by positivity)]
            have hmul := mul_le_mul_of_nonneg_right h52 (le_of_lt he1)
            have e53 : (2 : ℚ) ^ 53 = 2 ^ 52 * 2 := by norm_num
            rw [e53]
            generalize (2 : ℚ) ^ 52 = A at hmul ⊢
            generalize (2 : ℚ) ^ e1 = X at hmul ⊢
            generalize ((k + 1 : Nat) : ℚ) = M at hmul ⊢
            linarith
          exact le_trans hb this

theorem toRat_close_of_bounds (neg s : Bool) (m m' : Nat) (e e' : Int) (t D U : ℚ)
    (hs : m' ≠ 0 → m ≠ 0 → s = neg)
    (hA : |(m' : ℚ) * (2 : ℚ) ^ e' - t| ≤ U)
    (hN : |t - (m : ℚ) * (2 : ℚ) ^ e| ≤ D) :
    |(Dbl.fin s m' e').toRat - (Dbl.fin neg m e).toRat| ≤ D + U := by
  have ha : (0 : ℚ) ≤ (m' : ℚ) * (2 : ℚ) ^ e' := by positivity
  have hb : (0 : ℚ) ≤ (m : ℚ) * (2 : ℚ) ^ e := by positivity
  obtain ⟨hA1, hA2⟩ := abs_le.mp hA
  obtain ⟨hN1, hN2⟩ := abs_le.mp hN
  have hD : (0 : ℚ) ≤ D := le_trans (abs_nonneg _) hN
  have hU : (0 : ℚ) ≤ U := le_trans (abs_nonneg _) hA
  by_cases hm' : m' = 0
  · subst hm'
    simp only [Dbl.toRat, Nat.cast_zero, mul_zero, zero_mul] at ha hA1 hA2 ⊢
    cases neg <;> simp only [Bool.false_eq_true, if_false, if_true] <;> rw [abs_le] <;>
      constructor <;> linarith
  · by_cases hm : m = 0
    · subst hm
      simp only [Dbl.toRat, Nat.cast_zero, mul_zero, zero_mul] at hb hN1 hN2 ⊢
      cases s <;> simp only [Bool.false_eq_true, if_false, if_true] <;> rw [abs_le] <;>
        constructor <;> linarith
    · have : s = neg := hs hm' hm
      subst this
      simp only [Dbl.toRat]
      cases s <;> simp only [Bool.false_eq_true, if_false, if_true] <;> rw [abs_le] <;>
        constructor <;> linarith

theorem numeral_reread (neg sg : Bool) (m : Nat) (e : Int) (d : Nat)
    (hv : (Dbl.fin neg m e).isBinary64)
    (hsg : Dbl.scaledRound m e d ≠ 0 → m ≠ 0 → sg = neg) :
    ∃ s m' e', Numeral.toDbl ⟨sg, Dbl.scaledRound m e d, -(d : Int)⟩ = Dbl.fin s m' e' ∧
      |(Dbl.fin s m' e').toRat - (Dbl.fin neg m e).toRat| ≤
        1 / (2 * 10 ^ d) + max ((m' : ℚ) * (2 : ℚ) ^ e' / 2 ^ 53) ((2 : ℚ) ^ (-1075 : Int)) := by
  obtain ⟨s, m', e', h⟩ := toDbl_finite ⟨sg, Dbl.scaledRound m e d, -(d : Int)⟩
    (scaledRound_le m e d hv.1 hv.2.2)
  refine ⟨s, m', e', h, ?_⟩
  obtain ⟨hs, hA⟩ := toDbl_close _ s m' e' h
  have hR := toDbl_rel _ s m' e' h
  have hN := scaledRound_close m e d
  simp only at hs hA hR
  have ht : ((Dbl.scaledRound m e d : Nat) : ℚ) * (10 : ℚ) ^ (-(d : Int)) =
      (Dbl.scaledRound m e d : ℚ) / 10 ^ d := by
    rw [zpow_neg, zpow_natCast]
    rfl
  rw [ht] at hA hR
  have hN0 : m' ≠ 0 → Dbl.scaledRound m e d ≠ 0 := by
    intro hm' hz
    rw [hz, Nat.cast_zero, zero_div, sub_zero] at hA
    have hpow : (0 : ℚ) < (2 : ℚ) ^ e' := by positivity
    have hnn : (0 : ℚ) ≤ (m' : ℚ) * (2 : ℚ) ^ e' := by positivity
    rw [abs_of_nonneg hnn] at hA
    have h1 : (1 : ℚ) ≤ m' := by exact_mod_cast Nat.pos_of_ne_zero hm'
    have := mul_le_mul_of_nonneg_right h1 (le_of_lt hpow)
    linarith
  exact toRat_close_of_bounds neg s m m' e e' _ _ _
    (fun hm' hm => (hs hm').trans (hsg (hN0 hm') hm)) hR hN

theorem cul_fmt_facts : ∀ fmt ∈ CUL_FMTS,
    (fmt.trailingDot = true ∧ fmt.decimals = 0) ∨
      (fmt.trailingDot = false ∧ 0 < fmt.decimals) := by
  decide

theorem eco_fmt_facts : ∀ d ∈ ECO_FMTS, 0 < d := by
  decide

theorem toDouble_argF (neg : Bool) (m : Nat) (e : Int) (d : Nat) (hd : 0 < d) :
    toDouble (argF (Dbl.fin neg m e) 5 d) =
      Numeral.toDbl ⟨neg && m != 0, Dbl.scaledRound m e d, -(d : Int)⟩ := by
  unfold argF
  rw [toDouble_rightJustified, toDouble_toFixed neg m e d hd]

theorem cul_formatParam_at (g : Dbl → Nat → QString) (v : Dbl) (i : Nat) (fmt : CulFmt)
    (h : CUL_FMTS[i]? = some fmt) :
    CulParser.formatParam g v i =
      if fmt.trailingDot then
        (qRound v).map fun r => rightJustified (numberInt r ++ ['.']) 5 ' '
      else some (argF v 5 fmt.decimals) := by
  have hi : i < 18 := by
    have := (List.getElem?_eq_some.mp h).1
    simpa [CUL_FMTS] using this
  unfold CulParser.formatParam
  rw [if_neg (by omega), Int.toNat_ofNat, h]

theorem eco_formatParam_at (g : Dbl → Nat → QString) (v : Dbl) (i d : Nat)
    (h : ECO_FMTS[i]? = some d) :
    EcoParser.formatParam g v i = argF v 5 d := by
  have hi : i < 16 := by
    have := (List.getElem?_eq_some.mp h).1
    simpa [ECO_FMTS] using this
  unfold EcoParser.formatParam
  rw [if_neg (by omega), Int.toNat_ofNat, h]

set_option maxRecDepth 100000 in
/-- C12 (counterexample): 0.125 is a finite double and 0 a valid position with
two decimals; `formatParam` writes it as ` 0.13`, both in the cultivar and in the
ecotype codec (position 4), and the number read from that text is the double
4683743612465316 * 2^-55, which lies more than 0.5 * 10^-2 from 0.125. -/
theorem C12_reparse_counterexample :
    CulParser.formatParam sampleG (Dbl.fin false 1 (-3)) 0 = some " 0.13".toList ∧
    EcoParser.formatParam sampleG (Dbl.fin false 1 (-3)) 4 = " 0.13".toList ∧
    CUL_FMTS[0]? = some ⟨2, false⟩ ∧ ECO_FMTS[4]? = some 2 ∧
    toDouble " 0.13".toList = Dbl.fin false 4683743612465316 (-55) ∧
    (1 : ℚ) / (2 * 10 ^ 2) <
      |(Dbl.fin false 4683743612465316 (-55)).toRat - (Dbl.fin false 1 (-3)).toRat| := by
  refine ⟨by decide, by decide, by decide, by decide, by decide, ?_⟩
  rw [lt_abs]
  left
  norm_num [Dbl.toRat]

/-- C12 (amended): for every finite binary64 value and every position of the
format table, the text `formatParam` writes is read as a finite number that
differs from the value by at most half a unit of the last configured decimal
plus the rounding error of the double read (2^-53 of its magnitude, or 2^-1075).
The cultivar codec writes a text at every position without a trailing period,
and at the position with one where `qRound` is defined. -/
theorem C12_reparse_amended (g : Dbl → Nat → QString) (neg : Bool) (m : Nat) (e : Int)
    (hv : (Dbl.fin neg m e).isBinary64) :
    (∀ (i : Nat) (fmt : CulFmt) (text : QString), CUL_FMTS[i]? = some fmt →
      CulParser.formatParam g (Dbl.fin neg m e) i = some text →
      ∃ s m' e', toDouble text = Dbl.fin s m' e' ∧
        |(Dbl.fin s m' e').toRat - (Dbl.fin neg m e).toRat| ≤
          1 / (2 * 10 ^ fmt.decimals) +
            max ((m' : ℚ) * (2 : ℚ) ^ e' / 2 ^ 53) ((2 : ℚ) ^ (-1075 : Int))) ∧
    (∀ (i d : Nat), ECO_FMTS[i]? = some d →
      ∃ s m' e', toDouble (EcoParser.formatParam g (Dbl.fin neg m e) i) = Dbl.fin s m' e' ∧
        |(Dbl.fin s m' e').toRat - (Dbl.fin neg m e).toRat| ≤
          1 / (2 * 10 ^ d) +
            max ((m' : ℚ) * (2 : ℚ) ^ e' / 2 ^ 53) ((2 : ℚ) ^ (-1075 : Int))) ∧
    (∀ (i : Nat) (fmt : CulFmt), CUL_FMTS[i]? = some fmt →
      ((CulParser.formatParam g (Dbl.fin neg m e) i).isSome = true ↔
        (fmt.trailingDot = false ∨ (qRound (Dbl.fin neg m e)).isSome = true))) := by
  have hsgF : ∀ d, Dbl.scaledRound m e d ≠ 0 → m ≠ 0 → (neg && m != 0) = neg := by
    intro d _ hm
    simp [hm]
  refine ⟨?_, ?_, ?_⟩
  · intro i fmt text hfmt htext
    rw [cul_formatParam_at g _ i fmt hfmt] at htext
    rcases cul_fmt_facts fmt (List.getElem?_mem hfmt) with ⟨hdot, hdec⟩ | ⟨hdot, hdec⟩
    · rw [hdot, if_pos rfl] at htext
      obtain ⟨r, hr, rfl⟩ := Option.map_eq_some'.mp htext
      have hr' : r = if neg then -((Dbl.scaledRound m e 0 : Nat) : Int)
          else ((Dbl.scaledRound m e 0 : Nat) : Int) := by
        unfold qRound at hr
        simp only at hr
        rw [Option.ite_none_right_eq_some] at hr
        exact (Option.some.inj hr.2).symm
      rw [toDouble_rightJustified, hr', toDouble_intDot, hdec]
      apply numeral_reread neg _ m e 0 hv
      intro hN _
      simp [hN]
    · rw [hdot] at htext
      simp only [Bool.false_eq_true, if_false, Option.some.injEq] at htext
      rw [← htext, toDouble_argF neg m e _ hdec]
      exact numeral_reread neg _ m e _ hv (hsgF _)
  · intro i d hd
    rw [eco_formatParam_at g _ i d hd, toDouble_argF neg m e d (eco_fmt_facts d (List.getElem?_mem hd))]
    exact numeral_reread neg _ m e d hv (hsgF d)
  · intro i fmt hfmt
    rw [cul_formatParam_at g _ i fmt hfmt]
    cases fmt.trailingDot <;> simp

/-- Witness of C12 (amended): 0.125 at cultivar position 0 is written as ` 0.13`,
which is read as a finite number within 0.5 * 10^-2 plus the rounding error of
the double read. -/
theorem C12_reparse_amended_witness :
    (Dbl.fin false 1 (-3)).isBinary64 ∧
    ∃ s m' e', toDouble " 0.13".toList = Dbl.fin s m' e' ∧
      |(Dbl.fin s m' e').toRat - (Dbl.fin false 1 (-3)).toRat| ≤
        1 / (2 * 10 ^ 2) +
          max ((m' : ℚ) * (2 : ℚ) ^ e' / 2 ^ 53) ((2 : ℚ) ^ (-1075 : Int)) :=
  have hv : (Dbl.fin false 1 (-3)).isBinary64 := ⟨by decide, by decide, by decide⟩
  ⟨hv, (C12_reparse_amended sampleG false 1 (-3) hv).1 0 ⟨2, false⟩ " 0.13".toList
    (by decide) (by decide)⟩

/-! ## The loop of parse -/

theorem cul_parseStep_eq (acc : CulParser.Parsed) (l : QString) :
    CulParser.parseStep acc l =
      ⟨acc.rows ++ (if isHeaderLine (chopCR l) then []
          else (CulParser.parseDataLine (chopCR l)).toList),
        acc.headerLines ++ (if isHeaderLine (chopCR l) then [chopCR l] else [])⟩ := by
  unfold CulParser.parseStep isHeaderLine
  simp only
  generalize chopCR l = line
  by_cases h1 : line.isEmpty = true
  · simp [h1]
  · by_cases h2 : isHeaderMark (line.headD ' ') = true
    · simp only [h1, h2, Bool.false_eq_true, if_false, if_true, Bool.or_true, List.append_nil]
    · simp only [h1, h2, Bool.false_eq_true, if_false, Bool.or_self, List.append_nil]
      cases CulParser.parseDataLine line <;> simp

theorem cul_foldl_parseStep_eq (lines : List QString) (acc : CulParser.Parsed) :
    lines.foldl CulParser.parseStep acc =
      ⟨acc.rows ++ ((lines.map chopCR).filter fun l => !isHeaderLine l).filterMap
          CulParser.parseDataLine,
        acc.headerLines ++ (lines.map chopCR).filter isHeaderLine⟩ := by
  induction lines generalizing acc with
  | nil => simp
  | cons l ls ih =>
    rw [List.foldl_cons, ih, cul_parseStep_eq]
    by_cases h : isHeaderLine (chopCR l) = true
    · simp [h, List.filter_cons]
    · simp only [Bool.not_eq_true] at h
      cases hp : CulParser.parseDataLine (chopCR l) <;>
        simp [h, hp, List.filter_cons, List.filterMap_cons]

theorem eco_parseStep_eq (acc : EcoParser.Parsed) (l : QString) :
    EcoParser.parseStep acc l =
      ⟨acc.rows ++ (if isHeaderLine (chopCR l) then []
          else (EcoParser.parseDataLine (chopCR l)).toList),
        acc.headerLines ++ (if isHeaderLine (chopCR l) then [chopCR l] else [])⟩ := by
  unfold EcoParser.parseStep isHeaderLine
  simp only
  generalize chopCR l = line
  by_cases h1 : line.isEmpty = true
  · simp [h1]
  · by_cases h2 : isHeaderMark (line.headD ' ') = true
    · simp only [h1, h2, Bool.false_eq_true, if_false, if_true, Bool.or_true, List.append_nil]
    · simp only [h1, h2, Bool.false_eq_true, if_false, Bool.or_self, List.append_nil]
      cases EcoParser.parseDataLine line <;> simp

theorem eco_foldl_parseStep_eq (lines : List QString) (acc : EcoParser.Parsed) :
    lines.foldl EcoParser.parseStep acc =
      ⟨acc.rows ++ ((lines.map chopCR).filter fun l => !isHeaderLine l).filterMap
          EcoParser.parseDataLine,
        acc.headerLines ++ (lines.map chopCR).filter isHeaderLine⟩ := by
  induction lines generalizing acc with
  | nil => simp
  | cons l ls ih =>
    rw [List.foldl_cons, ih, eco_parseStep_eq]
    by_cases h : isHeaderLine (chopCR l) = true
    · simp [h, List.filter_cons]
    · simp only [Bool.not_eq_true] at h
      cases hp : EcoParser.parseDataLine (chopCR l) <;>
        simp [h, hp, List.filter_cons, List.filterMap_cons]

theorem cul_parse_eq (text : List Char) :
    CulParser.parse (some text) =
      ⟨(((readLines text).map chopCR).filter fun l => !isHeaderLine l).filterMap
          CulParser.parseDataLine,
        ((readLines text).map chopCR).filter isHeaderLine⟩ := by
  simp only [CulParser.parse, cul_foldl_parseStep_eq, List.nil_append]

theorem eco_parse_eq (text : List Char) :
    EcoParser.parse (some text) =
      ⟨(((readLines text).map chopCR).filter fun l => !isHeaderLine l).filterMap
          EcoParser.parseDataLine,
        ((readLines text).map chopCR).filter isHeaderLine⟩ := by
  simp only [EcoParser.parse, eco_foldl_parseStep_eq, List.nil_append]

theorem map_chopCR_eq_self (ls : List QString) (h : ∀ l ∈ ls, '\r' ∉ l) :
    ls.map chopCR = ls := by
  conv_rhs => rw [← List.map_id ls]
  apply List.map_congr_left
  intro l hl
  exact chopCR_eq_self l (h l hl)

theorem textModeRead_noCR (l : List Char) (h : '\r' ∉ l) : textModeRead l = l := by
  induction l with
  | nil => rfl
  | cons c cs ih =>
    have hc : c ≠ '\r' := fun hc => h (hc ▸ List.mem_cons_self _ _)
    have hcs : '\r' ∉ cs := fun hcs => h (List.mem_cons_of_mem _ hcs)
    simp [textModeRead, hc, ih hcs]

theorem readLinesAux_emitLinesLF (ls : List QString) (h : ∀ l ∈ ls, '\n' ∉ l ∧ '\r' ∉ l) :
    readLinesAux (emitLinesLF ls) [] = ls := by
  induction ls with
  | nil => rfl
  | cons l ls ih =>
    have hl := h l (List.mem_cons_self _ _)
    have hls := fun x hx => h x (List.mem_cons_of_mem _ hx)
    have hcons : emitLinesLF (l :: ls) = l ++ '\n' :: emitLinesLF ls := by
      simp [emitLinesLF]
    rw [hcons, readLinesAux_line _ _ _ hl.1, ih hls, List.nil_append, chopCR_eq_self _ hl.2]

theorem readLines_emitLinesLF (ls : List QString) (h : ∀ l ∈ ls, '\n' ∉ l ∧ '\r' ∉ l) :
    readLines (emitLinesLF ls) = ls := by
  unfold readLines
  rw [textModeRead_noCR, readLinesAux_emitLinesLF ls h]
  intro hmem
  simp only [emitLinesLF, List.mem_flatten, List.mem_map] at hmem
  obtain ⟨x, ⟨l, hl, rfl⟩, hx⟩ := hmem
  rcases List.mem_append.mp hx with hx | hx
  · exact (h l hl).2 hx
  · simp at hx

/-! ## Header lines and data lines of parse -/

/-- C22: the header lines `parse` returns are exactly the lines of the input,
in file order and unchanged, that are empty or begin with `*`, `!` or `@`, and
the rows come from the other lines only; for the cultivar and the ecotype
codec. The lines of the input are those `readLine` delivers, a trailing
carriage return removed; for lines free of terminator characters that are
written with CR LF or with LF after each, they are the lines themselves. -/
theorem C22_header_line_capture (text : List Char) (ls : List QString)
    (h : ∀ l ∈ ls, '\n' ∉ l ∧ '\r' ∉ l) :
    (CulParser.parse (some text)).headerLines =
      ((readLines text).map chopCR).filter isHeaderLine ∧
    (CulParser.parse (some text)).rows =
      (((readLines text).map chopCR).filter fun l => !isHeaderLine l).filterMap
        CulParser.parseDataLine ∧
    (EcoParser.parse (some text)).headerLines =
      ((readLines text).map chopCR).filter isHeaderLine ∧
    (EcoParser.parse (some text)).rows =
      (((readLines text).map chopCR).filter fun l => !isHeaderLine l).filterMap
        EcoParser.parseDataLine ∧
    CulParser.parse (some (emitLines ls)) =
      ⟨(ls.filter fun l => !isHeaderLine l).filterMap CulParser.parseDataLine,
        ls.filter isHeaderLine⟩ ∧
    CulParser.parse (some (emitLinesLF ls)) =
      ⟨(ls.filter fun l => !isHeaderLine l).filterMap CulParser.parseDataLine,
        ls.filter isHeaderLine⟩ ∧
    EcoParser.parse (some (emitLines ls)) =
      ⟨(ls.filter fun l => !isHeaderLine l).filterMap EcoParser.parseDataLine,
        ls.filter isHeaderLine⟩ ∧
    EcoParser.parse (some (emitLinesLF ls)) =
      ⟨(ls.filter fun l => !isHeaderLine l).filterMap EcoParser.parseDataLine,
        ls.filter isHeaderLine⟩ := by
  have hcr := map_chopCR_eq_self ls (fun l hl => (h l hl).2)
  refine ⟨?_, ?_, ?_, ?_, ?_, ?_, ?_, ?_⟩
  · rw [cul_parse_eq]
  · rw [cul_parse_eq]
  · rw [eco_parse_eq]
  · rw [eco_parse_eq]
  · rw [cul_parse_eq, readLines_emitLines ls h, hcr]
  · rw [cul_parse_eq, readLines_emitLinesLF ls h, hcr]
  · rw [eco_parse_eq, readLines_emitLines ls h, hcr]
  · rw [eco_parse_eq, readLines_emitLinesLF ls h, hcr]

set_option maxRecDepth 100000 in
/-- Witness of C22: a title line, an empty line, a cultivar line and a
column-label line, each followed by CR LF. -/
theorem C22_header_line_capture_witness :
    (CulParser.parse (some
      ("*SOYBEAN\r\n\r\nIB0001 SOME CULTIVAR        . IB0001 15.00 0.500\r\n" ++
        "@VAR#  VRNAME\r\n").toList)).headerLines =
      ["*SOYBEAN".toList, [], "@VAR#  VRNAME".toList] :=
  congrArg CulParser.Parsed.headerLines
    (C22_header_line_capture []
      ["*SOYBEAN".toList, [], "IB0001 SOME CULTIVAR        . IB0001 15.00 0.500".toList,
        "@VAR#  VRNAME".toList] (by decide)).2.2.2.2.1

set_option maxRecDepth 100000 in
/-- C23 (counterexample): of the four lines `*SOYBEAN`, three spaces, the empty
line and `@VAR#`, `parse` stores the first, the third and the fourth in
`headerLines` and returns no row: the line of three spaces is lost. -/
theorem C23_spaces_only_line_is_dropped :
    CulParser.parse (some "*SOYBEAN\r\n   \r\n\r\n@VAR#\r\n".toList) =
      ⟨[], ["*SOYBEAN".toList, [], "@VAR#".toList]⟩ ∧
    EcoParser.parse (some "*SOYBEAN\r\n   \r\n\r\n@VAR#\r\n".toList) =
      ⟨[], ["*SOYBEAN".toList, [], "@VAR#".toList]⟩ := by
  decide

theorem splitWs_replicate_space (k : Nat) : splitWs (List.replicate k ' ') = [] := by
  have := splitWsAux_spaces k []
  rw [List.append_nil] at this
  rw [splitWs, this]
  rfl

theorem midFrom_replicate (k n : Nat) (c : Char) :
    midFrom (List.replicate k c) n = List.replicate (k - n) c := by
  simp [midFrom]

/-- C23 (amended): every empty line of the input is appended to `headerLines`,
in file order among the header lines; a line that is not empty and consists
only of space characters is no header line and gives no row, so `parse` drops
it. Cultivar and ecotype codec. -/
theorem C23_empty_lines_survive (text : List Char) (k : Nat) :
    (CulParser.parse (some text)).headerLines =
      ((readLines text).map chopCR).filter isHeaderLine ∧
    (EcoParser.parse (some text)).headerLines =
      ((readLines text).map chopCR).filter isHeaderLine ∧
    isHeaderLine [] = true ∧
    isHeaderLine (List.replicate (k + 1) ' ') = false ∧
    CulParser.parseDataLine (List.replicate (k + 1) ' ') = none ∧
    EcoParser.parseDataLine (List.replicate (k + 1) ' ') = none := by
  refine ⟨by rw [cul_parse_eq], by rw [eco_parse_eq], rfl, rfl, ?_, ?_⟩
  · unfold CulParser.parseDataLine
    simp only [midFrom_replicate, splitWs_replicate_space]
    simp
  · unfold EcoParser.parseDataLine
    simp only [midFrom_replicate, splitWs_replicate_space]
    simp

/-- C24: a line that is no header line gives a row if and only if it has at
least 36 (cultivar) or 23 (ecotype) characters and the text from column 20
(cultivar) or 23 (ecotype) holds at least 2 tokens; the rows `parse` returns
are the rows of the accepted lines, in file order, whatever the other lines
are. -/
theorem C24_data_line_acceptance (line : QString) (text : List Char) :
    ((CulParser.parseDataLine line).isSome = true ↔
      36 ≤ line.length ∧ 2 ≤ (splitWs (line.drop 20)).length) ∧
    ((EcoParser.parseDataLine line).isSome = true ↔
      23 ≤ line.length ∧ 2 ≤ (splitWs (line.drop 23)).length) ∧
    (CulParser.parse (some text)).rows =
      (((readLines text).map chopCR).filter fun l => !isHeaderLine l).filterMap
        CulParser.parseDataLine ∧
    (EcoParser.parse (some text)).rows =
      (((readLines text).map chopCR).filter fun l => !isHeaderLine l).filterMap
        EcoParser.parseDataLine := by
  refine ⟨?_, ?_, by rw [cul_parse_eq], by rw [eco_parse_eq]⟩
  · unfold CulParser.parseDataLine
    simp only [midFrom]
    by_cases h1 : line.length < 36
    · simp [h1]
    · by_cases h2 : (splitWs (line.drop 20)).length < 2
      · have h3 : (splitWs (List.drop 20 line)).isEmpty = true ∨
            (splitWs (List.drop 20 line)).isEmpty = false := by
          cases (splitWs (List.drop 20 line)).isEmpty <;> simp
        rcases h3 with h3 | h3 <;> simp [h1, h2, h3]
      · have h3 : (splitWs (List.drop 20 line)).isEmpty = false := by
          cases hs : splitWs (List.drop 20 line) with
          | nil => rw [hs] at h2; simp at h2
          | cons a b => rfl
        simp [h1, h2, h3]
        omega
  · unfold EcoParser.parseDataLine
    simp only [midFrom]
    by_cases h1 : line.length < 23
    · simp [h1]
    · by_cases h2 : (splitWs (line.drop 23)).length < 2
      · simp [h1, h2]
      · simp [h1, h2]
        omega

/-! ## The fields of a data line -/

theorem left_eq_take (s : QString) (n : Nat) : left s n = s.take n := by
  unfold left
  split
  · rename_i h
    rcases h with h | h
    · omega
    · have : s.length ≤ n := by exact_mod_cast h
      rw [List.take_of_length_le this]
  · rfl

theorem readParams_getD (tokens : List QString) (n i : Nat) :
    (readParams tokens n).getD i Dbl.zero =
      if i < n ∧ i + 2 < tokens.length then toDouble (tokens.getD (i + 2) []) else Dbl.zero := by
  unfold readParams padParams
  rw [List.getD_eq_getElem?_getD, List.getD_eq_getElem?_getD]
  by_cases h : i < n ∧ i + 2 < tokens.length
  · rw [if_pos h]
    have hlen : i < (List.map toDouble (List.take n (List.drop 2 tokens))).length := by
      simp only [List.length_map, List.length_take, List.length_drop]
      omega
    rw [List.getElem?_append_left hlen]
    simp only [List.getElem?_map, List.getElem?_take, List.getElem?_drop]
    rw [if_pos h.1]
    have : 2 + i = i + 2 := by omega
    rw [this]
    cases htok : tokens[i + 2]? with
    | none =>
      have := List.getElem?_eq_none_iff.mp htok
      omega
    | some t => rfl
  · rw [if_neg h]
    by_cases hl : i < (List.map toDouble (List.take n (List.drop 2 tokens))).length
    · simp only [List.length_map, List.length_take, List.length_drop] at hl
      omega
    · rw [List.getElem?_append_right (by omega)]
      cases hr : (List.replicate
          (n - (List.map toDouble (List.take n (List.drop 2 tokens))).length) Dbl.zero)[i -
          (List.map toDouble (List.take n (List.drop 2 tokens))).length]? with
      | none => rfl
      | some v =>
        have := List.getElem?_mem hr
        rw [List.mem_replicate] at this
        rw [this.2]
        rfl

theorem cul_parseDataLine_some (line : QString) (h1 : 36 ≤ line.length)
    (h2 : 2 ≤ (splitWs (line.drop 20)).length) :
    CulParser.parseDataLine line =
      some { varNum := trimmed (line.take 6), vrName := trimmed ((line.drop 7).take 13),
             expNo := (splitWs (line.drop 20)).getD 0 [],
             ecoNum := (splitWs (line.drop 20)).getD 1 [],
             params := readParams (splitWs (line.drop 20)) 18,
             isMinMax := (trimmed (line.take 6) == ID_MIN || trimmed (line.take 6) == ID_MAX) } := by
  unfold CulParser.parseDataLine
  have h3 : (splitWs (List.drop 20 line)).isEmpty = false := by
    cases hs : splitWs (List.drop 20 line) with
    | nil => rw [hs] at h2; simp at h2
    | cons a b => rfl
  have h4 : (if (splitWs (List.drop 20 line)).getD 0 [] = ['.'] then ['.']
      else (splitWs (List.drop 20 line)).getD 0 []) = (splitWs (List.drop 20 line)).getD 0 [] := by
    split
    · rename_i h
      exact h.symm
    · rfl
  simp only [midFrom, mid, left_eq_take, Nat.cast_ofNat]
  rw [if_neg (by omega), h3]
  simp only [Bool.false_eq_true, if_false]
  rw [if_neg (by omega), h4]
  have := left_eq_take line 6
  simp only [Nat.cast_ofNat] at this
  rw [this]

theorem eco_parseDataLine_some (line : QString) (h1 : 23 ≤ line.length)
    (h2 : 2 ≤ (splitWs (line.drop 23)).length) :
    EcoParser.parseDataLine line =
      some { ecoNum := trimmed (line.take 6), ecoName := trimmed ((line.drop 7).take 16),
             mg := (splitWs (line.drop 23)).getD 0 [],
             tm := (splitWs (line.drop 23)).getD 1 [],
             params := readParams (splitWs (line.drop 23)) 16,
             isMinMax := (trimmed (line.take 6) == ID_MIN || trimmed (line.take 6) == ID_MAX) } := by
  unfold EcoParser.parseDataLine
  simp only [midFrom, mid]
  rw [if_neg (by omega), if_neg (by omega)]
  have := left_eq_take line 6
  simp only [Nat.cast_ofNat] at this
  rw [this]

theorem cul_parseDataLine_cond (line : QString) (row : CulRow)
    (h : CulParser.parseDataLine line = some row) :
    36 ≤ line.length ∧ 2 ≤ (splitWs (line.drop 20)).length := by
  unfold CulParser.parseDataLine at h
  simp only [midFrom] at h
  by_cases h1 : line.length < 36
  · rw [if_pos h1] at h
    cases h
  · rw [if_neg h1] at h
    by_cases h2 : (splitWs (List.drop 20 line)).isEmpty = true
    · rw [if_pos h2] at h
      cases h
    · rw [if_neg h2] at h
      by_cases h3 : (splitWs (List.drop 20 line)).length < 2
      · rw [if_pos h3] at h
        cases h
      · omega

theorem eco_parseDataLine_cond (line : QString) (row : EcoRow)
    (h : EcoParser.parseDataLine line = some row) :
    23 ≤ line.length ∧ 2 ≤ (splitWs (line.drop 23)).length := by
  unfold EcoParser.parseDataLine at h
  simp only [midFrom] at h
  by_cases h1 : line.length < 23
  · rw [if_pos h1] at h
    cases h
  · rw [if_neg h1] at h
    by_cases h3 : (splitWs (List.drop 23 line)).length < 2
    · rw [if_pos h3] at h
      cases h
    · omega

theorem toDouble_of_noNumber (t : QString) (h : IsNoNumber t) : toDouble t = Dbl.zero := by
  obtain ⟨h1, h2, h3, h4, h5⟩ := h
  unfold toDouble
  simp only
  rw [if_neg h1, if_neg (by rintro (h | h); exact h2 h; exact h3 h), if_neg h4, h5]

theorem cul_parseLine_of_ne (rawLine : QString)
    (h : (CulParser.parseLine rawLine).varNum ≠ []) :
    CulParser.parseDataLine (trimmed rawLine) = some (CulParser.parseLine rawLine) := by
  unfold CulParser.parseLine at h ⊢
  unfold CulParser.parseDataLine
  simp only at h ⊢
  by_cases h1 : ((trimmed rawLine).isEmpty || isHeaderMark ((trimmed rawLine).headD ' ')) = true
  · rw [if_pos h1] at h
    exact absurd rfl h
  · rw [if_neg h1] at h ⊢
    by_cases h2 : (trimmed rawLine).length < 36
    · rw [if_pos h2] at h
      exact absurd rfl h
    · rw [if_neg h2] at h ⊢
      by_cases h3 : (splitWs (midFrom (trimmed rawLine) 20)).isEmpty = true
      · rw [if_pos h3] at h
        exact absurd rfl h
      · rw [if_neg h3] at h ⊢
        by_cases h4 : (splitWs (midFrom (trimmed rawLine) 20)).length < 2
        · rw [if_pos h4] at h
          exact absurd rfl h
        · simp only [if_neg h2, if_neg h3, if_neg h4]

theorem getElem?_of_getD_length (ps : List Dbl) (n i : Nat) (hl : ps.length = n) (hi : i < n) :
    ps[i]? = some (ps.getD i Dbl.zero) := by
  rw [List.getD_eq_getElem?_getD, List.getElem?_eq_getElem (by omega)]
  rfl

/-- C25: the row of an accepted cultivar line has the text of columns [0,6),
trimmed, as identifier, the text of columns [7,20), trimmed, as name, token 0 of
the text from column 20 as experiment code, token 1 as cross-reference code,
and for each `i` below min(18, token count - 2) the number read from token
`2 + i` as parameter `i`; it has 18 parameters, and its sentinel flag is set
exactly for the two reserved identifiers. -/
theorem C25_cultivar_field_extraction (line : QString) (row : CulRow)
    (h : CulParser.parseDataLine line = some row) :
    row.varNum = trimmed (line.take 6) ∧
    row.vrName = trimmed ((line.drop 7).take 13) ∧
    row.expNo = (splitWs (line.drop 20)).getD 0 [] ∧
    row.ecoNum = (splitWs (line.drop 20)).getD 1 [] ∧
    row.params.length = 18 ∧
    (∀ i, i < min 18 ((splitWs (line.drop 20)).length - 2) →
      row.params[i]? = some (toDouble ((splitWs (line.drop 20)).getD (i + 2) []))) ∧
    (row.isMinMax = true ↔ row.varNum = ID_MIN ∨ row.varNum = ID_MAX) := by
  obtain ⟨h1, h2⟩ := cul_parseDataLine_cond line row h
  rw [cul_parseDataLine_some line h1 h2] at h
  cases h
  refine ⟨rfl, rfl, rfl, rfl, length_readParams _ _, ?_, ?_⟩
  · intro i hi
    simp only
    rw [getElem?_of_getD_length _ 18 i (length_readParams _ _) (by omega), readParams_getD,
      if_pos (by omega)]
  · simp

set_option maxRecDepth 100000 in
/-- Witness of C25: the line of cultivar IB0001, name SOME CULTIVAR, experiment
token `.`, cross-reference IB0001 and 18 numeric tokens gives the non-sentinel
row with those four fields and the 18 numbers of the tokens. -/
theorem C25_cultivar_field_extraction_witness :
    CulParser.parseDataLine sampleLine = some sampleLineRow ∧
    (CulParser.parse (some (sampleLine ++ ['\r', '\n']))).rows = [sampleLineRow] ∧
    sampleLineRow.varNum = trimmed (sampleLine.take 6) ∧
    sampleLineRow.vrName = trimmed ((sampleLine.drop 7).take 13) ∧
    sampleLineRow.expNo = (splitWs (sampleLine.drop 20)).getD 0 [] ∧
    sampleLineRow.ecoNum = (splitWs (sampleLine.drop 20)).getD 1 [] ∧
    sampleLineRow.params.length = 18 ∧
    (∀ i, i < min 18 ((splitWs (sampleLine.drop 20)).length - 2) →
      sampleLineRow.params[i]? =
        some (toDouble ((splitWs (sampleLine.drop 20)).getD (i + 2) []))) ∧
    (sampleLineRow.isMinMax = true ↔
      sampleLineRow.varNum = ID_MIN ∨ sampleLineRow.varNum = ID_MAX) :=
  have hex : CulParser.parseDataLine sampleLine = some sampleLineRow := by decide
  ⟨hex, by decide, C25_cultivar_field_extraction sampleLine sampleLineRow hex⟩

theorem cul_parseDataLine_param (line : QString) (row : CulRow)
    (h : CulParser.parseDataLine line = some row) (j : Nat) (hj : j < 18) :
    row.params[j]? = some (if j + 2 < (splitWs (line.drop 20)).length
      then toDouble ((splitWs (line.drop 20)).getD (j + 2) []) else Dbl.zero) := by
  obtain ⟨h1, h2⟩ := cul_parseDataLine_cond line row h
  rw [cul_parseDataLine_some line h1 h2] at h
  cases h
  simp only
  rw [getElem?_of_getD_length _ 18 j (length_readParams _ _) hj, readParams_getD]
  simp [hj]

theorem eco_parseDataLine_param (line : QString) (row : EcoRow)
    (h : EcoParser.parseDataLine line = some row) (j : Nat) (hj : j < 16) :
    row.params[j]? = some (if j + 2 < (splitWs (line.drop 23)).length
      then toDouble ((splitWs (line.drop 23)).getD (j + 2) []) else Dbl.zero) := by
  obtain ⟨h1, h2⟩ := eco_parseDataLine_cond line row h
  rw [eco_parseDataLine_some line h1 h2] at h
  cases h
  simp only
  rw [getElem?_of_getD_length _ 16 j (length_readParams _ _) hj, readParams_getD]
  simp [hj]

set_option maxRecDepth 100000 in
/-- C29: a token that `toDouble` cannot convert gives 0.0. Whether a line is
accepted depends on its length and its number of tokens only; in the row of an
accepted line, by `parse` of either codec or by `parseLine`, parameter `j` is
the number read from token `2 + j`, so it is 0.0 where that token is no number,
and every other parameter has the value of its own token. For example, with
`abc` as second parameter token the parameters are 12.33, 0.0, 19.0. -/
theorem C29_non_numeric_token (line : QString) :
    (∀ t, IsNoNumber t → toDouble t = Dbl.zero) ∧
    IsNoNumber "abc".toList ∧
    ((CulParser.parseDataLine line).isSome = true ↔
      36 ≤ line.length ∧ 2 ≤ (splitWs (line.drop 20)).length) ∧
    (∀ row, CulParser.parseDataLine line = some row → ∀ j, j < 18 →
      row.params[j]? = some (if j + 2 < (splitWs (line.drop 20)).length
        then toDouble ((splitWs (line.drop 20)).getD (j + 2) []) else Dbl.zero)) ∧
    ((CulParser.parseLine line).varNum ≠ [] → ∀ j, j < 18 →
      (CulParser.parseLine line).params[j]? =
        some (if j + 2 < (splitWs ((trimmed line).drop 20)).length
          then toDouble ((splitWs ((trimmed line).drop 20)).getD (j + 2) [])
          else Dbl.zero)) ∧
    ((EcoParser.parseDataLine line).isSome = true ↔
      23 ≤ line.length ∧ 2 ≤ (splitWs (line.drop 23)).length) ∧
    (∀ row, EcoParser.parseDataLine line = some row → ∀ j, j < 16 →
      row.params[j]? = some (if j + 2 < (splitWs (line.drop 23)).length
        then toDouble ((splitWs (line.drop 23)).getD (j + 2) []) else Dbl.zero)) ∧
    ((CulParser.parse (some
        "IB0001 SOME CULTIVAR        . IB0001 12.33 abc    19.0\r\n".toList)).rows.map
        fun r => r.params.take 4) =
      [[toDouble "12.33".toList, Dbl.zero, toDouble "19.0".toList, Dbl.zero]] ∧
    (CulParser.parseLine
        "IB0001 SOME CULTIVAR        . IB0001 12.33 abc    19.0".toList).params.take 4 =
      [toDouble "12.33".toList, Dbl.zero, toDouble "19.0".toList, Dbl.zero] := by
  refine ⟨toDouble_of_noNumber, ⟨by decide, by decide, by decide, by decide, by decide⟩,
    ?_, ?_, ?_, ?_, ?_, by decide, by decide⟩
  · constructor
    · intro h
      obtain ⟨row, hrow⟩ := Option.isSome_iff_exists.mp h
      exact cul_parseDataLine_cond line row hrow
    · rintro ⟨h1, h2⟩
      rw [cul_parseDataLine_some line h1 h2]
      rfl
  · intro row h j hj
    exact cul_parseDataLine_param line row h j hj
  · intro h j hj
    exact cul_parseDataLine_param _ _ (cul_parseLine_of_ne line h) j hj
  · constructor
    · intro h
      obtain ⟨row, hrow⟩ := Option.isSome_iff_exists.mp h
      exact eco_parseDataLine_cond line row hrow
    · rintro ⟨h1, h2⟩
      rw [eco_parseDataLine_some line h1 h2]
      rfl
  · intro row h j hj
    exact eco_parseDataLine_param line row h j hj

/-! ## The numeric part of a formatted row -/

theorem intercalate_cons_cons (sep a b : List Char) (rest : List (List Char)) :
    sep.intercalate (a :: b :: rest) = a ++ sep ++ sep.intercalate (b :: rest) := by
  simp [List.intercalate, List.intersperse]

theorem cul_formatParams_eq (g : Dbl → Nat → QString) (params : List Dbl) :
    ∀ (k i : Nat) (fs : List QString), i + k = 18 →
      (List.range' i k).map (fun j => CulParser.formatParam g (params.getD j Dbl.zero) j) =
        fs.map some →
      CulParser.formatParams g params i k = some ([' '].intercalate fs) := by
  intro k
  induction k with
  | zero =>
    intro i fs _ h
    cases fs with
    | nil => rfl
    | cons f fs => simp at h
  | succ k ih =>
    intro i fs hik h
    cases fs with
    | nil => simp [List.range'] at h
    | cons f fs =>
      simp only [List.range', List.map_cons, List.cons.injEq] at h
      have hrec := ih (i + 1) fs (by omega) h.2
      unfold CulParser.formatParams
      rw [h.1, hrec]
      simp only
      cases fs with
      | nil =>
        have hk : k = 0 := by
          have := congrArg List.length h.2
          simpa using this
        have hi : ¬ i < 17 := by omega
        simp [hi, List.intercalate, List.intersperse]
      | cons f2 fs =>
        have hk : k ≠ 0 := by
          intro hk
          have := congrArg List.length h.2
          simp [hk] at this
        have hi : i < 17 := by omega
        rw [intercalate_cons_cons]
        simp [hi]

theorem eco_formatParams_eq (g : Dbl → Nat → QString) (params : List Dbl) :
    ∀ (k i : Nat), i + k = 16 →
      EcoParser.formatParams g params i k =
        [' '].intercalate ((List.range' i k).map
          fun j => EcoParser.formatParam g (params.getD j Dbl.zero) j) := by
  intro k
  induction k with
  | zero =>
    intro i _
    rfl
  | succ k ih =>
    intro i hik
    unfold EcoParser.formatParams
    rw [ih (i + 1) (by omega)]
    cases k with
    | zero =>
      have hi : ¬ i < 15 := by omega
      simp [hi, List.range', List.intercalate, List.intersperse]
    | succ k =>
      have hi : i < 15 := by omega
      simp only [List.range', List.map_cons]
      rw [intercalate_cons_cons]
      simp [hi]

/-- C27: after the fixed fields the text of `formatRow` is the 18 (cultivar) or
16 (ecotype) texts `formatParam(v_i, i)`, where `v_i` is parameter `i` of the
row or 0.0 when the row has none, joined by single spaces, and nothing else.
For the cultivar codec the fields are those for which `formatParam` is
defined. -/
theorem C27_numeric_part (g : Dbl → Nat → QString) (row : CulRow) (erow : EcoRow)
    (fields : List QString)
    (h : (List.range 18).map
        (fun i => CulParser.formatParam g (row.params.getD i Dbl.zero) i) = fields.map some) :
    CulParser.formatRow g row =
      some (leftJustified row.varNum 6 ' ' ++ [' '] ++ leftJustified row.vrName 13 ' '
        ++ rightJustified row.expNo 1 ' ' ++ "       . ".toList
        ++ leftJustified row.ecoNum 6 ' ' ++ [' '] ++ [' '].intercalate fields) ∧
    fields.length = 18 ∧
    EcoParser.formatRow g erow =
      leftJustified erow.ecoNum 6 ' ' ++ [' '] ++ leftJustified erow.ecoName 16 ' '
        ++ leftJustified erow.mg 2 ' ' ++ [' '] ++ leftJustified erow.tm 2 ' ' ++ [' ']
        ++ [' '].intercalate ((List.range 16).map
          fun i => EcoParser.formatParam g (erow.params.getD i Dbl.zero) i) ∧
    ((List.range 16).map
      fun i => EcoParser.formatParam g (erow.params.getD i Dbl.zero) i).length = 16 := by
  refine ⟨?_, ?_, ?_, by simp⟩
  · unfold CulParser.formatRow
    rw [cul_formatParams_eq g row.params 18 0 fields rfl (by rw [← List.range_eq_range']; exact h)]
    rfl
  · have := congrArg List.length h
    simpa using this.symm
  · unfold EcoParser.formatRow
    rw [eco_formatParams_eq g erow.params 16 0 rfl, ← List.range_eq_range']

set_option maxRecDepth 100000 in
/-- Witness of C27: the 18 numeric fields of the sample cultivar row. -/
theorem C27_numeric_part_witness :
    CulParser.formatRow sampleG sampleRow =
      some (leftJustified sampleRow.varNum 6 ' ' ++ [' '] ++ leftJustified sampleRow.vrName 13 ' '
        ++ rightJustified sampleRow.expNo 1 ' ' ++ "       . ".toList
        ++ leftJustified sampleRow.ecoNum 6 ' ' ++ [' '] ++ [' '].intercalate
          (["15.00", "0.000", "  0.0", "  0.0", "  0.0", "  0.0", "  0.0", "0.000", "   0.",
            "  0.0", "0.000", "0.000", "  0.0", " 0.00", "  0.0", "  0.0", "0.000",
            "0.000"].map String.toList)) :=
  (C27_numeric_part sampleG sampleRow sampleEco
    (["15.00", "0.000", "  0.0", "  0.0", "  0.0", "  0.0", "  0.0", "0.000", "   0.",
      "  0.0", "0.000", "0.000", "  0.0", " 0.00", "  0.0", "  0.0", "0.000",
      "0.000"].map String.toList) (by decide)).1

/-! ## The trailing-period rule -/

theorem qRound_close (neg : Bool) (m : Nat) (e : Int) (r : Int)
    (h : qRound (Dbl.fin neg m e) = some r) :
    |(r : ℚ) - (Dbl.fin neg m e).toRat| ≤ 1 / 2 := by
  unfold qRound at h
  simp only at h
  rw [Option.ite_none_right_eq_some] at h
  have hr := (Option.some.inj h.2).symm
  have hc := scaledRound_close m e 0
  simp only [pow_zero, div_one, mul_one] at hc
  rw [hr]
  cases neg with
  | false =>
    simp only [Bool.false_eq_true, if_false, Dbl.toRat, one_mul, Int.cast_natCast]
    exact hc
  | true =>
    simp only [if_true, Dbl.toRat, Int.cast_neg, Int.cast_natCast]
    have : -(Dbl.scaledRound m e 0 : ℚ) - -1 * (m : ℚ) * (2 : ℚ) ^ e =
        -((Dbl.scaledRound m e 0 : ℚ) - (m : ℚ) * (2 : ℚ) ^ e) := by ring
    rw [this, abs_neg]
    exact hc

set_option maxRecDepth 100000 in
/-- C28: of the 18 cultivar positions exactly position 8, SLAVR, has the
trailing-period format, and the ecotype codec has none. Where `qRound(v)` is
defined, `formatParam(v, 8)` is the decimal text of the integer nearest to `v`
followed by one `.`, right-justified with spaces in 5 characters; 380 gives
` 380.`. Every other cultivar position and every ecotype position is the
fixed-point text with the configured decimals, right-justified in 5
characters. -/
theorem C28_trailing_period_rule (g : Dbl → Nat → QString) (v : Dbl) :
    (∀ i, i < 18 → ((CUL_FMTS.getD i ⟨0, false⟩).trailingDot = true ↔ i = 8)) ∧
    CUL_PARAM_NAMES.getD 8 [] = "SLAVR".toList ∧
    (∀ r, qRound v = some r →
      CulParser.formatParam g v 8 = some (rightJustified (numberInt r ++ ['.']) 5 ' ')) ∧
    (∀ neg m e r, qRound (Dbl.fin neg m e) = some r →
      |(r : ℚ) - (Dbl.fin neg m e).toRat| ≤ 1 / 2) ∧
    (∀ n : Nat, numberInt n = Dbl.decDigits n ∧ digitsVal (Dbl.decDigits n) = n ∧
      (∀ c ∈ Dbl.decDigits n, c.isDigit = true) ∧
      numberInt (-((n : Int) + 1)) = '-' :: Dbl.decDigits (n + 1)) ∧
    (∀ s : QString, rightJustified s 5 ' ' = List.replicate (5 - s.length) ' ' ++ s) ∧
    CulParser.formatParam g (Dbl.ofNat 380) 8 = some " 380.".toList ∧
    (∀ (i : Nat) (fmt : CulFmt), CUL_FMTS[i]? = some fmt → i ≠ 8 →
      CulParser.formatParam g v i = some (rightJustified (v.toFixed fmt.decimals) 5 ' ')) ∧
    (∀ (i d : Nat), ECO_FMTS[i]? = some d →
      EcoParser.formatParam g v i = rightJustified (v.toFixed d) 5 ' ') := by
  have h8 : ∀ w : Dbl, ∀ r, qRound w = some r →
      CulParser.formatParam g w 8 = some (rightJustified (numberInt r ++ ['.']) 5 ' ') := by
    intro w r hr
    have := cul_formatParam_at g w 8 ⟨0, true⟩ rfl
    simp only [if_true] at this
    have h' : CulParser.formatParam g w ((8 : Nat) : Int) = CulParser.formatParam g w 8 := rfl
    rw [← h', this, hr]
    rfl
  refine ⟨by decide, by decide, h8 v, qRound_close, ?_, fun s => rfl, ?_, ?_, ?_⟩
  · intro n
    refine ⟨rfl, digitsVal_decDigits n, fun c hc => (decDigits_mem n c hc).isDigit, ?_⟩
    have : -((n : Int) + 1) = Int.negSucc n := by
      rw [Int.negSucc_eq]
    rw [this]
    rfl
  · rw [h8 (Dbl.ofNat 380) 380 (by decide)]
    decide
  · intro i fmt hfmt hi
    rw [cul_formatParam_at g v i fmt hfmt]
    have hdot : fmt.trailingDot = false := by
      have hlt : i < 18 := by
        have := (List.getElem?_eq_some.mp hfmt).1
        simpa [CUL_FMTS] using this
      have hall : ∀ j, j < 18 → j ≠ 8 → (CUL_FMTS.getD j ⟨0, false⟩).trailingDot = false := by
        decide
      have := hall i hlt hi
      rw [List.getD_eq_getElem?_getD, hfmt] at this
      exact this
    rw [hdot]
    rfl
  · intro i d hd
    rw [eco_formatParam_at g v i d hd]
    rfl

/-! ## The fixed fields of a formatted row -/

theorem mid_of_split (L pre x post : List Char) (n k : Nat) (hL : L = pre ++ (x ++ post))
    (hn : pre.length = n) (hk : x.length = k) : mid L n k = x := by
  unfold mid
  rw [hL, List.drop_left' hn, List.take_left' hk]

theorem midFrom_of_split (L pre post : List Char) (n : Nat) (hL : L = pre ++ post)
    (hn : pre.length = n) : midFrom L n = post := by
  unfold midFrom
  rw [hL, List.drop_left' hn]

theorem leftJustified_fit (s : QString) (w : Nat) (h : s.length ≤ w) :
    (leftJustified s w ' ').length = w := by
  rw [length_leftJustified]
  omega

theorem rightJustified_fit (s : QString) (w : Nat) (h : s.length ≤ w) :
    (rightJustified s w ' ').length = w := by
  rw [length_rightJustified]
  omega

set_option maxRecDepth 100000 in
/-- C21 (counterexample): a cultivar row with the 7-character identifier
`IB00011` is written with the whole identifier in columns [0,7); the name
starts at column 8 and the first numeric field at column 38. An ecotype row
with the 7-character identifier `SB06021` is written likewise, the first
numeric field starting at column 30. -/
theorem C21_long_identifier_not_truncated :
    (CulParser.formatRow sampleG { sampleRow with varNum := "IB00011".toList }).map
        (fun l => l.take 43) =
      some "IB00011 SOME CULTIVAR.       . IB0001 15.00".toList ∧
    (EcoParser.formatRow sampleG { sampleEco with ecoNum := "SB06021".toList }).take 35 =
      "SB06021 MATURITY GROUP 606 02 1.000".toList := by
  decide

/-- C21 (amended): for a row whose text fields are not longer than their
widths (cultivar: identifier 6, name 13, experiment code 1, cross-reference
code 6; ecotype: identifier 6, name 16, the two codes 2), `formatRow` pads each
field with spaces to its width. In a cultivar line the identifier occupies
columns [0,6), the name [7,20), the experiment code column 20, the text
`       . ` columns [21,30), the cross-reference code [30,36), and the first
numeric field starts at column 37; in an ecotype line the identifier occupies
[0,6), the name [7,23), the codes [23,25) and [26,28), and the first numeric
field starts at column 29; columns 6 and 36 (cultivar) and 6, 25 and 28
(ecotype) hold a space. -/
theorem C21_layout_amended (g : Dbl → Nat → QString) (row : CulRow) (line : QString)
    (erow : EcoRow) (hline : CulParser.formatRow g row = some line)
    (h1 : row.varNum.length ≤ 6) (h2 : row.vrName.length ≤ 13) (h3 : row.expNo.length ≤ 1)
    (h4 : row.ecoNum.length ≤ 6) (e1 : erow.ecoNum.length ≤ 6)
    (e2 : erow.ecoName.length ≤ 16) (e3 : erow.mg.length ≤ 2) (e4 : erow.tm.length ≤ 2) :
    (mid line 0 6 = row.varNum ++ List.replicate (6 - row.varNum.length) ' ' ∧
     mid line 6 1 = [' '] ∧
     mid line 7 13 = row.vrName ++ List.replicate (13 - row.vrName.length) ' ' ∧
     mid line 20 1 = List.replicate (1 - row.expNo.length) ' ' ++ row.expNo ∧
     mid line 21 9 = "       . ".toList ∧
     mid line 30 6 = row.ecoNum ++ List.replicate (6 - row.ecoNum.length) ' ' ∧
     mid line 36 1 = [' '] ∧
     ∃ f rest, CulParser.formatParam g (row.params.getD 0 Dbl.zero) 0 = some f ∧
       midFrom line 37 = f ++ rest) ∧
    (mid (EcoParser.formatRow g erow) 0 6 =
       erow.ecoNum ++ List.replicate (6 - erow.ecoNum.length) ' ' ∧
     mid (EcoParser.formatRow g erow) 6 1 = [' '] ∧
     mid (EcoParser.formatRow g erow) 7 16 =
       erow.ecoName ++ List.replicate (16 - erow.ecoName.length) ' ' ∧
     mid (EcoParser.formatRow g erow) 23 2 = erow.mg ++ List.replicate (2 - erow.mg.length) ' ' ∧
     mid (EcoParser.formatRow g erow) 25 1 = [' '] ∧
     mid (EcoParser.formatRow g erow) 26 2 = erow.tm ++ List.replicate (2 - erow.tm.length) ' ' ∧
     mid (EcoParser.formatRow g erow) 28 1 = [' '] ∧
     ∃ rest, midFrom (EcoParser.formatRow g erow) 29 =
       EcoParser.formatParam g (erow.params.getD 0 Dbl.zero) 0 ++ rest) := by
  constructor
  · unfold CulParser.formatRow at hline
    obtain ⟨ps, hps, hl⟩ := Option.map_eq_some'.mp hline
    have hA := leftJustified_fit row.varNum 6 h1
    have hB := leftJustified_fit row.vrName 13 h2
    have hC := rightJustified_fit row.expNo 1 h3
    have hE := leftJustified_fit row.ecoNum 6 h4
    have hD : ("       . ".toList).length = 9 := rfl
    have hA' : leftJustified row.varNum 6 ' ' =
        row.varNum ++ List.replicate (6 - row.varNum.length) ' ' := rfl
    have hB' : leftJustified row.vrName 13 ' ' =
        row.vrName ++ List.replicate (13 - row.vrName.length) ' ' := rfl
    have hC' : rightJustified row.expNo 1 ' ' =
        List.replicate (1 - row.expNo.length) ' ' ++ row.expNo := rfl
    have hE' : leftJustified row.ecoNum 6 ' ' =
        row.ecoNum ++ List.replicate (6 - row.ecoNum.length) ' ' := rfl
    rw [← hA', ← hB', ← hC', ← hE']
    generalize leftJustified row.varNum 6 ' ' = A at hl hA
    generalize leftJustified row.vrName 13 ' ' = B at hl hB
    generalize rightJustified row.expNo 1 ' ' = C at hl hC
    generalize leftJustified row.ecoNum 6 ' ' = E at hl hE
    generalize "       . ".toList = D at hl hD
    refine ⟨?_, ?_, ?_, ?_, ?_, ?_, ?_, ?_⟩
    · exact mid_of_split line ([]) (A) ([' '] ++ (B ++ (C ++ (D ++ (E ++ ([' '] ++ (ps))))))) 0 6
        (by rw [← hl]; simp only [List.append_assoc, List.nil_append, List.cons_append]) rfl hA
    · exact mid_of_split line (A) ([' ']) (B ++ (C ++ (D ++ (E ++ ([' '] ++ (ps)))))) 6 1
        (by rw [← hl]; simp only [List.append_assoc, List.nil_append, List.cons_append]) (by simp [hA]) rfl
    · exact mid_of_split line (A ++ [' ']) (B) (C ++ (D ++ (E ++ ([' '] ++ (ps))))) 7 13
        (by rw [← hl]; simp only [List.append_assoc, List.nil_append, List.cons_append]) (by simp [hA]) hB
    · exact mid_of_split line (A ++ [' '] ++ B) (C) (D ++ (E ++ ([' '] ++ (ps)))) 20 1
        (by rw [← hl]; simp only [List.append_assoc, List.nil_append, List.cons_append]) (by simp [hA, hB]) hC
    · exact mid_of_split line (A ++ [' '] ++ B ++ C) (D) (E ++ ([' '] ++ (ps))) 21 9
        (by rw [← hl]; simp only [List.append_assoc, List.nil_append, List.cons_append]) (by simp [hA, hB, hC]) hD
    · exact mid_of_split line (A ++ [' '] ++ B ++ C ++ D) (E) ([' '] ++ (ps)) 30 6
        (by rw [← hl]; simp only [List.append_assoc, List.nil_append, List.cons_append]) (by simp [hA, hB, hC, hD]) hE
    · exact mid_of_split line (A ++ [' '] ++ B ++ C ++ D ++ E) ([' ']) (ps) 36 1
        (by rw [← hl]; simp only [List.append_assoc, List.nil_append, List.cons_append]) (by simp [hA, hB, hC, hD, hE]) rfl
    · unfold CulParser.formatParams at hps
      cases hf : CulParser.formatParam g (row.params.getD 0 Dbl.zero) 0 with
      | none =>
        have hf' : CulParser.formatParam g (row.params.getD 0 Dbl.zero) ((0 : Nat) : Int) = none :=
          hf
        rw [hf'] at hps
        cases hps
      | some f =>
        have hf' : CulParser.formatParam g (row.params.getD 0 Dbl.zero) ((0 : Nat) : Int) =
            some f := hf
        rw [hf'] at hps
        cases ht : CulParser.formatParams g row.params (0 + 1) 17 with
        | none =>
          rw [ht] at hps
          cases hps
        | some tail =>
          rw [ht] at hps
          simp only [Option.some.injEq] at hps
          refine ⟨f, [' '] ++ tail, rfl, ?_⟩
          rw [← hps] at hl
          exact midFrom_of_split line (A ++ [' '] ++ B ++ C ++ D ++ E ++ [' '])
            (f ++ ([' '] ++ tail)) 37
            (by rw [← hl]; simp) (by simp [hA, hB, hC, hD, hE])
  · have hA := leftJustified_fit erow.ecoNum 6 e1
    have hB := leftJustified_fit erow.ecoName 16 e2
    have hC := leftJustified_fit erow.mg 2 e3
    have hE := leftJustified_fit erow.tm 2 e4
    have hA' : leftJustified erow.ecoNum 6 ' ' =
        erow.ecoNum ++ List.replicate (6 - erow.ecoNum.length) ' ' := rfl
    have hB' : leftJustified erow.ecoName 16 ' ' =
        erow.ecoName ++ List.replicate (16 - erow.ecoName.length) ' ' := rfl
    have hC' : leftJustified erow.mg 2 ' ' =
        erow.mg ++ List.replicate (2 - erow.mg.length) ' ' := rfl
    have hE' : leftJustified erow.tm 2 ' ' =
        erow.tm ++ List.replicate (2 - erow.tm.length) ' ' := rfl
    rw [← hA', ← hB', ← hC', ← hE']
    have hl : EcoParser.formatRow g erow =
        leftJustified erow.ecoNum 6 ' ' ++ [' '] ++ leftJustified erow.ecoName 16 ' '
          ++ leftJustified erow.mg 2 ' ' ++ [' '] ++ leftJustified erow.tm 2 ' ' ++ [' ']
          ++ (EcoParser.formatParam g (erow.params.getD 0 Dbl.zero) 0 ++ ([' '] ++
            EcoParser.formatParams g erow.params 1 15)) := by
      unfold EcoParser.formatRow
      conv_lhs => unfold EcoParser.formatParams
      simp
    generalize EcoParser.formatRow g erow = line at hl
    generalize leftJustified erow.ecoNum 6 ' ' = A at hl hA
    generalize leftJustified erow.ecoName 16 ' ' = B at hl hB
    generalize leftJustified erow.mg 2 ' ' = C at hl hC
    generalize leftJustified erow.tm 2 ' ' = E at hl hE
    refine ⟨?_, ?_, ?_, ?_, ?_, ?_, ?_, ?_⟩
    · exact mid_of_split line ([]) (A) ([' '] ++ (B ++ (C ++ ([' '] ++ (E ++ ([' '] ++ ((EcoParser.formatParam g (erow.params.getD 0 Dbl.zero) 0 ++ ([' '] ++ EcoParser.formatParams g erow.params 1 15))))))))) 0 6
        (by rw [hl]; simp only [List.append_assoc, List.nil_append, List.cons_append]) rfl hA
    · exact mid_of_split line (A) ([' ']) (B ++ (C ++ ([' '] ++ (E ++ ([' '] ++ ((EcoParser.formatParam g (erow.params.getD 0 Dbl.zero) 0 ++ ([' '] ++ EcoParser.formatParams g erow.params 1 15)))))))) 6 1
        (by rw [hl]; simp only [List.append_assoc, List.nil_append, List.cons_append]) (by simp [hA]) rfl
    · exact mid_of_split line (A ++ [' ']) (B) (C ++ ([' '] ++ (E ++ ([' '] ++ ((EcoParser.formatParam g (erow.params.getD 0 Dbl.zero) 0 ++ ([' '] ++ EcoParser.formatParams g erow.params 1 15))))))) 7 16
        (by rw [hl]; simp only [List.append_assoc, List.nil_append, List.cons_append]) (by simp [hA]) hB
    · exact mid_of_split line (A ++ [' '] ++ B) (C) ([' '] ++ (E ++ ([' '] ++ ((EcoParser.formatParam g (erow.params.getD 0 Dbl.zero) 0 ++ ([' '] ++ EcoParser.formatParams g erow.params 1 15)))))) 23 2
        (by rw [hl]; simp only [List.append_assoc, List.nil_append, List.cons_append]) (by simp [hA, hB]) hC
    · exact mid_of_split line (A ++ [' '] ++ B ++ C) ([' ']) (E ++ ([' '] ++ ((EcoParser.formatParam g (erow.params.getD 0 Dbl.zero) 0 ++ ([' '] ++ EcoParser.formatParams g erow.params 1 15))))) 25 1
        (by rw [hl]; simp only [List.append_assoc, List.nil_append, List.cons_append]) (by simp [hA, hB, hC]) rfl
    · exact mid_of_split line (A ++ [' '] ++ B ++ C ++ [' ']) (E) ([' '] ++ ((EcoParser.formatParam g (erow.params.getD 0 Dbl.zero) 0 ++ ([' '] ++ EcoParser.formatParams g erow.params 1 15)))) 26 2
        (by rw [hl]; simp only [List.append_assoc, List.nil_append, List.cons_append]) (by simp [hA, hB, hC]) hE
    · exact mid_of_split line (A ++ [' '] ++ B ++ C ++ [' '] ++ E) ([' ']) ((EcoParser.formatParam g (erow.params.getD 0 Dbl.zero) 0 ++ ([' '] ++ EcoParser.formatParams g erow.params 1 15))) 28 1
        (by rw [hl]; simp only [List.append_assoc, List.nil_append, List.cons_append]) (by simp [hA, hB, hC, hE]) rfl
    · exact ⟨_, midFrom_of_split line (A ++ [' '] ++ B ++ C ++ [' '] ++ E ++ [' ']) _ 29
        (by rw [hl]) (by simp [hA, hB, hC, hE])⟩

set_option maxRecDepth 100000 in
/-- Witness of C21 (amended): in the line of the sample cultivar row the
cross-reference code occupies columns [30,36), and in the line of the sample
ecotype row the name occupies columns [7,23). -/
theorem C21_layout_amended_witness :
    mid ("IB0001 SOME CULTIVAR.       . IB0001 15.00 0.000   0.0   0.0   0.0   0.0   0.0 0.000" ++
      "    0.   0.0 0.000 0.000   0.0  0.00   0.0   0.0 0.000 0.000").toList 30 6 =
      sampleRow.ecoNum ++ List.replicate (6 - sampleRow.ecoNum.length) ' ' ∧
    mid (EcoParser.formatRow sampleG sampleEco) 7 16 =
      sampleEco.ecoName ++ List.replicate (16 - sampleEco.ecoName.length) ' ' :=
  have h := C21_layout_amended sampleG sampleRow
    ("IB0001 SOME CULTIVAR.       . IB0001 15.00 0.000   0.0   0.0   0.0   0.0   0.0 0.000" ++
      "    0.   0.0 0.000 0.000   0.0  0.00   0.0   0.0 0.000 0.000").toList sampleEco
    (by decide) (by decide) (by decide) (by decide) (by decide) (by decide) (by decide)
    (by decide) (by decide)
  ⟨h.1.2.2.2.2.2.1, h.2.2.2.1⟩

/-! ## The bounds of setRows -/

namespace CulTableModel

theorem boundsStep_eq (acc : List Dbl × List Dbl) (r : CulRow) :
    boundsStep acc r = (if r.varNum = ID_MIN then r.params else acc.1,
      if r.varNum = ID_MAX then r.params else acc.2) := by
  unfold boundsStep
  by_cases h1 : r.varNum = ID_MIN
  · have h2 : r.varNum ≠ ID_MAX := by
      rw [h1]
      decide
    simp only [h1, if_true]
    rw [if_neg (by rw [← h1]; exact h2), if_neg (by rw [← h1]; exact h2)]
  · by_cases h2 : r.varNum = ID_MAX
    · have h3 : ID_MAX ≠ ID_MIN := by decide
      simp only [h2, h3, if_true, if_false]
    · simp only [h1, h2, if_false]

theorem foldl_boundsStep_last_min (pre post : List CulRow) (r : CulRow)
    (acc : List Dbl × List Dbl) (hr : r.varNum = ID_MIN)
    (hpost : ∀ x ∈ post, x.varNum ≠ ID_MIN) :
    ((pre ++ r :: post).foldl boundsStep acc).1 = r.params := by
  rw [List.foldl_append, List.foldl_cons, foldl_boundsStep_fst post _ hpost, boundsStep_eq,
    if_pos hr]

theorem foldl_boundsStep_last_max (pre post : List CulRow) (r : CulRow)
    (acc : List Dbl × List Dbl) (hr : r.varNum = ID_MAX)
    (hpost : ∀ x ∈ post, x.varNum ≠ ID_MAX) :
    ((pre ++ r :: post).foldl boundsStep acc).2 = r.params := by
  rw [List.foldl_append, List.foldl_cons, foldl_boundsStep_snd post _ hpost, boundsStep_eq,
    if_pos hr]

theorem foldl_boundsStep_none (rows : List CulRow) (hmin : ∀ x ∈ rows, x.varNum ≠ ID_MIN)
    (hmax : ∀ x ∈ rows, x.varNum ≠ ID_MAX) :
    rows.foldl boundsStep ([], []) = ([], []) := by
  have h1 := foldl_boundsStep_fst rows ([], []) hmin
  have h2 := foldl_boundsStep_snd rows ([], []) hmax
  exact Prod.ext h1 h2

theorem foldl_boundsStep_fst_congr (rows : List CulRow) (acc acc' : List Dbl × List Dbl)
    (h : acc.1 = acc'.1) : (rows.foldl boundsStep acc).1 = (rows.foldl boundsStep acc').1 := by
  induction rows generalizing acc acc' with
  | nil => exact h
  | cons r rs ih =>
    apply ih
    rw [boundsStep_eq, boundsStep_eq, h]

theorem foldl_boundsStep_snd_congr (rows : List CulRow) (acc acc' : List Dbl × List Dbl)
    (h : acc.2 = acc'.2) : (rows.foldl boundsStep acc).2 = (rows.foldl boundsStep acc').2 := by
  induction rows generalizing acc acc' with
  | nil => exact h
  | cons r rs ih =>
    apply ih
    rw [boundsStep_eq, boundsStep_eq, h]

/-- Replacing a row by a row with the same identifier leaves the bound that
rows of that identifier do not set unchanged. -/
theorem foldl_boundsStep_replace (p1 rest : List CulRow) (x x' : CulRow)
    (hid : x'.varNum = x.varNum) (acc : List Dbl × List Dbl) :
    (x.varNum ≠ ID_MIN →
      ((p1 ++ x' :: rest).foldl boundsStep acc).1 = ((p1 ++ x :: rest).foldl boundsStep acc).1) ∧
    (x.varNum ≠ ID_MAX →
      ((p1 ++ x' :: rest).foldl boundsStep acc).2 =
        ((p1 ++ x :: rest).foldl boundsStep acc).2) := by
  simp only [List.foldl_append, List.foldl_cons]
  constructor
  · intro h
    apply foldl_boundsStep_fst_congr
    rw [boundsStep_eq, boundsStep_eq, hid, if_neg h, if_neg h]
  · intro h
    apply foldl_boundsStep_snd_congr
    rw [boundsStep_eq, boundsStep_eq, hid, if_neg h, if_neg h]

theorem violationReport_congr (a b : CulTableModel) (hmin : a.m_minParams = b.m_minParams)
    (hmax : a.m_maxParams = b.m_maxParams) (hlen : a.m_rows.length = b.m_rows.length)
    (hrows : ∀ (i : Nat) (ra rb : CulRow), a.m_rows[i]? = some ra → b.m_rows[i]? = some rb →
      ra = rb ∨ (ra.isMinMax = true ∧ rb.isMinMax = true)) :
    a.violationReport = b.violationReport := by
  unfold violationReport
  rw [hlen]
  apply List.flatMap_congr
  intro r hr
  have hrb : r < b.m_rows.length := List.mem_range.mp hr
  have hra : r < a.m_rows.length := by omega
  apply List.filterMap_congr
  intro p _
  have ha : a.m_rows[r]? = some a.m_rows[r] := List.getElem?_eq_getElem hra
  have hb : b.m_rows[r]? = some b.m_rows[r] := List.getElem?_eq_getElem hrb
  rw [violationAt_of_row a r _ ha, violationAt_of_row b r _ hb]
  rcases hrows r _ _ ha hb with h | ⟨h1, h2⟩
  · rw [h]
    unfold isOutOfRange
    rw [hmin, hmax]
  · simp [h1, h2]

theorem violationAt_row (a : CulTableModel) (r p : Nat) (v : Violation)
    (h : a.violationAt r p = some v) : v.row = r := by
  unfold violationAt at h
  split at h
  · cases h
  · split at h
    · split at h
      · cases h
        rfl
      · cases h
    · cases h

theorem violationReport_filter_congr (a b : CulTableModel) (k : Nat)
    (hmin : a.m_minParams = b.m_minParams) (hmax : a.m_maxParams = b.m_maxParams)
    (hlen : a.m_rows.length = b.m_rows.length)
    (hrows : ∀ i : Nat, i ≠ k → a.m_rows[i]? = b.m_rows[i]?) :
    a.violationReport.filter (fun v => v.row != k) =
      b.violationReport.filter (fun v => v.row != k) := by
  unfold violationReport
  rw [hlen, List.filter_flatMap, List.filter_flatMap]
  apply List.flatMap_congr
  intro r _
  by_cases hr : r = k
  · have hnil : ∀ c : CulTableModel,
        List.filter (fun v => v.row != k) ((List.range 18).filterMap (c.violationAt r)) = [] := by
      intro c
      rw [List.filter_eq_nil_iff]
      intro v hv
      obtain ⟨p, _, hp⟩ := List.mem_filterMap.mp hv
      have := violationAt_row c r p v hp
      simp [this, hr]
    rw [hnil a, hnil b]
  · congr 1
    apply List.filterMap_congr
    intro p _
    unfold violationAt
    rw [hrows r hr, hmin, hmax]

end CulTableModel

/-- C30: after `setRows(rows)` the minimum bounds are the parameters of the
last row of `rows` whose identifier is 999991 and the maximum bounds those of
the last row whose identifier is 999992 (no bounds where there is no such row).
An earlier row with the same reserved identifier has no effect: with any other
row of that identifier in its place, the bounds are the same and so are the
records of `getViolations` for every other row; where the sentinel flag of the
row is set, as `parse` sets it, the whole report is the same. -/
theorem C30_last_sentinel_wins (self : CulTableModel) (pre p1 p2 post : List CulRow)
    (r x x' : CulRow) (hpost : ∀ y ∈ post, y.varNum ≠ r.varNum)
    (hr : r.varNum = ID_MIN ∨ r.varNum = ID_MAX)
    (hx : x.varNum = r.varNum) (hx' : x'.varNum = r.varNum) :
    (r.varNum = ID_MIN → (self.setRows (pre ++ r :: post)).m_minParams = r.params) ∧
    (r.varNum = ID_MAX → (self.setRows (pre ++ r :: post)).m_maxParams = r.params) ∧
    ((∀ y ∈ pre, y.varNum ≠ ID_MIN) → (self.setRows pre).m_minParams = []) ∧
    ((∀ y ∈ pre, y.varNum ≠ ID_MAX) → (self.setRows pre).m_maxParams = []) ∧
    (self.setRows (p1 ++ x' :: (p2 ++ r :: post))).m_minParams =
      (self.setRows (p1 ++ x :: (p2 ++ r :: post))).m_minParams ∧
    (self.setRows (p1 ++ x' :: (p2 ++ r :: post))).m_maxParams =
      (self.setRows (p1 ++ x :: (p2 ++ r :: post))).m_maxParams ∧
    (self.setRows (p1 ++ x' :: (p2 ++ r :: post))).getViolations.filter
        (fun v => v.row != p1.length) =
      (self.setRows (p1 ++ x :: (p2 ++ r :: post))).getViolations.filter
        (fun v => v.row != p1.length) ∧
    (x.isMinMax = true → x'.isMinMax = true →
      (self.setRows (p1 ++ x' :: (p2 ++ r :: post))).getViolations =
        (self.setRows (p1 ++ x :: (p2 ++ r :: post))).getViolations) := by
  have hmm : ID_MIN ≠ ID_MAX := by decide
  have hA : r.varNum = ID_MIN → ∀ pr : List CulRow,
      ((pr ++ r :: post).foldl CulTableModel.boundsStep ([], [])).1 = r.params :=
    fun h pr => CulTableModel.foldl_boundsStep_last_min pr post r _ h (fun y hy => h ▸ hpost y hy)
  have hB : r.varNum = ID_MAX → ∀ pr : List CulRow,
      ((pr ++ r :: post).foldl CulTableModel.boundsStep ([], [])).2 = r.params :=
    fun h pr => CulTableModel.foldl_boundsStep_last_max pr post r _ h (fun y hy => h ▸ hpost y hy)
  have hrep := CulTableModel.foldl_boundsStep_replace p1 (p2 ++ r :: post) x x'
    (hx'.trans hx.symm) ([], [])
  have e1 : ∀ y : CulRow, p1 ++ y :: (p2 ++ r :: post) = (p1 ++ y :: p2) ++ r :: post := by
    intro y
    simp
  have hmin : ((p1 ++ x' :: (p2 ++ r :: post)).foldl CulTableModel.boundsStep ([], [])).1 =
      ((p1 ++ x :: (p2 ++ r :: post)).foldl CulTableModel.boundsStep ([], [])).1 := by
    rcases hr with h | h
    · rw [e1, e1, hA h, hA h]
    · exact hrep.1 (by rw [hx, h]; exact fun hc => hmm hc.symm)
  have hmax : ((p1 ++ x' :: (p2 ++ r :: post)).foldl CulTableModel.boundsStep ([], [])).2 =
      ((p1 ++ x :: (p2 ++ r :: post)).foldl CulTableModel.boundsStep ([], [])).2 := by
    rcases hr with h | h
    · exact hrep.2 (by rw [hx, h]; exact hmm)
    · rw [e1, e1, hB h, hB h]
  refine ⟨fun h => hA h pre, fun h => hB h pre, ?_, ?_, hmin, hmax, ?_, ?_⟩
  · intro h
    exact CulTableModel.foldl_boundsStep_fst pre _ h
  · intro h
    exact CulTableModel.foldl_boundsStep_snd pre _ h
  · rw [CulTableModel.getViolations_eq_report, CulTableModel.getViolations_eq_report]
    apply CulTableModel.violationReport_filter_congr _ _ _ hmin hmax
    · simp [CulTableModel.setRows]
    · intro i hi
      simp only [CulTableModel.setRows]
      rcases Nat.lt_or_gt_of_ne hi with hlt | hgt
      · rw [List.getElem?_append_left hlt, List.getElem?_append_left hlt]
      · rw [List.getElem?_append_right (by omega), List.getElem?_append_right (by omega)]
        obtain ⟨k, hk⟩ : ∃ k, i - p1.length = k + 1 := ⟨i - p1.length - 1, by omega⟩
        rw [hk, List.getElem?_cons_succ, List.getElem?_cons_succ]
  · intro hf hf'
    rw [CulTableModel.getViolations_eq_report, CulTableModel.getViolations_eq_report]
    apply CulTableModel.violationReport_congr _ _ hmin hmax
    · simp [CulTableModel.setRows]
    · intro i ra rb ha hb
      simp only [CulTableModel.setRows] at ha hb
      by_cases hi : i = p1.length
      · right
        subst hi
        rw [List.getElem?_append_right (Nat.le_refl _), Nat.sub_self] at ha hb
        simp only [List.getElem?_cons_zero, Option.some.injEq] at ha hb
        rw [← ha, ← hb]
        exact ⟨hf', hf⟩
      · left
        rcases Nat.lt_or_gt_of_ne hi with hlt | hgt
        · rw [List.getElem?_append_left hlt] at ha hb
          rw [ha] at hb
          exact Option.some.inj hb
        · rw [List.getElem?_append_right (by omega)] at ha hb
          obtain ⟨k, hk⟩ : ∃ k, i - p1.length = k + 1 := ⟨i - p1.length - 1, by omega⟩
          rw [hk, List.getElem?_cons_succ] at ha hb
          rw [ha] at hb
          exact Option.some.inj hb

set_option maxRecDepth 100000 in
/-- Witness of C30: two minima rows, with 20.0 and with 8.0 at position 0,
followed by the maxima row and the cultivar row; the bounds are those of the
second minima row, and the report is the same with 100.0 in the first. -/
theorem C30_last_sentinel_wins_witness :
    (CulTableModel.setRows {} ([] ++ { sampleMin with
          params := Dbl.ofNat 20 :: List.replicate 17 Dbl.zero } ::
        ([] ++ sampleMin :: [sampleMax, sampleRow]))).m_minParams = sampleMin.params ∧
    (CulTableModel.setRows {} ([] ++ { sampleMin with
          params := Dbl.ofNat 100 :: List.replicate 17 Dbl.zero } ::
        ([] ++ sampleMin :: [sampleMax, sampleRow]))).getViolations =
      (CulTableModel.setRows {} ([] ++ { sampleMin with
          params := Dbl.ofNat 20 :: List.replicate 17 Dbl.zero } ::
        ([] ++ sampleMin :: [sampleMax, sampleRow]))).getViolations :=
  have h := C30_last_sentinel_wins {}
    [{ sampleMin with params := Dbl.ofNat 20 :: List.replicate 17 Dbl.zero }] [] []
    [sampleMax, sampleRow] sampleMin
    { sampleMin with params := Dbl.ofNat 20 :: List.replicate 17 Dbl.zero }
    { sampleMin with params := Dbl.ofNat 100 :: List.replicate 17 Dbl.zero }
    (by decide) (Or.inl rfl) rfl rfl
  ⟨h.1 rfl, h.2.2.2.2.2.2.2 rfl rfl⟩

/-! ## Reading back the text of a number -/

theorem scaledRound_floor (m : Nat) (e : Int) (d : Nat) :
    (Dbl.scaledRound m e d : ℚ) ≤ (m : ℚ) * (2 : ℚ) ^ e * 10 ^ d + 1 / 2 ∧
      (m : ℚ) * (2 : ℚ) ^ e * 10 ^ d + 1 / 2 < (Dbl.scaledRound m e d : ℚ) + 1 := by
  cases e with
  | ofNat k =>
    have : (Dbl.scaledRound m (Int.ofNat k) d : ℚ) = (m : ℚ) * 2 ^ k * 10 ^ d := by
      simp [Dbl.scaledRound]
    rw [this, Int.ofNat_eq_coe, zpow_natCast]
    constructor <;> linarith
  | negSucc k =>
    have hB : (0 : ℚ) < 2 ^ (k + 1) := by positivity
    set N := Dbl.scaledRound m (Int.negSucc k) d with hN
    have hdef : N = (2 * (m * 10 ^ d) + 2 ^ (k + 1)) / (2 * 2 ^ (k + 1)) := rfl
    have hpos : 0 < 2 * 2 ^ (k + 1) := by positivity
    have h1 : 2 * 2 ^ (k + 1) * N ≤ 2 * (m * 10 ^ d) + 2 ^ (k + 1) := by
      rw [hdef]
      exact Nat.mul_div_le _ _
    have h2 : 2 * (m * 10 ^ d) + 2 ^ (k + 1) < 2 * 2 ^ (k + 1) * N + 2 * 2 ^ (k + 1) := by
      rw [hdef]
      have := Nat.lt_mul_div_succ (2 * (m * 10 ^ d) + 2 ^ (k + 1)) hpos
      rw [Nat.mul_add, Nat.mul_one] at this
      exact this
    have h1q : (2 : ℚ) * 2 ^ (k + 1) * N ≤ 2 * (m * 10 ^ d) + 2 ^ (k + 1) := by
      exact_mod_cast h1
    have h2q : (2 : ℚ) * (m * 10 ^ d) + 2 ^ (k + 1) < 2 * 2 ^ (k + 1) * N + 2 * 2 ^ (k + 1) := by
      exact_mod_cast h2
    rw [zpow_negSucc]
    have hX : (m : ℚ) * ((2 : ℚ) ^ (k + 1))⁻¹ * 10 ^ d = (m : ℚ) * 10 ^ d / 2 ^ (k + 1) := by
      field_simp
    rw [hX]
    constructor
    · rw [← sub_le_iff_le_add, le_div_iff₀ hB]
      linarith
    · rw [← lt_sub_iff_add_lt, div_lt_iff₀ hB]
      linarith

theorem scaledRound_unique (m : Nat) (e : Int) (d N : Nat)
    (h1 : (N : ℚ) ≤ (m : ℚ) * (2 : ℚ) ^ e * 10 ^ d + 1 / 2)
    (h2 : (m : ℚ) * (2 : ℚ) ^ e * 10 ^ d + 1 / 2 < (N : ℚ) + 1) :
    Dbl.scaledRound m e d = N := by
  obtain ⟨f1, f2⟩ := scaledRound_floor m e d
  have a1 : (N : ℚ) < (Dbl.scaledRound m e d : ℚ) + 1 := by linarith
  have a2 : (Dbl.scaledRound m e d : ℚ) < (N : ℚ) + 1 := by linarith
  have b1 : N < Dbl.scaledRound m e d + 1 := by exact_mod_cast a1
  have b2 : Dbl.scaledRound m e d < N + 1 := by exact_mod_cast a2
  omega

theorem scaledRound_eq_zero_iff (m : Nat) (e : Int) (d : Nat) :
    Dbl.scaledRound m e d = 0 ↔ (m : ℚ) * (2 : ℚ) ^ e < 1 / (2 * 10 ^ d) := by
  have h10 : (0 : ℚ) < 10 ^ d := by positivity
  obtain ⟨f1, f2⟩ := scaledRound_floor m e d
  have hiff : (m : ℚ) * (2 : ℚ) ^ e < 1 / (2 * 10 ^ d) ↔
      (m : ℚ) * (2 : ℚ) ^ e * 10 ^ d < 1 / 2 := by
    rw [lt_div_iff₀ (by positivity)]
    constructor <;> intro h <;> linarith
  rw [hiff]
  constructor
  · intro h
    rw [h] at f2
    simp only [Nat.cast_zero, zero_add] at f2
    linarith
  · intro h
    apply scaledRound_unique
    · simp only [Nat.cast_zero]
      positivity
    · simp only [Nat.cast_zero, zero_add]
      linarith

theorem roundTiesEven_nearest (num den K : Nat) (hden : 0 < den) :
    |(roundTiesEven num den : ℚ) - (num : ℚ) / den| ≤ |(K : ℚ) - (num : ℚ) / den| := by
  have hc := roundTiesEven_close num den hden
  by_cases hK : K = roundTiesEven num den
  · rw [hK]
  · have h1 : (1 : ℚ) ≤ |(K : ℚ) - (roundTiesEven num den : ℚ)| := by
      rcases Nat.lt_or_gt_of_ne hK with h | h
      · have : (K : ℚ) + 1 ≤ (roundTiesEven num den : ℚ) := by exact_mod_cast h
        rw [abs_sub_comm, abs_of_nonneg (by linarith)]
        linarith
      · have : (roundTiesEven num den : ℚ) + 1 ≤ (K : ℚ) := by exact_mod_cast h
        rw [abs_of_nonneg (by linarith)]
        linarith
    have h2 : |(K : ℚ) - (roundTiesEven num den : ℚ)| ≤
        |(K : ℚ) - (num : ℚ) / den| + |(num : ℚ) / den - (roundTiesEven num den : ℚ)| :=
      abs_sub_le _ _ _
    rw [abs_sub_comm ((num : ℚ) / den)] at h2
    linarith

theorem roundBinary64_nearest (neg : Bool) (p q : Nat) (hq : 0 < q) (s : Bool) (m' : Nat)
    (e' : Int) (h : roundBinary64 neg p q = Dbl.fin s m' e') (mx : Nat) (ex : Int)
    (hmx : mx < 2 ^ 53) (hex : -1074 ≤ ex) :
    |(m' : ℚ) * (2 : ℚ) ^ e' - (p : ℚ) / q| ≤ |(mx : ℚ) * (2 : ℚ) ^ ex - (p : ℚ) / q| := by
  unfold roundBinary64 at h
  by_cases hp : p = 0
  · rw [if_pos hp] at h
    cases h
    subst hp
    simp only [Nat.cast_zero, zero_mul, zero_div, sub_zero, abs_zero]
    exact abs_nonneg _
  · rw [if_neg hp] at h
    simp only at h
    have hppos : 0 < p := Nat.pos_of_ne_zero hp
    obtain ⟨hlow, hnorm⟩ := ulpExp_lower p q hppos hq
    generalize hu : ulpExp p q = u at h hlow hnorm
    have hden : 0 < q * 2 ^ u.toNat := Nat.mul_pos hq (by positivity)
    have hqq : (0 : ℚ) < q := by exact_mod_cast hq
    have htwo : (2 : ℚ) ^ u = (2 : ℚ) ^ u.toNat / (2 : ℚ) ^ (-u).toNat := by
      have : u = (u.toNat : Int) - ((-u).toNat : Int) := by omega
      conv_lhs => rw [this]
      rw [zpow_sub₀ (by norm_num), zpow_natCast, zpow_natCast]
    have hupos : (0 : ℚ) < (2 : ℚ) ^ u := by positivity
    have hratio : ((p * 2 ^ (-u).toNat : Nat) : ℚ) / ((q * 2 ^ u.toNat : Nat) : ℚ) =
        (p : ℚ) / q / (2 : ℚ) ^ u := by
      rw [htwo]
      push_cast
      field_simp
    have hnear := fun K : Nat =>
      roundTiesEven_nearest (p * 2 ^ (-u).toNat) (q * 2 ^ u.toNat) K hden
    generalize hm : roundTiesEven (p * 2 ^ (-u).toNat) (q * 2 ^ u.toNat) = m at h hnear
    simp only [hratio] at hnear
    have hscale : ∀ t : ℚ, |t * (2 : ℚ) ^ u - (p : ℚ) / q| =
        |t - (p : ℚ) / q / (2 : ℚ) ^ u| * (2 : ℚ) ^ u := by
      intro t
      have : t * (2 : ℚ) ^ u - (p : ℚ) / q = (t - (p : ℚ) / q / (2 : ℚ) ^ u) * (2 : ℚ) ^ u := by
        field_simp
        ring
      rw [this, abs_mul, abs_of_pos hupos]
    have hval : (m' : ℚ) * (2 : ℚ) ^ e' = (m : ℚ) * (2 : ℚ) ^ u := by
      by_cases h53 : m = 2 ^ 53
      · rw [if_pos h53] at h
        simp only at h
        split at h
        · cases h
        · simp only [Dbl.fin.injEq] at h
          obtain ⟨-, hm', he'⟩ := h
          rw [← hm', ← he', h53, zpow_add_one₀ (by norm_num)]
          push_cast
          ring
      · rw [if_neg h53] at h
        simp only at h
        split at h
        · cases h
        · simp only [Dbl.fin.injEq] at h
          obtain ⟨-, hm', he'⟩ := h
          rw [← hm', ← he']
    rw [hval]
    have hstep : ∀ K : Nat, |(m : ℚ) * (2 : ℚ) ^ u - (p : ℚ) / q| ≤
        |(K : ℚ) * (2 : ℚ) ^ u - (p : ℚ) / q| := by
      intro K
      rw [hscale, hscale]
      exact mul_le_mul_of_nonneg_right (hnear K) (le_of_lt hupos)
    by_cases hcase : u ≤ ex
    · have hx : (mx : ℚ) * (2 : ℚ) ^ ex = ((mx * 2 ^ (ex - u).toNat : Nat) : ℚ) * (2 : ℚ) ^ u := by
        have : ex = ((ex - u).toNat : Int) + u := by omega
        conv_lhs => rw [this, zpow_add₀ (by norm_num), zpow_natCast]
        push_cast
        ring
      rw [hx]
      exact hstep _
    · have hu1 : -1074 < u := by omega
      have hlowq := hnorm hu1
      have hxlt : (mx : ℚ) * (2 : ℚ) ^ ex < (2 : ℚ) ^ (u + 52) := by
        have h1 : (mx : ℚ) < 2 ^ 53 := by exact_mod_cast hmx
        have h2 : (2 : ℚ) ^ ex ≤ (2 : ℚ) ^ (u - 1) :=
          zpow_le_zpow_right₀ (by norm_num) (by omega)
        have h3 : (0 : ℚ) < (2 : ℚ) ^ ex := by positivity
        have h4 : (2 : ℚ) ^ (u + 52) = 2 ^ 53 * (2 : ℚ) ^ (u - 1) := by
          have : u + 52 = (53 : Int) + (u - 1) := by omega
          rw [this, zpow_add₀ (by norm_num)]
          norm_num
        rw [h4]
        calc (mx : ℚ) * (2 : ℚ) ^ ex < 2 ^ 53 * (2 : ℚ) ^ ex :=
              mul_lt_mul_of_pos_right h1 h3
          _ ≤ 2 ^ 53 * (2 : ℚ) ^ (u - 1) := mul_le_mul_of_nonneg_left h2 (by positivity)
      have hK := hstep (2 ^ 52)
      have h52 : ((2 ^ 52 : Nat) : ℚ) * (2 : ℚ) ^ u = (2 : ℚ) ^ (u + 52) := by
        rw [zpow_add₀ (by norm_num)]
        push_cast
        norm_num
        ring
      rw [h52, abs_sub_comm ((2 : ℚ) ^ (u + 52)),
        abs_of_nonneg (show (0 : ℚ) ≤ (p : ℚ) / q - (2 : ℚ) ^ (u + 52) by linarith)] at hK
      rw [abs_sub_comm ((mx : ℚ) * (2 : ℚ) ^ ex),
        abs_of_nonneg (show (0 : ℚ) ≤ (p : ℚ) / q - (mx : ℚ) * (2 : ℚ) ^ ex by linarith)]
      linarith

theorem toDbl_nearest (n : Numeral) (s : Bool) (m' : Nat) (e' : Int)
    (h : n.toDbl = Dbl.fin s m' e') (mx : Nat) (ex : Int) (hmx : mx < 2 ^ 53)
    (hex : -1074 ≤ ex) :
    |(m' : ℚ) * (2 : ℚ) ^ e' - (n.mant : ℚ) * (10 : ℚ) ^ n.exp| ≤
      |(mx : ℚ) * (2 : ℚ) ^ ex - (n.mant : ℚ) * (10 : ℚ) ^ n.exp| := by
  obtain ⟨p, q, hq, hpq, hv⟩ : ∃ p q : Nat, 0 < q ∧
      (p : ℚ) / q = (n.mant : ℚ) * (10 : ℚ) ^ n.exp ∧
      (if 0 ≤ n.exp then roundBinary64 n.neg (n.mant * 10 ^ n.exp.toNat) 1
        else roundBinary64 n.neg n.mant (10 ^ (-n.exp).toNat)) = roundBinary64 n.neg p q := by
    by_cases he : 0 ≤ n.exp
    · refine ⟨n.mant * 10 ^ n.exp.toNat, 1, Nat.one_pos, ?_, by rw [if_pos he]⟩
      have : n.exp = (n.exp.toNat : Int) := by omega
      conv_rhs => rw [this, zpow_natCast]
      push_cast
      simp
    · refine ⟨n.mant, 10 ^ (-n.exp).toNat, by positivity, ?_, by rw [if_neg he]⟩
      have : n.exp = -((-n.exp).toNat : Int) := by omega
      conv_rhs => rw [this, zpow_neg, zpow_natCast]
      push_cast
      rfl
  unfold Numeral.toDbl at h
  simp only at h
  rw [hv] at h
  cases hr : roundBinary64 n.neg p q with
  | nan => exact absurd hr (roundBinary64_ne_nan _ _ _)
  | inf s1 => rw [hr] at h; cases h
  | fin s1 m1 e1 =>
    have hb := roundBinary64_nearest n.neg p q hq s1 m1 e1 hr mx ex hmx hex
    rw [hr] at h
    rw [hpq] at hb
    cases m1 with
    | zero =>
      simp only at h
      have hz : m' = 0 := by
        split_ifs at h
        · simp only [Dbl.fin.injEq] at h
          exact h.2.1.symm
        · simp only [Dbl.zero, Dbl.fin.injEq] at h
          exact h.2.1.symm
      rw [hz]
      simp only [Nat.cast_zero, zero_mul] at hb ⊢
      exact hb
    | succ k =>
      simp only [Dbl.fin.injEq] at h
      obtain ⟨-, hm', he'⟩ := h
      rw [← hm', ← he']
      exact hb

theorem dyadic_diff_ne (m m' : Nat) (e e' : Int) (d : Nat) (hd : 0 < d) :
    (m' : ℚ) * (2 : ℚ) ^ e' - (m : ℚ) * (2 : ℚ) ^ e ≠ 1 / 10 ^ d := by
  intro h
  obtain ⟨K, hK⟩ : ∃ K : Nat, K = (-e).toNat + (-e').toNat := ⟨_, rfl⟩
  obtain ⟨c, hc⟩ : ∃ c : Nat, (c : Int) = e + K := ⟨(e + K).toNat, by omega⟩
  obtain ⟨c', hc'⟩ : ∃ c' : Nat, (c' : Int) = e' + K := ⟨(e' + K).toNat, by omega⟩
  have he : (2 : ℚ) ^ e = (2 : ℚ) ^ c / (2 : ℚ) ^ K := by
    have : e = (c : Int) - (K : Int) := by omega
    rw [this, zpow_sub₀ (by norm_num), zpow_natCast, zpow_natCast]
  have he' : (2 : ℚ) ^ e' = (2 : ℚ) ^ c' / (2 : ℚ) ^ K := by
    have : e' = (c' : Int) - (K : Int) := by omega
    rw [this, zpow_sub₀ (by norm_num), zpow_natCast, zpow_natCast]
  rw [he, he'] at h
  have hK0 : (0 : ℚ) < (2 : ℚ) ^ K := by positivity
  have h10 : (0 : ℚ) < (10 : ℚ) ^ d := by positivity
  have hq : ((m' : ℚ) * 2 ^ c' - (m : ℚ) * 2 ^ c) * 10 ^ d = 2 ^ K := by
    field_simp at h
    linarith
  have hZ : ((m' : Int) * 2 ^ c' - (m : Int) * 2 ^ c) * 10 ^ d = 2 ^ K := by
    exact_mod_cast hq
  have h5 : (5 : Int) ∣ 2 ^ K := by
    rw [← hZ]
    exact Dvd.dvd.mul_left (dvd_pow (by norm_num) (Nat.pos_iff_ne_zero.mp hd)) _
  have hp : Prime (5 : Int) := Int.prime_iff_natAbs_prime.mpr (by norm_num)
  have := hp.dvd_of_dvd_pow h5
  omega

theorem toFixed_reread (neg : Bool) (m : Nat) (e : Int) (d : Nat) (hd : 0 < d)
    (hv : (Dbl.fin neg m e).isBinary64)
    (hc : ¬ (neg = true ∧ m ≠ 0 ∧ Dbl.scaledRound m e d = 0)) :
    (toDouble (Dbl.toFixed (Dbl.fin neg m e) d)).toFixed d = Dbl.toFixed (Dbl.fin neg m e) d := by
  rw [toDouble_toFixed neg m e d hd]
  obtain ⟨s, m', e', hw⟩ := toDbl_finite ⟨neg && m != 0, Dbl.scaledRound m e d, -(d : Int)⟩
    (scaledRound_le m e d hv.1 hv.2.2)
  rw [hw]
  have hs := (toDbl_close _ s m' e' hw).1
  have hopt := toDbl_nearest _ s m' e' hw m e hv.1 hv.2.1
  obtain ⟨f1, f2⟩ := scaledRound_floor m e d
  simp only at hs hopt
  have hT : (0 : ℚ) < (10 : ℚ) ^ d := by positivity
  have ht : ((Dbl.scaledRound m e d : Nat) : ℚ) * (10 : ℚ) ^ (-(d : Int)) =
      (Dbl.scaledRound m e d : ℚ) / 10 ^ d := by
    rw [zpow_neg, zpow_natCast]
    rfl
  rw [ht] at hopt
  generalize hN : Dbl.scaledRound m e d = N at hc hopt f1 f2 hw ht
  have hscale : ∀ x : ℚ, |x - (N : ℚ) / 10 ^ d| * 10 ^ d = |x * 10 ^ d - N| := by
    intro x
    have : x * 10 ^ d - N = (x - (N : ℚ) / 10 ^ d) * 10 ^ d := by
      field_simp
    rw [this, abs_mul, abs_of_pos hT]
  have hopt2 : |(m' : ℚ) * (2 : ℚ) ^ e' * 10 ^ d - N| ≤ |(m : ℚ) * (2 : ℚ) ^ e * 10 ^ d - N| := by
    rw [← hscale, ← hscale]
    exact mul_le_mul_of_nonneg_right hopt (le_of_lt hT)
  have hdy := dyadic_diff_ne m m' e e' d hd
  have hWz : m' = 0 → (m' : ℚ) * (2 : ℚ) ^ e' * 10 ^ d = 0 := by
    intro h0
    rw [h0]
    simp
  have hdiff : (m' : ℚ) * (2 : ℚ) ^ e' * 10 ^ d - (m : ℚ) * (2 : ℚ) ^ e * 10 ^ d ≠ 1 := by
    intro hcon
    apply hdy
    rw [eq_div_iff (ne_of_gt hT)]
    linarith
  generalize hwdef : (m' : ℚ) * (2 : ℚ) ^ e' * 10 ^ d = w at hopt2 hWz hdiff
  generalize (m : ℚ) * (2 : ℚ) ^ e * 10 ^ d = v at hopt2 f1 f2 hdiff
  have hVabs : |v - N| ≤ 1 / 2 := by
    rw [abs_le]
    constructor <;> linarith
  have hWabs : |w - N| ≤ 1 / 2 := le_trans hopt2 hVabs
  obtain ⟨hW1, hW2⟩ := abs_le.mp hWabs
  have hWlt : w - N < 1 / 2 := by
    by_contra hcon
    have hWeq : w - N = 1 / 2 := le_antisymm hW2 (not_lt.mp hcon)
    have hWa : |w - N| = 1 / 2 := by
      rw [hWeq]
      exact abs_of_pos (by norm_num)
    rw [hWa] at hopt2
    have hVeq : v - N = -(1 / 2) := by
      rcases le_or_lt 0 (v - N) with h0 | h0
      · rw [abs_of_nonneg h0] at hopt2
        linarith
      · rw [abs_of_neg h0] at hopt2
        linarith
    exact hdiff (by linarith)
  have hround : Dbl.scaledRound m' e' d = N := by
    apply scaledRound_unique
    · rw [hwdef]
      linarith
    · rw [hwdef]
      linarith
  have hsign : (s && m' != 0) = (neg && m != 0) := by
    by_cases hm' : m' = 0
    · have hN0 : N = 0 := by
        rw [hWz hm'] at hW1
        have h2 : (N : ℚ) * 2 ≤ 1 := by linarith
        have h3 : N * 2 ≤ 1 := by exact_mod_cast h2
        omega
      have : ¬ (neg = true ∧ m ≠ 0) := fun hh => hc ⟨hh.1, hh.2, hN0⟩
      subst hm'
      cases neg <;> simp_all
    · rw [hs hm']
      simp [hm']
  unfold Dbl.toFixed
  simp only
  rw [hsign, hround, hN]

theorem qRound_reread (neg : Bool) (m : Nat) (e : Int) (r : Int)
    (h : qRound (Dbl.fin neg m e) = some r) :
    qRound (toDouble (numberInt r ++ ['.'])) = some r := by
  unfold qRound at h
  simp only at h
  rw [Option.ite_none_right_eq_some] at h
  obtain ⟨hrange, hr⟩ := h
  have hr' := (Option.some.inj hr).symm
  generalize hN : Dbl.scaledRound m e 0 = N at hrange hr'
  have hNle : N ≤ 2 ^ 31 := by
    cases neg
    · simp only [Bool.false_eq_true, if_false] at hrange
      omega
    · simp only [if_true] at hrange
      omega
  rw [hr', toDouble_intDot]
  have hfin : ((⟨neg && N != 0, N, 0⟩ : Numeral).mant : ℚ) *
      (10 : ℚ) ^ (⟨neg && N != 0, N, 0⟩ : Numeral).exp ≤
      ((2 ^ 53 - 1 : Nat) : ℚ) * ((2 ^ 971 : Nat) : ℚ) := by
    simp only [zpow_zero, mul_one]
    have hB : ∀ j : Nat, 1 ≤ 2 ^ j := fun _ => Nat.one_le_two_pow
    have hB1 := hB 971
    have hK : N ≤ 2 ^ 53 - 1 := by omega
    generalize 2 ^ 971 = B at hB1
    generalize 2 ^ 53 - 1 = K at hK
    have h1 : N * 1 ≤ K * B := Nat.mul_le_mul hK hB1
    rw [Nat.mul_one] at h1
    exact_mod_cast h1
  obtain ⟨s, m', e', hw⟩ := toDbl_finite _ hfin
  rw [hw]
  have hs := (toDbl_close _ s m' e' hw).1
  have hopt := toDbl_nearest _ s m' e' hw N 0 (by omega) (by omega)
  simp only [zpow_zero, mul_one, sub_self, abs_zero] at hs hopt
  have hW : (m' : ℚ) * (2 : ℚ) ^ e' = N := by
    have := abs_nonpos_iff.mp hopt
    linarith
  have hround : Dbl.scaledRound m' e' 0 = N := by
    apply scaledRound_unique
    · rw [hW]
      simp
    · rw [hW]
      norm_num
  have hsign : (if s = true then -((N : Nat) : Int) else ((N : Nat) : Int)) =
      (if neg = true then -((N : Nat) : Int) else ((N : Nat) : Int)) := by
    by_cases hN0 : N = 0
    · subst hN0
      simp
    · have hm' : m' ≠ 0 := by
        intro h0
        rw [h0] at hW
        simp only [Nat.cast_zero, zero_mul] at hW
        exact hN0 (by exact_mod_cast hW.symm)
      rw [hs hm']
      simp [hN0]
  unfold qRound
  simp only
  rw [hround, hsign, if_pos hrange]

set_option maxRecDepth 100000 in
/-- C26 (counterexample): the finite value -2^-10 = -0.0009765625 is written
at cultivar position 0 (two decimals) as `-0.00`; the number read from that
text is the zero with the sign bit set, and `formatParam` writes it as ` 0.00`;
the same at ecotype position 4. -/
theorem C26_negative_rounds_to_zero :
    CulParser.formatParam sampleG (Dbl.fin true 1 (-10)) 0 = some "-0.00".toList ∧
    toDouble "-0.00".toList = Dbl.fin true 0 0 ∧
    CulParser.formatParam sampleG (Dbl.fin true 0 0) 0 = some " 0.00".toList ∧
    EcoParser.formatParam sampleG (Dbl.fin true 1 (-10)) 4 = "-0.00".toList ∧
    EcoParser.formatParam sampleG (Dbl.fin true 0 0) 4 = " 0.00".toList := by
  decide

/-- C26 (amended): for every finite binary64 value `v` and every position of
the format table at which `formatParam(v, i)` is defined, formatting the number
read from `formatParam(v, i)` at the same position gives the same text again,
unless the position is a fixed-point one and `v` is negative, not zero and
rounds to zero at the configured decimals (its magnitude is below
0.5 * 10^-d), in which case the text `-0.00...` is read as zero. -/
theorem C26_reformat_amended (g : Dbl → Nat → QString) (neg : Bool) (m : Nat) (e : Int)
    (hv : (Dbl.fin neg m e).isBinary64) :
    (∀ (i : Nat) (fmt : CulFmt) (text : QString), CUL_FMTS[i]? = some fmt →
      CulParser.formatParam g (Dbl.fin neg m e) i = some text →
      ¬ (fmt.trailingDot = false ∧ neg = true ∧ m ≠ 0 ∧
          Dbl.scaledRound m e fmt.decimals = 0) →
      CulParser.formatParam g (toDouble text) i = some text) ∧
    (∀ (i d : Nat), ECO_FMTS[i]? = some d →
      ¬ (neg = true ∧ m ≠ 0 ∧ Dbl.scaledRound m e d = 0) →
      EcoParser.formatParam g (toDouble (EcoParser.formatParam g (Dbl.fin neg m e) i)) i =
        EcoParser.formatParam g (Dbl.fin neg m e) i) ∧
    (∀ d : Nat, Dbl.scaledRound m e d = 0 ↔ (m : ℚ) * (2 : ℚ) ^ e < 1 / (2 * 10 ^ d)) := by
  have hargF : ∀ d : Nat, 0 < d → ¬ (neg = true ∧ m ≠ 0 ∧ Dbl.scaledRound m e d = 0) →
      argF (toDouble (argF (Dbl.fin neg m e) 5 d)) 5 d = argF (Dbl.fin neg m e) 5 d := by
    intro d hd hc
    have h1 : toDouble (argF (Dbl.fin neg m e) 5 d) =
        toDouble (Dbl.toFixed (Dbl.fin neg m e) d) := toDouble_rightJustified _ _
    rw [h1]
    unfold argF
    rw [toFixed_reread neg m e d hd hv hc]
  refine ⟨?_, ?_, scaledRound_eq_zero_iff m e⟩
  · intro i fmt text hfmt htext hc
    rw [cul_formatParam_at g _ i fmt hfmt] at htext
    rw [cul_formatParam_at g _ i fmt hfmt]
    rcases cul_fmt_facts fmt (List.getElem?_mem hfmt) with ⟨hdot, hdec⟩ | ⟨hdot, hdec⟩
    · rw [hdot, if_pos rfl] at htext
      rw [hdot, if_pos rfl]
      obtain ⟨r, hr, rfl⟩ := Option.map_eq_some'.mp htext
      rw [toDouble_rightJustified, qRound_reread neg m e r hr]
      rfl
    · rw [hdot] at htext
      simp only [Bool.false_eq_true, if_false, Option.some.injEq] at htext
      rw [hdot]
      simp only [Bool.false_eq_true, if_false, Option.some.injEq]
      rw [← htext]
      exact hargF _ hdec (fun hh => hc ⟨hdot, hh⟩)
  · intro i d hd hc
    rw [eco_formatParam_at g _ i d hd, eco_formatParam_at g _ i d hd]
    exact hargF d (eco_fmt_facts d (List.getElem?_mem hd)) hc

set_option maxRecDepth 100000 in
/-- Witness of C26 (amended): 0.125 at cultivar position 0 is written ` 0.13`,
and the number read from ` 0.13` is written ` 0.13` again. -/
theorem C26_reformat_amended_witness :
    (Dbl.fin false 1 (-3)).isBinary64 ∧
    CulParser.formatParam sampleG (Dbl.fin false 1 (-3)) 0 = some " 0.13".toList ∧
    CulParser.formatParam sampleG (toDouble " 0.13".toList) 0 = some " 0.13".toList :=
  have hv : (Dbl.fin false 1 (-3)).isBinary64 := ⟨by decide, by decide, by decide⟩
  ⟨hv, by decide, (C26_reformat_amended sampleG false 1 (-3) hv).1 0 ⟨2, false⟩
    " 0.13".toList (by decide) (by decide) (by decide)⟩

/-! ## parseLine and the loop of parse -/

theorem readLinesAux_noLF (t : List Char) (cur : QString) (h : '\n' ∉ t) :
    readLinesAux t cur = if (cur ++ t).isEmpty then [] else [cur ++ t] := by
  induction t generalizing cur with
  | nil => simp [readLinesAux]
  | cons c cs ih =>
    have hc : c ≠ '\n' := fun e => h (e ▸ List.mem_cons_self _ _)
    have hcs : '\n' ∉ cs := fun e => h (List.mem_cons_of_mem _ e)
    rw [readLinesAux, if_neg hc, ih _ hcs]
    simp

theorem readLines_noLF (t : List Char) (hn : '\n' ∉ t) (hr : '\r' ∉ t) :
    readLines t = if t.isEmpty then [] else [t] := by
  unfold readLines
  rw [textModeRead_noCR t hr, readLinesAux_noLF t [] hn]
  simp

theorem cul_parseLine_ne_iff (rawLine : QString) :
    (CulParser.parseLine rawLine).varNum ≠ [] ↔
      isHeaderLine (trimmed rawLine) = false ∧
        ∃ row, CulParser.parseDataLine (trimmed rawLine) = some row := by
  constructor
  · intro h
    refine ⟨?_, _, cul_parseLine_of_ne rawLine h⟩
    unfold CulParser.parseLine at h
    simp only at h
    by_cases h1 : ((trimmed rawLine).isEmpty || isHeaderMark ((trimmed rawLine).headD ' ')) = true
    · rw [if_pos h1] at h
      exact absurd rfl h
    · simpa [isHeaderLine] using h1
  · rintro ⟨hh, row, hrow⟩
    obtain ⟨h36, h2⟩ := cul_parseDataLine_cond _ _ hrow
    have h1 : ¬ ((trimmed rawLine).isEmpty || isHeaderMark ((trimmed rawLine).headD ' ')) = true := by
      unfold isHeaderLine at hh
      rw [hh]
      decide
    have h2' : ¬ (trimmed rawLine).length < 36 := by omega
    have h3 : ¬ (splitWs (midFrom (trimmed rawLine) 20)).isEmpty = true := by
      rw [List.isEmpty_iff]
      intro e
      unfold midFrom at e
      rw [e] at h2
      simp at h2
    have h4 : ¬ (splitWs (midFrom (trimmed rawLine) 20)).length < 2 := by
      unfold midFrom
      omega
    unfold CulParser.parseLine
    simp only [if_neg h1, if_neg h2', if_neg h3, if_neg h4]
    cases ht : trimmed rawLine with
    | nil => rw [ht] at h36; simp at h36
    | cons c rest =>
      obtain ⟨hc, -⟩ := trimmed_head_not_space rawLine c rest ht
      have : left (c :: rest) 6 = c :: rest.take 5 := left_eq_take (c :: rest) 6
      rw [this]
      exact trimmed_ne_nil_of_head c _ hc

theorem cul_rows_of_lines (text : List Char) (t : QString) (h : readLines text = [t])
    (hr : '\r' ∉ t) :
    (CulParser.parse (some text)).rows =
      if isHeaderLine t then [] else (CulParser.parseDataLine t).toList := by
  rw [cul_parse_eq, h]
  simp only [List.map_cons, List.map_nil, chopCR_eq_self t hr]
  by_cases hh : isHeaderLine t = true
  · simp [hh]
  · simp only [hh]
    cases hp : CulParser.parseDataLine t <;> simp [hh, hp]

theorem cul_parseLine_single (rawLine : QString) (text : List Char)
    (h : readLines text = [trimmed rawLine]) (hr : '\r' ∉ trimmed rawLine) :
    ((CulParser.parseLine rawLine).varNum ≠ [] ↔
        (CulParser.parse (some text)).rows.length = 1) ∧
      ((CulParser.parseLine rawLine).varNum ≠ [] →
        (CulParser.parse (some text)).rows = [CulParser.parseLine rawLine]) := by
  rw [cul_rows_of_lines text _ h hr, cul_parseLine_ne_iff]
  constructor
  · constructor
    · rintro ⟨hh, row, hrow⟩
      simp [hh, hrow]
    · intro hl
      by_cases hh : isHeaderLine (trimmed rawLine) = true
      · simp [hh] at hl
      · cases hp : CulParser.parseDataLine (trimmed rawLine) with
        | none => simp [hh, hp] at hl
        | some row => exact ⟨by simpa using hh, row, rfl⟩
  · rintro ⟨hh, row, hrow⟩
    have hne := (cul_parseLine_ne_iff rawLine).mpr ⟨hh, row, hrow⟩
    rw [cul_parseLine_of_ne rawLine hne]
    simp [hh]

set_option maxRecDepth 100000 in
/-- C31 (counterexample): for the line `IB0001 SOME CULTIVAR. IB0001 1.0`
followed by four spaces (36 characters), `parse` of the one-line file returns
one data row while `parseLine` returns an empty identifier; for the same text
and `2.0` after two leading spaces both accept the line and the rows differ; a
line of the same shape that begins with a space and `*` is a data row of
`parse` and a failure of `parseLine`. -/
theorem C31_parseLine_disagrees_with_parse :
    ((CulParser.parse (some (emitLines
        ["IB0001 SOME CULTIVAR. IB0001 1.0    ".toList]))).rows.length = 1 ∧
      (CulParser.parseLine "IB0001 SOME CULTIVAR. IB0001 1.0    ".toList).varNum = []) ∧
    ((CulParser.parse (some (emitLines
        ["  IB0001 SOME CULTIVAR. IB0001 1.0 2.0".toList]))).rows.map
          (fun r => (r.varNum, r.vrName)) = [("IB00".toList, "1 SOME CULTIV".toList)] ∧
      ((CulParser.parseLine "  IB0001 SOME CULTIVAR. IB0001 1.0 2.0".toList).varNum,
        (CulParser.parseLine "  IB0001 SOME CULTIVAR. IB0001 1.0 2.0".toList).vrName) =
          ("IB0001".toList, "SOME CULTIVAR".toList)) ∧
    ((CulParser.parse (some (emitLines
        [" *B0001 SOME CULTIVAR. IB0001 1.0 2.0".toList]))).rows.length = 1 ∧
      (CulParser.parseLine " *B0001 SOME CULTIVAR. IB0001 1.0 2.0".toList).varNum = []) := by
  refine ⟨⟨by decide, by decide⟩, ⟨by decide, by decide⟩, ⟨by decide, by decide⟩⟩

/-- C31 (amended): for every line, `parseLine` agrees with `parse` applied to
the file that consists of the trimmed line (with no terminator, or ended by a
line feed, or by a carriage return and a line feed), provided the trimmed line
contains no line feed and no carriage return: the identifier `parseLine`
returns is non-empty exactly when `parse` returns one data row, and then that
row is the row of `parseLine`. -/
theorem C31_parseLine_amended (rawLine : QString)
    (hn : '\n' ∉ trimmed rawLine) (hr : '\r' ∉ trimmed rawLine) :
    (((CulParser.parseLine rawLine).varNum ≠ [] ↔
        (CulParser.parse (some (emitLines [trimmed rawLine]))).rows.length = 1) ∧
      ((CulParser.parseLine rawLine).varNum ≠ [] →
        (CulParser.parse (some (emitLines [trimmed rawLine]))).rows =
          [CulParser.parseLine rawLine])) ∧
    (((CulParser.parseLine rawLine).varNum ≠ [] ↔
        (CulParser.parse (some (emitLinesLF [trimmed rawLine]))).rows.length = 1) ∧
      ((CulParser.parseLine rawLine).varNum ≠ [] →
        (CulParser.parse (some (emitLinesLF [trimmed rawLine]))).rows =
          [CulParser.parseLine rawLine])) ∧
    (((CulParser.parseLine rawLine).varNum ≠ [] ↔
        (CulParser.parse (some (trimmed rawLine))).rows.length = 1) ∧
      ((CulParser.parseLine rawLine).varNum ≠ [] →
        (CulParser.parse (some (trimmed rawLine))).rows = [CulParser.parseLine rawLine])) := by
  have hall : ∀ l ∈ [trimmed rawLine], '\n' ∉ l ∧ '\r' ∉ l := by
    intro l hl
    rw [List.mem_singleton] at hl
    subst hl
    exact ⟨hn, hr⟩
  refine ⟨cul_parseLine_single rawLine _ (readLines_emitLines _ hall) hr,
    cul_parseLine_single rawLine _ (readLines_emitLinesLF _ hall) hr, ?_⟩
  by_cases he : trimmed rawLine = []
  · have hp : CulParser.parseLine rawLine = {} := by
      unfold CulParser.parseLine
      simp [he]
    rw [he, hp]
    constructor
    · constructor
      · intro h
        exact absurd rfl h
      · intro h
        revert h
        decide
    · intro h
      exact absurd rfl h
  · refine cul_parseLine_single rawLine _ ?_ hr
    rw [readLines_noLF _ hn hr]
    simp [he]

set_option maxRecDepth 100000 in
/-- Witness of C31 (amended): the line of the sample row between spaces. -/
theorem C31_parseLine_amended_witness :
    (CulParser.parseLine ("  ".toList ++ sampleLine ++ "  ".toList)).varNum ≠ [] ∧
    (CulParser.parse (some (emitLines [trimmed ("  ".toList ++ sampleLine ++ "  ".toList)]))).rows =
      [CulParser.parseLine ("  ".toList ++ sampleLine ++ "  ".toList)] :=
  ⟨by decide,
    (C31_parseLine_amended ("  ".toList ++ sampleLine ++ "  ".toList) (by decide) (by decide)).1.2
      (by decide)⟩

/-! ## The calibration marker -/

theorem dropWhile_of_all (p : Char → Bool) (ws rest : List Char) (h : ∀ x ∈ ws, p x = true) :
    (ws ++ rest).dropWhile p = rest.dropWhile p := by
  induction ws with
  | nil => rfl
  | cons x xs ih =>
    rw [List.cons_append, List.dropWhile_cons, if_pos (h x (List.mem_cons_self _ _))]
    exact ih (fun y hy => h y (List.mem_cons_of_mem _ hy))

theorem matchCal_iff (line : QString) :
    matchCal line = true ↔
      ∃ ws c rest, line = '!' :: (ws ++ c :: ("alibration".toList ++ rest)) ∧
        (∀ x ∈ ws, isReSpace x = true) ∧ (c = 'C' ∨ c = 'c') ∧
        (∀ d, rest.head? = some d → isWordChar d = false) := by
  constructor
  · intro h
    unfold matchCal at h
    split at h
    · rename_i r
      split at h
      · rename_i c r2 hdrop
        simp only [Bool.and_eq_true, Bool.or_eq_true, beq_iff_eq] at h
        obtain ⟨⟨hc, hpre⟩, hb⟩ := h
        obtain ⟨t, ht⟩ := List.isPrefixOf_iff_prefix.mp hpre
        refine ⟨r.takeWhile isReSpace, c, t, ?_, ?_, hc, ?_⟩
        · rw [ht, ← hdrop, List.takeWhile_append_dropWhile]
        · intro x hx
          exact (List.mem_takeWhile_imp hx)
        · intro d hd
          rw [← ht] at hb
          have h10 : List.drop 10 ("alibration".toList ++ t) = t :=
            List.drop_left' rfl
          rw [h10] at hb
          cases t with
          | nil => simp at hd
          | cons d' t' =>
            simp only [List.head?_cons, Option.some.injEq] at hd
            subst hd
            simpa using hb
      · cases h
    · cases h
  · rintro ⟨ws, c, rest, rfl, hws, hc, hrest⟩
    unfold matchCal
    simp only
    have hcs : isReSpace c = false := by
      rcases hc with rfl | rfl <;> decide
    rw [dropWhile_of_all isReSpace ws _ hws, List.dropWhile_cons, hcs]
    simp only [Bool.false_eq_true, if_false]
    have hpre : "alibration".toList.isPrefixOf ("alibration".toList ++ rest) = true :=
      List.isPrefixOf_iff_prefix.mpr ⟨rest, rfl⟩
    have h10 : List.drop 10 ("alibration".toList ++ rest) = rest := List.drop_left' rfl
    rw [hpre, h10]
    have hc' : (c == 'C' || c == 'c') = true := by
      rcases hc with rfl | rfl <;> decide
    rw [hc']
    cases rest with
    | nil => rfl
    | cons d t =>
      simp only [Bool.true_and]
      simpa using hrest d rfl

set_option maxRecDepth 100000 in
/-- C32 (counterexample): the header line `!CALIBRATION P G N` is not
recognised; `calibrationTypes` returns the empty map for it, while it returns
the tags for `!Calibration P G N` and for `!calibration P G N`. -/
theorem C32_upper_case_marker_not_recognised :
    matchCal "!CALIBRATION P G N".toList = false ∧
    CulParser.calibrationTypes sampleUpper ["!CALIBRATION P G N".toList] = [] ∧
    CulParser.calibrationTypes sampleUpper ["!Calibration P G N".toList] =
      [("CSDL".toList, "P".toList), ("PPSEN".toList, "G".toList),
        ("EM-FL".toList, "N".toList)] ∧
    CulParser.calibrationTypes sampleUpper ["!calibration P G N".toList] =
      [("CSDL".toList, "P".toList), ("PPSEN".toList, "G".toList),
        ("EM-FL".toList, "N".toList)] := by
  decide

/-- C32 (amended): `calibrationTypes` recognises a header line that consists
of `!`, optional white space, `Calibration` or `calibration` (the first letter
in either case, the other letters in lower case) and then the end of the line
or a character that is no letter, digit or underscore. It returns the tags of
the first such line: the result for the header lines is the result for that
line alone, and it is empty when no line is recognised. Where the marker word
follows `!` directly and is followed by white space or by the end of the line,
the tags are the upper-cased tokens after the marker word, bound by position
to the parameter names. -/
theorem C32_marker_amended (upper : QString → QString) (pre post : List QString)
    (line : QString) (hpre : ∀ l ∈ pre, matchCal l = false) (hline : matchCal line = true) :
    CulParser.calibrationTypes upper (pre ++ line :: post) =
      CulParser.calibrationTypes upper [line] ∧
    (∀ l : QString, matchCal l = true ↔
      ∃ ws c rest, l = '!' :: (ws ++ c :: ("alibration".toList ++ rest)) ∧
        (∀ x ∈ ws, isReSpace x = true) ∧ (c = 'C' ∨ c = 'c') ∧
        (∀ d, rest.head? = some d → isWordChar d = false)) ∧
    CulParser.calibrationTypes upper pre = [] ∧
    (∀ (c : Char) (rest : List Char), (c = 'C' ∨ c = 'c') →
      line = '!' :: c :: ("alibration".toList ++ rest) →
      (rest = [] ∨ ∃ d t, rest = d :: t ∧ isReSpace d = true) →
      CulParser.calibrationTypes upper (pre ++ line :: post) =
        (List.zip CUL_PARAM_NAMES (splitWs rest)).foldl
          (fun (m : QMap) (p : QString × QString) => mapInsert m p.1 (upper p.2)) []) := by
  have hfind : (pre ++ line :: post).find? matchCal = some line := by
    rw [List.find?_append, List.find?_eq_none.mpr (fun l hl => by simp [hpre l hl])]
    simp [List.find?_cons, hline]
  have hone : [line].find? matchCal = some line := by
    simp [List.find?_cons, hline]
  refine ⟨?_, matchCal_iff, ?_, ?_⟩
  · unfold CulParser.calibrationTypes
    rw [hfind, hone]
  · unfold CulParser.calibrationTypes
    rw [List.find?_eq_none.mpr (fun l hl => by simp [hpre l hl])]
  · intro c rest hc hl hrest
    unfold CulParser.calibrationTypes
    rw [hfind]
    simp only
    have htok : ∀ x ∈ '!' :: c :: "alibration".toList, isReSpace x = false := by
      rcases hc with rfl | rfl <;> decide
    have hsplit : splitWs line = ('!' :: c :: "alibration".toList) :: splitWs rest := by
      have hl2 : line = ('!' :: c :: "alibration".toList) ++ rest := by
        rw [hl]
        rfl
      rw [hl2]
      unfold splitWs
      rw [splitWsAux_token _ _ _ htok, List.nil_append]
      rcases hrest with rfl | ⟨d, t, rfl, hd⟩
      · rfl
      · simp only [splitWsAux, hd, if_true]
        rfl
    rw [hsplit]
    rfl

set_option maxRecDepth 100000 in
/-- Witness of C32 (amended): the line `!calibration P G N` after a title
line. -/
theorem C32_marker_amended_witness :
    CulParser.calibrationTypes sampleUpper
        (["*SOYBEAN".toList] ++ "!calibration P G N".toList :: ["!Calibration N N N".toList]) =
      [("CSDL".toList, "P".toList), ("PPSEN".toList, "G".toList),
        ("EM-FL".toList, "N".toList)] :=
  ((C32_marker_amended sampleUpper ["*SOYBEAN".toList] ["!Calibration N N N".toList]
    "!calibration P G N".toList (by decide) (by decide)).2.2.2 'c' " P G N".toList
      (Or.inr rfl) rfl (Or.inr ⟨' ', "P G N".toList, rfl, by decide⟩)).trans (by decide)

/-! ## The states of the tooltip scan -/

theorem tipStep_outside (fold : Char → Char) (st : TipState) (line : QString)
    (hin : st.inDefs = false) :
    CulParser.tipStep fold st line =
      if mentionsDefs fold line then { st with inDefs := true } else st := by
  unfold CulParser.tipStep mentionsDefs
  simp [hin]

theorem foldl_tipStep_outside (fold : Char → Char) (ls : List QString)
    (h : ∀ l ∈ ls, mentionsDefs fold l = false) (st : TipState) (hin : st.inDefs = false) :
    ls.foldl (CulParser.tipStep fold) st = st := by
  induction ls with
  | nil => rfl
  | cons l ls ih =>
    rw [List.foldl_cons, tipStep_outside fold st l hin, h l (List.mem_cons_self _ _)]
    exact ih (fun x hx => h x (List.mem_cons_of_mem _ hx))

theorem tooltipsFromHeader_eq (fold : Char → Char) (ls : List QString) :
    CulParser.tooltipsFromHeader fold ls = ((ls.takeWhile notAt).foldl
      (CulParser.tipStep fold) {}).tips := rfl

/-- C33: `tooltipsFromHeader` captures nothing from the lines up to and
including the first line that contains both `DEFINITIONS` and `COEFF`, in any
letter case: the map is the one the scan builds from the lines after that line,
whatever the lines before it and the line itself are; where no line before the
first `@` line contains both, the map is empty. -/
theorem C33_definitions_block_entry (fold : Char → Char) (pre rest : List QString)
    (d : QString) (hpre : ∀ l ∈ pre, l.head? ≠ some '@' ∧ mentionsDefs fold l = false)
    (hd : d.head? ≠ some '@' ∧ mentionsDefs fold d = true) :
    CulParser.tooltipsFromHeader fold (pre ++ d :: rest) =
      ((rest.takeWhile notAt).foldl (CulParser.tipStep fold) { inDefs := true }).tips ∧
    CulParser.tooltipsFromHeader fold pre = [] ∧
    CulParser.tooltipsFromHeader fold (pre ++ [d]) = [] ∧
    (∀ ls : List QString, (∀ l ∈ ls.takeWhile notAt, mentionsDefs fold l = false) →
      CulParser.tooltipsFromHeader fold ls = []) := by
  have hnone : ∀ ls : List QString, (∀ l ∈ ls.takeWhile notAt, mentionsDefs fold l = false) →
      CulParser.tooltipsFromHeader fold ls = [] := by
    intro ls h
    rw [tooltipsFromHeader_eq, foldl_tipStep_outside fold _ h {} rfl]
  have hpre1 : ∀ l ∈ pre, notAt l = true := by
    intro l hl
    simp only [notAt, bne_iff_ne, ne_eq]
    exact (hpre l hl).1
  have hd1 : notAt d = true := by
    simp only [notAt, bne_iff_ne, ne_eq]
    exact hd.1
  have hmain : ∀ tail : List QString, CulParser.tooltipsFromHeader fold (pre ++ d :: tail) =
      ((tail.takeWhile notAt).foldl (CulParser.tipStep fold) { inDefs := true }).tips := by
    intro tail
    rw [tooltipsFromHeader_eq, takeWhile_append_of_all notAt pre _ hpre1, List.takeWhile_cons,
      if_pos hd1, List.foldl_append, List.foldl_cons,
      foldl_tipStep_outside fold pre (fun l hl => (hpre l hl).2) {} rfl,
      tipStep_outside fold {} d rfl, if_pos hd.2]
  refine ⟨hmain rest, ?_, ?_, hnone⟩
  · apply hnone
    intro l hl
    exact (hpre l ((List.takeWhile_sublist _).subset hl)).2
  · rw [hmain []]
    rfl

set_option maxRecDepth 100000 in
/-- Witness of C33: an entry-shaped line for CSDL before the line
`! COEFF       DEFINITIONS` leaves no entry; the entry line for PPSEN after it
does. -/
theorem C33_definitions_block_entry_witness :
    CulParser.tooltipsFromHeader Char.toLower
      (["*SOYBEAN".toList, "! CSDL  Critical short day length".toList] ++
        "! COEFF       DEFINITIONS".toList :: ["! PPSEN  Slope of the response".toList]) =
      [("PPSEN".toList, "Slope of the response".toList)] :=
  ((C33_definitions_block_entry Char.toLower
      ["*SOYBEAN".toList, "! CSDL  Critical short day length".toList]
      ["! PPSEN  Slope of the response".toList] "! COEFF       DEFINITIONS".toList
      (by decide) (by decide)).1).trans (by decide)

/-- C34: inside the definitions block, a line that is neither an entry line
nor a continuation line closes the open entry: no key is open after it and the
map is unchanged; the lines that follow change neither the map nor the state as
long as none of them is an entry line, continuation lines included. -/
theorem C34_entry_closing (fold : Char → Char) (st : TipState) (line : QString)
    (ls : List QString) (hin : st.inDefs = true) (h1 : matchEntry line = none)
    (h2 : matchCont line = none) (h3 : ∀ l ∈ ls, matchEntry l = none) :
    (CulParser.tipStep fold st line).tips = st.tips ∧
    (CulParser.tipStep fold st line).curKey = [] ∧
    (CulParser.tipStep fold st line).inDefs = true ∧
    ls.foldl (CulParser.tipStep fold) (CulParser.tipStep fold st line) =
      CulParser.tipStep fold st line := by
  have hstep : CulParser.tipStep fold st line = { st with curKey := [] } := by
    by_cases hk : st.curKey = []
    · rw [tipStep_idle fold st line hin hk h1]
      cases st
      simp only at hk
      rw [hk]
    · exact tipStep_clear fold st line hin hk h1 h2
  rw [hstep]
  refine ⟨rfl, rfl, hin, ?_⟩
  generalize hst2 : ({ st with curKey := [] } : TipState) = st2
  have hin2 : st2.inDefs = true := by
    rw [← hst2]
    exact hin
  have hk2 : st2.curKey = [] := by
    rw [← hst2]
  induction ls with
  | nil => rfl
  | cons l ls ih =>
    rw [List.foldl_cons, tipStep_idle fold st2 l hin2 hk2 (h3 l (List.mem_cons_self _ _))]
    exact ih (fun x hx => h3 x (List.mem_cons_of_mem _ hx))

set_option maxRecDepth 100000 in
/-- Witness of C34: after the entry for CSDL the line `!` closes it, and the
continuation-shaped line that follows is not appended. -/
theorem C34_entry_closing_witness :
    CulParser.tooltipsFromHeader Char.toLower
      ["! COEFF       DEFINITIONS".toList, "! CSDL  Critical short day length".toList,
        "!".toList, "!        (hours)".toList] =
      [("CSDL".toList, "Critical short day length".toList)] ∧
    ["!        (hours)".toList].foldl (CulParser.tipStep Char.toLower)
        (CulParser.tipStep Char.toLower
          { inDefs := true, curKey := "CSDL".toList,
            tips := [("CSDL".toList, "Critical short day length".toList)] } "!".toList) =
      CulParser.tipStep Char.toLower
        { inDefs := true, curKey := "CSDL".toList,
          tips := [("CSDL".toList, "Critical short day length".toList)] } "!".toList :=
  ⟨by decide,
    (C34_entry_closing Char.toLower
      { inDefs := true, curKey := "CSDL".toList,
        tips := [("CSDL".toList, "Critical short day length".toList)] } "!".toList
      ["!        (hours)".toList] rfl (by decide) (by decide) (by decide)).2.2.2⟩

/-- C35: the map of `tooltipsFromHeader` is the map of the lines before the
first line that starts with `@`: with any lines at and after that line, or with
none, the result is the same. -/
theorem C35_scan_stops_at_label_line (fold : Char → Char) (pre rest rest2 : List QString)
    (a b : QString) (hpre : ∀ l ∈ pre, l.head? ≠ some '@') :
    CulParser.tooltipsFromHeader fold (pre ++ ('@' :: a) :: rest) =
      CulParser.tooltipsFromHeader fold pre ∧
    CulParser.tooltipsFromHeader fold (pre ++ ('@' :: a) :: rest) =
      CulParser.tooltipsFromHeader fold (pre ++ ('@' :: b) :: rest2) ∧
    CulParser.tooltipsFromHeader fold pre =
      (pre.foldl (CulParser.tipStep fold) {}).tips := by
  have hpre1 : ∀ l ∈ pre, notAt l = true := by
    intro l hl
    simp only [notAt, bne_iff_ne, ne_eq]
    exact hpre l hl
  have h1 : ∀ (c : QString) (tail : List QString),
      CulParser.tooltipsFromHeader fold (pre ++ ('@' :: c) :: tail) =
        (pre.foldl (CulParser.tipStep fold) {}).tips := by
    intro c tail
    rw [tooltipsFromHeader_eq, takeWhile_append_of_all notAt pre _ hpre1, List.takeWhile_cons]
    have : notAt ('@' :: c) = false := by simp [notAt]
    rw [this]
    simp
  have h2 : CulParser.tooltipsFromHeader fold pre =
      (pre.foldl (CulParser.tipStep fold) {}).tips := by
    have := takeWhile_append_of_all notAt pre [] hpre1
    rw [List.append_nil, List.takeWhile_nil, List.append_nil] at this
    rw [tooltipsFromHeader_eq, this]
  exact ⟨(h1 a rest).trans h2.symm, (h1 a rest).trans (h1 b rest2).symm, h2⟩

set_option maxRecDepth 100000 in
/-- Witness of C35: an entry line after the `@` line is not read. -/
theorem C35_scan_stops_at_label_line_witness :
    CulParser.tooltipsFromHeader Char.toLower
      (["! COEFF       DEFINITIONS".toList, "! CSDL  Critical short day length".toList] ++
        ('@' :: "VAR#  VRNAME".toList) :: ["! PPSEN  Slope of the response".toList]) =
      CulParser.tooltipsFromHeader Char.toLower
        ["! COEFF       DEFINITIONS".toList, "! CSDL  Critical short day length".toList] :=
  (C35_scan_stops_at_label_line Char.toLower
    ["! COEFF       DEFINITIONS".toList, "! CSDL  Critical short day length".toList]
    ["! PPSEN  Slope of the response".toList] [] "VAR#  VRNAME".toList []
    (by decide)).1

/-! ## Every access is within bounds -/

theorem readLoopChecked_eq (tokens : List QString) (i k : Nat) :
    readLoopChecked tokens i k = some (((tokens.drop i).take k).map toDouble) := by
  induction k generalizing i with
  | zero => simp [readLoopChecked]
  | succ k ih =>
    unfold readLoopChecked
    by_cases hi : i < tokens.length
    · rw [if_pos hi, List.getElem?_eq_getElem hi]
      simp only [ih, Option.map_some']
      rw [List.drop_eq_getElem_cons hi]
      simp only [List.take_succ_cons, List.map_cons]
    · rw [if_neg hi, List.drop_eq_nil_of_le (by omega)]
      simp

theorem readParamsChecked_eq (tokens : List QString) (n : Nat) :
    readParamsChecked tokens n = some (readParams tokens n) := by
  unfold readParamsChecked readParams
  rw [readLoopChecked_eq]
  rfl

theorem cul_parseDataLineChecked_eq (line : QString) :
    CulParser.parseDataLineChecked line = some (CulParser.parseDataLine line) := by
  unfold CulParser.parseDataLineChecked CulParser.parseDataLine
  by_cases h1 : line.length < 36
  · rw [if_pos h1, if_pos h1]
  · rw [if_neg h1, if_neg h1]
    have e1 : leftChecked line 6 = some (left line 6) := by
      unfold leftChecked
      rw [if_pos (by omega)]
      rfl
    have e2 : midChecked line 7 13 = some (mid line 7 13) := by
      unfold midChecked
      rw [if_pos (by omega)]
    have e3 : midFromChecked line 20 = some (midFrom line 20) := by
      unfold midFromChecked
      rw [if_pos (by omega)]
    rw [e1, e2, e3]
    simp only
    by_cases h3 : (splitWs (midFrom line 20)).isEmpty = true
    · rw [if_pos h3, if_pos h3]
    · rw [if_neg h3, if_neg h3]
      by_cases h4 : (splitWs (midFrom line 20)).length < 2
      · rw [if_pos h4, if_pos h4]
      · rw [if_neg h4, if_neg h4]
        have g0 : (splitWs (midFrom line 20))[0]? =
            some ((splitWs (midFrom line 20)).getD 0 []) := by
          rw [List.getD_eq_getElem?_getD, List.getElem?_eq_getElem (by omega)]
          rfl
        have g1 : (splitWs (midFrom line 20))[1]? =
            some ((splitWs (midFrom line 20)).getD 1 []) := by
          rw [List.getD_eq_getElem?_getD, List.getElem?_eq_getElem (by omega)]
          rfl
        rw [g0, g1, readParamsChecked_eq]

theorem cul_parseStepChecked_eq (acc : CulParser.Parsed) (line0 : QString) :
    CulParser.parseStepChecked acc line0 = some (CulParser.parseStep acc line0) := by
  unfold CulParser.parseStepChecked CulParser.parseStep
  simp only
  by_cases h1 : (chopCR line0).isEmpty = true
  · rw [if_pos h1, if_pos h1]
  · rw [if_neg h1, if_neg h1]
    cases hl : chopCR line0 with
    | nil => rw [hl] at h1; exact absurd rfl h1
    | cons c t =>
      simp only [List.getElem?_cons_zero, List.headD_cons]
      by_cases h2 : isHeaderMark c = true
      · rw [if_pos h2, if_pos h2]
      · rw [if_neg h2, if_neg h2, cul_parseDataLineChecked_eq]
        cases CulParser.parseDataLine (c :: t) <;> rfl

theorem cul_parseLoopChecked_eq (ls : List QString) (acc : CulParser.Parsed) :
    CulParser.parseLoopChecked ls acc = some (ls.foldl CulParser.parseStep acc) := by
  induction ls generalizing acc with
  | nil => rfl
  | cons l ls ih =>
    unfold CulParser.parseLoopChecked
    rw [cul_parseStepChecked_eq]
    exact ih _

/-- C36: `parse` and `parseLine` are total functions of the input text, and in
them every character access `line[0]`, every column extraction (`left(6)`,
`mid(7, 13)`, `mid(20)`) and every token access `tokens[i]` is within bounds:
the functions with checked accesses return, for every input, the result of the
functions the code defines. -/
theorem C36_accesses_within_bounds (file : Option (List Char)) (rawLine : QString) :
    CulParser.parseChecked file = some (CulParser.parse file) ∧
    CulParser.parseLineChecked rawLine = some (CulParser.parseLine rawLine) := by
  constructor
  · unfold CulParser.parseChecked CulParser.parse
    cases file with
    | none => rfl
    | some text => exact cul_parseLoopChecked_eq _ _
  · unfold CulParser.parseLineChecked CulParser.parseLine
    simp only
    by_cases h1 : (trimmed rawLine).isEmpty = true
    · rw [if_pos h1]
      simp [h1]
    · rw [if_neg h1]
      cases hl : trimmed rawLine with
      | nil => rw [hl] at h1; exact absurd rfl h1
      | cons c t =>
        simp only [List.getElem?_cons_zero, List.headD_cons, List.isEmpty_cons, Bool.false_or]
        by_cases h2 : isHeaderMark c = true
        · rw [if_pos h2, if_pos h2]
        · rw [if_neg h2, if_neg h2]
          by_cases h3 : (c :: t).length < 36
          · rw [if_pos h3, if_pos h3]
          · rw [if_neg h3, if_neg h3]
            have e1 : leftChecked (c :: t) 6 = some (left (c :: t) 6) := by
              unfold leftChecked
              rw [if_pos (by omega)]
              rfl
            have e2 : midChecked (c :: t) 7 13 = some (mid (c :: t) 7 13) := by
              unfold midChecked
              rw [if_pos (by omega)]
            have e3 : midFromChecked (c :: t) 20 = some (midFrom (c :: t) 20) := by
              unfold midFromChecked
              rw [if_pos (by omega)]
            rw [e1, e2, e3]
            simp only
            by_cases h4 : (splitWs (midFrom (c :: t) 20)).isEmpty = true
            · rw [if_pos h4, if_pos h4]
            · rw [if_neg h4, if_neg h4]
              by_cases h5 : (splitWs (midFrom (c :: t) 20)).length < 2
              · rw [if_pos h5, if_pos h5]
              · rw [if_neg h5, if_neg h5]
                have g0 : (splitWs (midFrom (c :: t) 20))[0]? =
                    some ((splitWs (midFrom (c :: t) 20)).getD 0 []) := by
                  rw [List.getD_eq_getElem?_getD, List.getElem?_eq_getElem (by omega)]
                  rfl
                have g1 : (splitWs (midFrom (c :: t) 20))[1]? =
                    some ((splitWs (midFrom (c :: t) 20)).getD 1 []) := by
                  rw [List.getD_eq_getElem?_getD, List.getElem?_eq_getElem (by omega)]
                  rfl
                rw [g0, g1, readParamsChecked_eq]

/-! ## Section navigation -/

set_option maxRecDepth 100000 in
/-- C37 (failing input): for the text `*  SOIL` (two spaces after the mark)
`sectionNames` lists the section `SOIL` and `sectionOffset` returns -1 for it.
For the text of the two lines `*SOIL WATER` and `*SOIL`, `sectionNames` lists
`SOIL WATER` and `SOIL`, and `sectionOffset` returns 0 for `SOIL`, the offset of
the header of `SOIL WATER`, while the header of `SOIL` starts at offset 12. For
the text of the two lines `**SOIL` and `*SOIL`, the only section listed is that
of the second line, which starts at offset 7, and `sectionOffset` returns 1. -/
theorem C37_listed_section_not_found :
    (SpeEditor.sectionNames "*  SOIL".toList = ["SOIL".toList] ∧
      SpeEditor.sectionOffset Char.toLower "*  SOIL".toList "SOIL".toList = -1) ∧
    (SpeEditor.sectionNames "*SOIL WATER\n*SOIL".toList =
        ["SOIL WATER".toList, "SOIL".toList] ∧
      SpeEditor.sectionOffset Char.toLower "*SOIL WATER\n*SOIL".toList "SOIL".toList = 0 ∧
      "*SOIL WATER\n*SOIL".toList.drop 12 = "*SOIL".toList) ∧
    (SpeEditor.sectionNames "**SOIL\n*SOIL".toList = ["SOIL".toList] ∧
      SpeEditor.sectionOffset Char.toLower "**SOIL\n*SOIL".toList "SOIL".toList = 1 ∧
      "**SOIL\n*SOIL".toList.drop 7 = "*SOIL".toList) := by
  refine ⟨⟨by decide, by decide⟩, ⟨by decide, by decide, by decide⟩,
    ⟨by decide, by decide, by decide⟩⟩

/-! ## The widths of the text fields -/

theorem length_left_le (s : QString) (n : Nat) : (left s n).length ≤ n := by
  unfold left
  split
  · rename_i h
    rcases h with h | h
    · omega
    · exact_mod_cast h
  · simp only [Int.toNat_ofNat, List.length_take]
    omega

theorem culModel_setData_fits (self : CulTableModel) (index : QModelIndex)
    (value : QVariant) (role : Int) (h : ∀ r ∈ self.m_rows, r.fits = true) :
    ∀ r ∈ (self.setData index value role).2.m_rows, r.fits = true := by
  unfold CulTableModel.setData
  split
  · exact h
  · split
    · exact h
    · rename_i row hrow
      have hmem : row ∈ self.m_rows := List.getElem?_mem hrow
      have hn := h row hmem
      have key : ∀ r' : CulRow, r'.fits = true →
          ∀ r ∈ self.m_rows.set index.row.toNat r', r.fits = true := by
        intro r' hr' r hr
        rcases List.mem_or_eq_of_mem_set hr with hr | hr
        · exact h r hr
        · rw [hr]; exact hr'
      have h6 := length_left_le value.toString 6
      have h13 := length_left_le value.toString 13
      have h1 := length_left_le value.toString 1
      simp only [CulRow.fits, Bool.and_eq_true, decide_eq_true_eq] at hn
      simp only
      repeat' split
      all_goals first
        | exact h
        | exact key _ (by
            simp only [CulRow.fits, Bool.and_eq_true, decide_eq_true_eq]
            refine ⟨⟨⟨?_, ?_⟩, ?_⟩, ?_⟩ <;> first | exact h6 | exact h13 | exact h1 | omega)

theorem ecoModel_setData_fits (self : EcoTableModel) (index : QModelIndex)
    (value : QVariant) (role : Int) (h : ∀ r ∈ self.m_rows, r.fits = true) :
    ∀ r ∈ (self.setData index value role).2.m_rows, r.fits = true := by
  unfold EcoTableModel.setData
  split
  · exact h
  · split
    · exact h
    · rename_i row hrow
      have hmem : row ∈ self.m_rows := List.getElem?_mem hrow
      have hn := h row hmem
      have key : ∀ r' : EcoRow, r'.fits = true →
          ∀ r ∈ self.m_rows.set index.row.toNat r', r.fits = true := by
        intro r' hr' r hr
        rcases List.mem_or_eq_of_mem_set hr with hr | hr
        · exact h r hr
        · rw [hr]; exact hr'
      have h6 := length_left_le value.toString 6
      have h16 := length_left_le value.toString 16
      have h2 := length_left_le value.toString 2
      simp only [EcoRow.fits, Bool.and_eq_true, decide_eq_true_eq] at hn
      simp only
      repeat' split
      all_goals first
        | exact h
        | exact key _ (by
            simp only [EcoRow.fits, Bool.and_eq_true, decide_eq_true_eq]
            refine ⟨⟨⟨?_, ?_⟩, ?_⟩, ?_⟩ <;> first | exact h6 | exact h16 | exact h2 | omega)

theorem culModel_addRow_fits (self : CulTableModel) (h : ∀ r ∈ self.m_rows, r.fits = true) :
    ∀ r ∈ self.addRow.m_rows, r.fits = true := by
  unfold CulTableModel.addRow
  intro r hr
  rcases List.mem_append.mp hr with hr | hr
  · exact h r hr
  · rw [List.mem_singleton.mp hr]
    decide

theorem ecoModel_addRow_fits (self : EcoTableModel) (h : ∀ r ∈ self.m_rows, r.fits = true) :
    ∀ r ∈ self.addRow.m_rows, r.fits = true := by
  unfold EcoTableModel.addRow
  intro r hr
  rcases List.mem_append.mp hr with hr | hr
  · exact h r hr
  · rw [List.mem_singleton.mp hr]
    decide

theorem culModel_deleteRow_fits (self : CulTableModel) (k : Int)
    (h : ∀ r ∈ self.m_rows, r.fits = true) :
    ∀ r ∈ (self.deleteRow k).m_rows, r.fits = true := by
  unfold CulTableModel.deleteRow
  split
  · exact h
  · split
    · exact h
    · split
      · exact h
      · intro r hr
        exact h r (List.mem_of_mem_eraseIdx hr)

theorem ecoModel_deleteRow_fits (self : EcoTableModel) (k : Int)
    (h : ∀ r ∈ self.m_rows, r.fits = true) :
    ∀ r ∈ (self.deleteRow k).m_rows, r.fits = true := by
  unfold EcoTableModel.deleteRow
  split
  · exact h
  · split
    · exact h
    · split
      · exact h
      · intro r hr
        exact h r (List.mem_of_mem_eraseIdx hr)

theorem culModel_duplicateRow_rows (self : CulTableModel) (k : Nat) (row : CulRow)
    (h : self.m_rows[k]? = some row) :
    (self.duplicateRow k).m_rows =
      self.m_rows ++ [{ row with isMinMax := false, varNum := row.varNum ++ ['X'] }] := by
  have hk : k < self.m_rows.length := by
    by_contra hc
    rw [List.getElem?_eq_none (by omega)] at h
    cases h
  unfold CulTableModel.duplicateRow
  rw [if_neg (by omega)]
  simp only [Int.toNat_ofNat, h]

theorem ecoModel_duplicateRow_rows (self : EcoTableModel) (k : Nat) (row : EcoRow)
    (h : self.m_rows[k]? = some row) :
    (self.duplicateRow k).m_rows =
      self.m_rows ++ [{ row with isMinMax := false, ecoNum := row.ecoNum ++ ['X'] }] := by
  have hk : k < self.m_rows.length := by
    by_contra hc
    rw [List.getElem?_eq_none (by omega)] at h
    cases h
  unfold EcoTableModel.duplicateRow
  rw [if_neg (by omega)]
  simp only [Int.toNat_ofNat, h]

/-- C38 (failing input): `duplicateRow` of a row whose identifier has 6
characters appends a row whose identifier has 7 characters, in the cultivar and
in the ecotype model, so the length limits do not hold in every reachable
state; `setData`, `addRow` and `deleteRow` keep them. -/
theorem C38_duplicate_identifier_exceeds_width (cm : CulTableModel) (em : EcoTableModel)
    (k j : Nat) (row : CulRow) (erow : EcoRow) (index : QModelIndex) (value : QVariant)
    (role : Int) (d : Int)
    (hc : ∀ r ∈ cm.m_rows, r.fits = true) (he : ∀ r ∈ em.m_rows, r.fits = true)
    (hk : cm.m_rows[k]? = some row) (hj : em.m_rows[j]? = some erow)
    (h6 : row.varNum.length = 6) (h6e : erow.ecoNum.length = 6) :
    ((cm.duplicateRow k).m_rows.getLast?.map fun r => r.varNum.length) = some 7 ∧
    ¬ (∀ r ∈ (cm.duplicateRow k).m_rows, r.fits = true) ∧
    ((em.duplicateRow j).m_rows.getLast?.map fun r => r.ecoNum.length) = some 7 ∧
    ¬ (∀ r ∈ (em.duplicateRow j).m_rows, r.fits = true) ∧
    (∀ r ∈ (cm.setData index value role).2.m_rows, r.fits = true) ∧
    (∀ r ∈ cm.addRow.m_rows, r.fits = true) ∧
    (∀ r ∈ (cm.deleteRow d).m_rows, r.fits = true) ∧
    (∀ r ∈ (em.setData index value role).2.m_rows, r.fits = true) ∧
    (∀ r ∈ em.addRow.m_rows, r.fits = true) ∧
    (∀ r ∈ (em.deleteRow d).m_rows, r.fits = true) := by
  refine ⟨?_, ?_, ?_, ?_, culModel_setData_fits cm index value role hc,
    culModel_addRow_fits cm hc, culModel_deleteRow_fits cm d hc,
    ecoModel_setData_fits em index value role he, ecoModel_addRow_fits em he,
    ecoModel_deleteRow_fits em d he⟩
  · rw [culModel_duplicateRow_rows cm k row hk]
    simp [h6]
  · rw [culModel_duplicateRow_rows cm k row hk]
    intro hall
    have := hall _ (List.mem_append_right _ (List.mem_singleton_self _))
    simp [CulRow.fits, h6] at this
  · rw [ecoModel_duplicateRow_rows em j erow hj]
    simp [h6e]
  · rw [ecoModel_duplicateRow_rows em j erow hj]
    intro hall
    have := hall _ (List.mem_append_right _ (List.mem_singleton_self _))
    simp [EcoRow.fits, h6e] at this

set_option maxRecDepth 100000 in
/-- Witness of C38: the sample model and the sample ecotype row. The line
`formatRow` writes for the duplicate of `IB0001` starts with the 7-character
identifier `IB0001X`, and `parse` reads that line as the row `IB0001` with the
name `SOME CULTIVA`, the experiment code `R.` and the cross-reference code
`.`. -/
theorem C38_duplicate_identifier_exceeds_width_witness :
    ((sampleModel.duplicateRow 2).m_rows.getLast?.map fun r => r.varNum.length) = some 7 ∧
    (((sampleModel.duplicateRow 2).m_rows.getLast?.bind (CulParser.formatRow sampleG)).map
        fun l => l.take 44) =
      some "IB0001X SOME CULTIVAR.       . IB0001 15.00 ".toList ∧
    ((((sampleModel.duplicateRow 2).m_rows.getLast?.bind (CulParser.formatRow sampleG)).bind
        CulParser.parseDataLine).map fun r => (r.varNum, r.vrName, r.expNo, r.ecoNum)) =
      some ("IB0001".toList, "SOME CULTIVA".toList, "R.".toList, ".".toList) :=
  ⟨(C38_duplicate_identifier_exceeds_width sampleModel { m_rows := [sampleEco] } 2 0
      sampleRow sampleEco ⟨2, 0⟩ ⟨[], none⟩ EditRole 2 (by decide) (by decide) rfl rfl
      rfl rfl).1,
    by decide, by decide⟩

/-! ## The effect of an edit -/

theorem culModel_setData_cases (self : CulTableModel) (index : QModelIndex)
    (value : QVariant) (role : Int) :
    self.setData index value role = (false, self) ∨
      (role = EditRole ∧ index.isValid = true ∧
        ∃ row row', self.m_rows[index.row.toNat]? = some row ∧ row.isMinMax = false ∧
          self.setData index value role =
            (true, { self with m_rows := self.m_rows.set index.row.toNat row' }) ∧
          ((index.column = CulTableModel.COL_VARNUM ∧
              row' = { row with varNum := left value.toString 6 }) ∨
            (index.column = CulTableModel.COL_VRNAME ∧
              row' = { row with vrName := left value.toString 13 }) ∨
            (index.column = CulTableModel.COL_EXPNO ∧
              row' = { row with expNo := left value.toString 1 }) ∨
            (index.column = CulTableModel.COL_ECONUM ∧
              row' = { row with ecoNum := left value.toString 6 }) ∨
            (∃ v, value.toDouble = some v ∧ CulTableModel.COL_PARAM0 ≤ index.column ∧
              index.column - CulTableModel.COL_PARAM0 < row.params.length ∧
              row' = { row with
                params := row.params.set (index.column - CulTableModel.COL_PARAM0).toNat v })))
      := by
  unfold CulTableModel.setData
  by_cases h0 : role ≠ EditRole ∨ (!index.isValid) = true ∨ index.row ≥ self.m_rows.length
  · rw [if_pos h0]
    exact Or.inl rfl
  · rw [if_neg h0]
    simp only [not_or, not_not, Bool.not_eq_true', Bool.not_eq_false] at h0
    obtain ⟨hrole, hvalid, hrow⟩ := h0
    cases hget : self.m_rows[index.row.toNat]? with
    | none => exact Or.inl rfl
    | some row =>
      simp only
      by_cases hmm : row.isMinMax = true
      · rw [if_pos hmm]
        exact Or.inl rfl
      · rw [if_neg hmm]
        have hmm' : row.isMinMax = false := by simpa using hmm
        by_cases c0 : index.column = CulTableModel.COL_VARNUM
        · rw [if_pos c0]
          exact Or.inr ⟨hrole, hvalid, row, _, rfl, hmm', rfl, Or.inl ⟨c0, rfl⟩⟩
        · rw [if_neg c0]
          by_cases c1 : index.column = CulTableModel.COL_VRNAME
          · rw [if_pos c1]
            exact Or.inr ⟨hrole, hvalid, row, _, rfl, hmm', rfl, Or.inr (Or.inl ⟨c1, rfl⟩)⟩
          · rw [if_neg c1]
            by_cases c2 : index.column = CulTableModel.COL_EXPNO
            · rw [if_pos c2]
              exact Or.inr ⟨hrole, hvalid, row, _, rfl, hmm', rfl,
                Or.inr (Or.inr (Or.inl ⟨c2, rfl⟩))⟩
            · rw [if_neg c2]
              by_cases c3 : index.column = CulTableModel.COL_ECONUM
              · rw [if_pos c3]
                exact Or.inr ⟨hrole, hvalid, row, _, rfl, hmm', rfl,
                  Or.inr (Or.inr (Or.inr (Or.inl ⟨c3, rfl⟩)))⟩
              · rw [if_neg c3]
                by_cases hp : 0 ≤ index.column - CulTableModel.COL_PARAM0 ∧
                    index.column - CulTableModel.COL_PARAM0 < row.params.length
                · rw [if_pos hp]
                  cases hv : value.toDouble with
                  | none => exact Or.inl rfl
                  | some v =>
                    exact Or.inr ⟨hrole, hvalid, row, _, rfl, hmm', rfl,
                      Or.inr (Or.inr (Or.inr (Or.inr
                        ⟨v, rfl, by omega, hp.2, rfl⟩)))⟩
                · rw [if_neg hp]
                  exact Or.inl rfl

/-- C39: a call of `CulTableModel::setData` that returns false leaves the state
unchanged. A call that returns true was made with the edit role at a row that
exists and does not carry the sentinel flag; it replaces that row by a row that
differs from it in the addressed field only (the identifier, name, experiment
code or cross-reference code set to the text cut to 6, 13, 1 or 6 characters,
or the addressed parameter set to the number the value converts to), and it
leaves every other row, the number and order of the rows, the stored bounds,
the tooltips and the calibration tags unchanged. The call returns false for a
role other than the edit role, for a row index outside the rows, for a row with
the sentinel flag, for a value that is no number in a parameter column and for
a column past the parameters. -/
theorem C39_edit_local_and_atomic (self : CulTableModel) (index : QModelIndex)
    (value : QVariant) (role : Int) :
    ((self.setData index value role).1 = false → (self.setData index value role).2 = self) ∧
    ((self.setData index value role).1 = true →
      role = EditRole ∧ index.isValid = true ∧
      ∃ row row', self.m_rows[index.row.toNat]? = some row ∧ row.isMinMax = false ∧
        (self.setData index value role).2.m_rows = self.m_rows.set index.row.toNat row' ∧
        (self.setData index value role).2.m_rows[index.row.toNat]? = some row' ∧
        ((index.column = CulTableModel.COL_VARNUM ∧
            row' = { row with varNum := left value.toString 6 }) ∨
          (index.column = CulTableModel.COL_VRNAME ∧
            row' = { row with vrName := left value.toString 13 }) ∨
          (index.column = CulTableModel.COL_EXPNO ∧
            row' = { row with expNo := left value.toString 1 }) ∨
          (index.column = CulTableModel.COL_ECONUM ∧
            row' = { row with ecoNum := left value.toString 6 }) ∨
          (∃ v, value.toDouble = some v ∧ CulTableModel.COL_PARAM0 ≤ index.column ∧
            index.column - CulTableModel.COL_PARAM0 < row.params.length ∧
            row' = { row with
              params := row.params.set (index.column - CulTableModel.COL_PARAM0).toNat v } ∧
            (∀ q, q ≠ (index.column - CulTableModel.COL_PARAM0).toNat →
              row'.params[q]? = row.params[q]?) ∧
            row'.params[(index.column - CulTableModel.COL_PARAM0).toNat]? = some v))) ∧
    (∀ k, k ≠ index.row.toNat →
      (self.setData index value role).2.m_rows[k]? = self.m_rows[k]?) ∧
    (self.setData index value role).2.m_rows.length = self.m_rows.length ∧
    (self.setData index value role).2.m_minParams = self.m_minParams ∧
    (self.setData index value role).2.m_maxParams = self.m_maxParams ∧
    (self.setData index value role).2.m_tips = self.m_tips ∧
    (self.setData index value role).2.m_calibTypes = self.m_calibTypes ∧
    (role ≠ EditRole → (self.setData index value role).1 = false) ∧
    (index.row < 0 ∨ index.row ≥ self.m_rows.length →
      (self.setData index value role).1 = false) ∧
    (∀ row, self.m_rows[index.row.toNat]? = some row → row.isMinMax = true →
      (self.setData index value role).1 = false) ∧
    (value.toDouble = none → CulTableModel.COL_PARAM0 ≤ index.column →
      (self.setData index value role).1 = false) ∧
    (∀ row, self.m_rows[index.row.toNat]? = some row →
      index.column < 0 ∨ CulTableModel.COL_PARAM0 + row.params.length ≤ index.column →
      (self.setData index value role).1 = false) := by
  have hcol : CulTableModel.COL_VARNUM = 0 ∧ CulTableModel.COL_VRNAME = 1 ∧
      CulTableModel.COL_EXPNO = 2 ∧ CulTableModel.COL_ECONUM = 3 ∧
      CulTableModel.COL_PARAM0 = 4 := ⟨rfl, rfl, rfl, rfl, rfl⟩
  obtain ⟨e0, e1, e2, e3, e4⟩ := hcol
  rcases culModel_setData_cases self index value role with h | h
  · rw [h]
    refine ⟨fun _ => rfl, fun hc => Bool.noConfusion hc, fun _ _ => rfl, rfl, rfl, rfl, rfl, rfl,
      fun _ => rfl, fun _ => rfl, fun _ _ _ => rfl, fun _ _ => rfl, fun _ _ _ => rfl⟩
  · obtain ⟨hrole, hvalid, row, row', hget, hmm, hS, hfield⟩ := h
    have hlt : index.row.toNat < self.m_rows.length := by
      by_contra hc
      rw [List.getElem?_eq_none (by omega)] at hget
      cases hget
    have hv : 0 ≤ index.row ∧ 0 ≤ index.column := by
      simpa [QModelIndex.isValid] using hvalid
    rw [hS]
    refine ⟨fun hc => Bool.noConfusion hc, fun _ => ⟨hrole, hvalid, row, row', hget, hmm, rfl, ?_, ?_⟩,
      ?_, ?_, rfl, rfl, rfl, rfl, ?_, ?_, ?_, ?_, ?_⟩
    · simp only
      rw [List.getElem?_set_self hlt]
    · rcases hfield with hf | hf | hf | hf | ⟨v, hval, hc4, hlen, hrow'⟩
      · exact Or.inl hf
      · exact Or.inr (Or.inl hf)
      · exact Or.inr (Or.inr (Or.inl hf))
      · exact Or.inr (Or.inr (Or.inr (Or.inl hf)))
      · refine Or.inr (Or.inr (Or.inr (Or.inr ⟨v, hval, hc4, hlen, hrow', ?_, ?_⟩)))
        · intro q hq
          rw [hrow']
          simp only
          rw [List.getElem?_set_ne (Ne.symm hq)]
        · rw [hrow']
          simp only
          rw [List.getElem?_set_self (by omega)]
    · intro k hk
      simp only
      rw [List.getElem?_set_ne (Ne.symm hk)]
    · simp only [List.length_set]
    · intro hne
      exact absurd hrole hne
    · intro hr
      rcases hr with hr | hr
      · omega
      · omega
    · intro r hr hflag
      rw [hget] at hr
      cases hr
      rw [hmm] at hflag
      cases hflag
    · intro hnone hge
      rcases hfield with hf | hf | hf | hf | ⟨v, hval, -, -, -⟩
      · omega
      · omega
      · omega
      · omega
      · rw [hnone] at hval
        cases hval
    · intro r hr hout
      rw [hget] at hr
      cases hr
      rcases hfield with hf | hf | hf | hf | ⟨v, -, hc4, hlen, -⟩
      · omega
      · omega
      · omega
      · omega
      · omega

end GenCPP
